import Mathlib

/-!
Verification development for the MapColoring CSP engine.

The definitions below are a shallow embedding of the Python sources:
`lib/variable.py`, `lib/constraint.py`, `lib/csp.py`, `lib/backtrack_solver.py`.
Python sets of values and of variable identities are modelled as duplicate-free
lists (insertion order kept, which fixes one deterministic iteration order for
the unordered Python sets); Python objects are identified by an id and stored
in an id-keyed store; mutation is explicit state passing; a raised
InvalidValueError is the `invalid` outcome (carrying the state left behind by
the raise), any other Python exception (KeyError, IndexError, AttributeError,
ZeroDivisionError) is the `crash` outcome.
-/

set_option maxHeartbeats 1600000

namespace MapColor

/-- Values stored in variable domains. -/
abbrev Val := Nat

/-- Identity of a variable instance (the per-instance id used for hashing). -/
abbrev VarId := Nat

/-- Shallow embedding of the Variable class of lib/variable.py. -/
structure Variable where
  id : VarId
  domain : List Val
  originalDomain : List Val
  value : Option Val
deriving Repr, DecidableEq

/-- Python set add for value sets (no duplicates, insertion order kept). -/
def addVal (l : List Val) (x : Val) : List Val :=
  if x ∈ l then l else l ++ [x]

/-- Python set add for sets of variable ids. -/
def addId (l : List VarId) (x : VarId) : List VarId :=
  if x ∈ l then l else l ++ [x]

/-- Python set discard for value sets. -/
def removeVal (l : List Val) (x : Val) : List Val :=
  l.filter (fun y => y ≠ x)

/-- Python set discard for sets of variable ids. -/
def removeId (l : List VarId) (x : VarId) : List VarId :=
  l.filter (fun y => y ≠ x)

/-- The value setter of Variable: raises InvalidValueError (modelled as `none`)
when the new value is non-null and not a member of the domain; otherwise stores
it. The raise happens before the store, so on failure nothing is mutated. -/
def Variable.trySet (v : Variable) (x : Option Val) : Option Variable :=
  match x with
  | none => some { v with value := none }
  | some a => if a ∈ v.domain then some { v with value := some a } else none

/-- Shallow embedding of BinaryConstraint of lib/constraint.py: exactly two
participant variables and a predicate. -/
structure BinaryConstraint where
  fst : VarId
  snd : VarId
  func : Val → Val → Bool

/-- The get_other_variable method: the participant that is not the argument
(the first participant when it differs from the argument, else the second). -/
def BinaryConstraint.other (c : BinaryConstraint) (v : VarId) : VarId :=
  if c.fst ≠ v then c.fst else c.snd

/-- General n-ary constraint of the plain Constraint class. -/
structure NConstraint where
  vars : List VarId
  func : List Val → Bool

/-- Result of an operation that may raise: `ok` is a normal return, `invalid`
is a raised InvalidValueError (or, for solve, InconsistentCspError), carrying
the state as left behind by the raise; `crash` is any unmodeled Python
exception (KeyError, IndexError, AttributeError, ZeroDivisionError). -/
inductive Outcome (α : Type) where
  | ok (s : α)
  | invalid (s : α)
  | crash
deriving Repr

/-- True when the outcome is a normal return. -/
def Outcome.isOk {α : Type} : Outcome α → Bool
  | .ok _ => true
  | _ => false

/-- True when the outcome is a raised (modeled) exception. -/
def Outcome.isInvalid {α : Type} : Outcome α → Bool
  | .invalid _ => true
  | _ => false

/-- The state carried by an ok or invalid outcome, with a default for crash. -/
def Outcome.state {α : Type} (o : Outcome α) (d : α) : α :=
  match o with
  | .ok s => s
  | .invalid s => s
  | .crash => d

/-- Python list indexing semantics: non-negative indexes from the front,
negative indexes from the back, out of range is an IndexError (`none`). -/
def pyGet (l : List VarId) (i : Int) : Option VarId :=
  if 0 ≤ i then l.get? i.toNat
  else if 0 ≤ (l.length : Int) + i then l.get? ((l.length : Int) + i).toNat
  else none

/-- Shallow embedding of the plain Csp class of lib/csp.py. The variable
objects live in the id-keyed store `vars`; `unassigned` is the set of
currently unassigned variable ids. -/
structure PCsp where
  vars : List Variable
  constraints : List NConstraint
  unassigned : List VarId
  useDegree : Bool
  sortedByDegree : List VarId
  degreeIdx : Int

/-- Lookup of a variable object by identity (Python: dereferencing the shared
object that both the caller and the CSP hold). -/
def PCsp.getVar (s : PCsp) (v : VarId) : Option Variable :=
  s.vars.find? (fun w => w.id = v)

/-- The current value of a variable (none when unassigned or unregistered). -/
def PCsp.valueOf (s : PCsp) (v : VarId) : Option Val :=
  (s.getVar v).bind (fun w => w.value)

/-- The current domain of a variable. -/
def PCsp.domainOf (s : PCsp) (v : VarId) : List Val :=
  ((s.getVar v).map (fun w => w.domain)).getD []

/-- Replace the stored variable object with the given id (ids are unique in
Python — they come from a global instance counter — so replacing the first
match is replacing the only match). -/
def replaceVar : List Variable → Variable → List Variable
  | [], _ => []
  | u :: us, w => if u.id = w.id then w :: us else u :: replaceVar us w

/-- Replace the domain of the stored variable with the given id. -/
def replaceDomain : List Variable → VarId → List Val → List Variable
  | [], _, _ => []
  | u :: us, v, d =>
    if u.id = v then { u with domain := d } :: us else u :: replaceDomain us v d

/-- Replace the stored variable object with the given id. -/
def PCsp.setVar (s : PCsp) (w : Variable) : PCsp :=
  { s with vars := replaceVar s.vars w }

/-- Constraint.check with no overriding values: vacuously true when any
participant's current value is absent, otherwise the predicate applied to the
participants' values in participant order. -/
def NConstraint.checkPlain (s : PCsp) (c : NConstraint) : Bool :=
  if c.vars.any (fun v => s.valueOf v = none) then true
  else c.func (c.vars.map (fun v => (s.valueOf v).getD 0))

/-- The incident constraints of a variable (the `_variable_constraints` index,
maintained incrementally by add_constraint; reconstructed here as a filter). -/
def PCsp.incident (s : PCsp) (v : VarId) : List NConstraint :=
  s.constraints.filter (fun c => v ∈ c.vars)

/-- Csp.assign of lib/csp.py: snapshot the old value, run the value setter,
check every incident constraint, and on any failure restore the snapshot
through the same setter and re-raise; on success move the variable between the
assigned and unassigned sets (and step the degree index back on unassignment).
A variable that was never registered makes the incidence lookup a KeyError. -/
def PCsp.assign (s : PCsp) (v : VarId) (x : Option Val) : Outcome PCsp :=
  match s.getVar v with
  | none => .crash
  | some var =>
    match var.trySet x with
    | none => .invalid s
    | some var1 =>
      let s1 := s.setVar var1
      if (s1.incident v).all (fun c => c.checkPlain s1) then
        if x = none then
          .ok { s1 with unassigned := addId s1.unassigned v,
                        degreeIdx := if s1.useDegree then s1.degreeIdx - 1 else s1.degreeIdx }
        else
          .ok { s1 with unassigned := removeId s1.unassigned v }
      else
        match var1.trySet var.value with
        | some var2 => .invalid (s1.setVar var2)
        | none => .invalid s1

/-- Csp.get_unassigned_variable: none when the unassigned set is empty;
without the degree heuristic an arbitrary member of the unassigned set (the
first in our determinization); with it, the variable at the current index of
the pre-sorted order — also none when the index has reached the end — and the
index is advanced. Indexing is Python indexing, so a too-negative index is an
IndexError. -/
def PCsp.getUnassigned (s : PCsp) : Outcome (Option VarId × PCsp) :=
  if s.unassigned.length = 0 then .ok (none, s)
  else if ¬ s.useDegree then .ok (s.unassigned.head?, s)
  else if s.degreeIdx = (s.sortedByDegree.length : Int) then .ok (none, s)
  else
    match pyGet s.sortedByDegree s.degreeIdx with
    | none => .crash
    | some v => .ok (some v, { s with degreeIdx := s.degreeIdx + 1 })

/-- Csp.is_solved: the unassigned set is empty. -/
def PCsp.isSolved (s : PCsp) : Bool :=
  s.unassigned.isEmpty

/-- Number of incident constraints of a variable (the degree used by
adding_completed). -/
def PCsp.degreeOf (s : PCsp) (v : VarId) : Nat :=
  (s.incident v).length

/-- Total size of all domains of a plain Csp. -/
def PCsp.totalDomain (s : PCsp) : Nat :=
  (s.vars.map (fun w => w.domain.length)).sum

/-- Stable insertion (ascending by key) for the embedding of Python sorted. -/
def insertByKey {α : Type} (key : α → Nat) (x : α) : List α → List α
  | [] => [x]
  | y :: ys => if key y < key x then y :: insertByKey key x ys else x :: y :: ys

/-- Stable ascending sort by key: the embedding of Python sorted(key=...),
which is stable, so any stable sort models it observably. -/
def sortByKey {α : Type} (key : α → Nat) (l : List α) : List α :=
  l.foldr (insertByKey key) []

/-- Stable insertion (descending by key). -/
def insertByKeyDesc {α : Type} (key : α → Nat) (x : α) : List α → List α
  | [] => [x]
  | y :: ys => if key x < key y then y :: insertByKeyDesc key x ys else x :: y :: ys

/-- Stable descending sort by key: the embedding of Python
sorted(reverse=True, key=...). -/
def sortByKeyDesc {α : Type} (key : α → Nat) (l : List α) : List α :=
  l.foldr (insertByKeyDesc key) []

/-- Csp.adding_completed: with the degree heuristic the variables are sorted by
descending number of incident constraints (Python sorted is stable, equal
degrees keep insertion order). -/
def PCsp.addingCompleted (s : PCsp) : PCsp :=
  if s.useDegree then
    { s with sortedByDegree := sortByKeyDesc (fun v => s.degreeOf v) s.sortedByDegree }
  else s

/-- Csp.add_variable followed for every variable, then add_constraint for every
constraint, then adding_completed: the construction sequence of a plain Csp. -/
def PCsp.build (vs : List (VarId × List Val)) (cs : List NConstraint) (useDegree : Bool) : PCsp :=
  let s0 : PCsp :=
    { vars := vs.map (fun p => { id := p.1, domain := p.2, originalDomain := p.2, value := none }),
      constraints := cs,
      unassigned := vs.foldl (fun l p => addId l p.1) [],
      useDegree := useDegree,
      sortedByDegree := if useDegree then vs.map (fun p => p.1) else [],
      degreeIdx := 0 }
  s0.addingCompleted

/-- Shallow embedding of the BinaryCsp class of lib/csp.py. On top of the
plain Csp state it holds the MRV/LCV flags, the SortedSet of unassigned
variables keyed by current domain size (kept here as the list of its members
in insertion order — selection computes the minimum by key, ties resolved to
the earliest inserted, which is the observable order of the sortedcontainers
structure), and the removed-values record `removed`, the embedding of
`_removed_values[assigner][prunee]` with one entry per ordered constraint
pair, created by adding_completed. -/
structure BinaryCsp where
  vars : List Variable
  constraints : List BinaryConstraint
  unassigned : List VarId
  useMrv : Bool
  useLcv : Bool
  useDegree : Bool
  sortedByDegree : List VarId
  degreeIdx : Int
  mrv : List VarId
  removed : List ((VarId × VarId) × List Val)

/-- Lookup of a variable object by identity. -/
def BinaryCsp.getVar (s : BinaryCsp) (v : VarId) : Option Variable :=
  s.vars.find? (fun w => w.id = v)

/-- The current value of a variable (none when unassigned or unregistered). -/
def BinaryCsp.valueOf (s : BinaryCsp) (v : VarId) : Option Val :=
  (s.getVar v).bind (fun w => w.value)

/-- The current domain of a variable. -/
def BinaryCsp.domainOf (s : BinaryCsp) (v : VarId) : List Val :=
  ((s.getVar v).map (fun w => w.domain)).getD []

/-- Replace the stored variable object with the given id. -/
def BinaryCsp.setVar (s : BinaryCsp) (w : Variable) : BinaryCsp :=
  { s with vars := replaceVar s.vars w }

/-- Replace the domain of the variable with the given id. -/
def BinaryCsp.setDomain (s : BinaryCsp) (v : VarId) (d : List Val) : BinaryCsp :=
  { s with vars := replaceDomain s.vars v d }

/-- The participants of a binary constraint in order. -/
def BinaryConstraint.varList (c : BinaryConstraint) : List VarId :=
  [c.fst, c.snd]

/-- The incident constraints of a variable. -/
def BinaryCsp.incident (s : BinaryCsp) (v : VarId) : List BinaryConstraint :=
  s.constraints.filter (fun c => v = c.fst ∨ v = c.snd)

/-- Constraint.check with overriding values (a dict from variables to non-null
values in every call site): a participant resolves to its stored value when
assigned, else to its override; the check is vacuously true when some
participant resolves to nothing, otherwise the predicate applied in
participant order. -/
def BinaryConstraint.checkOv (s : BinaryCsp) (c : BinaryConstraint)
    (ov : List (VarId × Val)) : Bool :=
  let resolve : VarId → Option Val := fun v =>
    match s.valueOf v with
    | some a => some a
    | none => (ov.find? (fun p => p.1 = v)).map (fun p => p.2)
  match resolve c.fst, resolve c.snd with
  | some a, some b => c.func a b
  | _, _ => true

/-- Constraint.check with no overriding values. -/
def BinaryConstraint.check (s : BinaryCsp) (c : BinaryConstraint) : Bool :=
  c.checkOv s []

/-- Lookup of the removed-values record for the ordered pair (assigner,
prunee); none is a KeyError. -/
def BinaryCsp.removedAt (s : BinaryCsp) (v o : VarId) : Option (List Val) :=
  (s.removed.find? (fun e => e.1 = (v, o))).map (fun e => e.2)

/-- Overwrite the removed-values record for an ordered pair. -/
def BinaryCsp.setRemoved (s : BinaryCsp) (v o : VarId) (r : List Val) : BinaryCsp :=
  { s with removed := s.removed.map (fun e => if e.1 = (v, o) then (e.1, r) else e) }

/-- The part of Csp.assign shared by BinaryCsp.assign through super(): setter,
constraint checks with atomic rollback, bookkeeping of the unassigned set and
of the degree index. -/
def BinaryCsp.superAssign (s : BinaryCsp) (v : VarId) (x : Option Val) : Outcome BinaryCsp :=
  match s.getVar v with
  | none => .crash
  | some var =>
    match var.trySet x with
    | none => .invalid s
    | some var1 =>
      let s1 := s.setVar var1
      if (s1.incident v).all (fun c => c.check s1) then
        if x = none then
          .ok { s1 with unassigned := addId s1.unassigned v,
                        degreeIdx := if s1.useDegree then s1.degreeIdx - 1 else s1.degreeIdx }
        else
          .ok { s1 with unassigned := removeId s1.unassigned v }
      else
        match var1.trySet var.value with
        | some var2 => .invalid (s1.setVar var2)
        | none => .invalid s1

/-- One iteration of the MRV maintenance loop of BinaryCsp.assign for one
incident constraint: when the other endpoint is still in the MRV structure it
is taken out, the values previously removed because of the assigner are
restored to its domain, the record is cleared, the values of its domain now
inconsistent with the assigner's value are collected into the record and
discarded from the domain, and the endpoint is reinserted. A missing record
entry is a KeyError. -/
def BinaryCsp.mrvStep (v : VarId) (s : BinaryCsp) (c : BinaryConstraint) : Outcome BinaryCsp :=
  let o := c.other v
  if o ∈ s.mrv then
    match s.removedAt v o with
    | none => .crash
    | some r =>
      let s1 := { s with mrv := removeId s.mrv o }
      let s2 := s1.setDomain o (r.foldl addVal (s1.domainOf o))
      let s3 := s2.setRemoved v o []
      let newRemoved := (s3.domainOf o).filter (fun y => c.checkOv s3 [(o, y)] = false)
      let s4 := s3.setRemoved v o newRemoved
      let s5 := s4.setDomain o ((s4.domainOf o).filter (fun y => y ∉ newRemoved))
      .ok { s5 with mrv := addId s5.mrv o }
  else .ok s

/-- The MRV maintenance loop over the incident constraints of the assigned
variable. -/
def BinaryCsp.mrvLoop (v : VarId) (s : BinaryCsp) : List BinaryConstraint → Outcome BinaryCsp
  | [] => .ok s
  | c :: cs =>
    match BinaryCsp.mrvStep v s c with
    | .ok s' => BinaryCsp.mrvLoop v s' cs
    | .invalid s' => .invalid s'
    | .crash => .crash

/-- BinaryCsp.assign: the inherited assignment, then, when MRV is enabled, the
assigned variable is taken out of (or put back into) the MRV structure and the
maintenance loop runs over its incident constraints. -/
def BinaryCsp.assign (s : BinaryCsp) (v : VarId) (x : Option Val) : Outcome BinaryCsp :=
  match s.superAssign v x with
  | .crash => .crash
  | .invalid s' => .invalid s'
  | .ok s1 =>
    if ¬ s1.useMrv then .ok s1
    else
      let s2 := if x ≠ none then { s1 with mrv := removeId s1.mrv v }
                else { s1 with mrv := addId s1.mrv v }
      BinaryCsp.mrvLoop v s2 (s2.incident v)

/-- Selection from the MRV structure: the member with the smallest current
domain, earliest inserted on ties (what next(iter(sorted_set)) yields). -/
def BinaryCsp.mrvSelect (s : BinaryCsp) : Option VarId :=
  match s.mrv with
  | [] => none
  | v :: vs => some (vs.foldl (fun best w =>
      if (s.domainOf w).length < (s.domainOf best).length then w else best) v)

/-- BinaryCsp.get_unassigned_variable: with MRV, the minimum of the MRV
structure (none when it is empty); without MRV, the inherited selection. -/
def BinaryCsp.getUnassigned (s : BinaryCsp) : Outcome (Option VarId × BinaryCsp) :=
  if s.useMrv then
    match s.mrv with
    | [] => .ok (none, s)
    | _ => .ok (s.mrvSelect, s)
  else
    if s.unassigned.length = 0 then .ok (none, s)
    else if ¬ s.useDegree then .ok (s.unassigned.head?, s)
    else if s.degreeIdx = (s.sortedByDegree.length : Int) then .ok (none, s)
    else
      match pyGet s.sortedByDegree s.degreeIdx with
      | none => .crash
      | some v => .ok (some v, { s with degreeIdx := s.degreeIdx + 1 })

/-- The LCV score of a candidate value: over the incident constraints whose
other endpoint is unassigned, the number of values of that endpoint's domain
on which the constraint check with both values overridden comes out false. -/
def BinaryCsp.valueKey (s : BinaryCsp) (v : VarId) (x : Val) : Nat :=
  ((s.incident v).map (fun c =>
    let o := c.other v
    if o ∈ s.unassigned then
      ((s.domainOf o).filter (fun y => c.checkOv s [(v, x), (o, y)] = false)).length
    else 0)).sum

/-- BinaryCsp.get_values_for_variable: the domain itself without LCV, else the
domain sorted by ascending LCV score (Python sorted is stable). -/
def BinaryCsp.getValues (s : BinaryCsp) (v : VarId) : List Val :=
  if ¬ s.useLcv then s.domainOf v
  else sortByKey (fun x => s.valueKey v x) (s.domainOf v)

/-- BinaryConstraint.revise on one endpoint: every value of that endpoint's
domain for which no value of the other endpoint's domain makes the predicate
true — applied as predicate(candidate, other value), in this argument order
regardless of which participant is being revised — is discarded; returns
whether anything was discarded. -/
def BinaryCsp.revise (s : BinaryCsp) (c : BinaryConstraint) (v : VarId) :
    BinaryCsp × Bool :=
  let o := if c.fst = v then c.snd else c.fst
  let dom := s.domainOf v
  let kept := dom.filter (fun x => (s.domainOf o).any (fun y => c.func x y))
  (s.setDomain v kept, kept.length ≠ dom.length)

/-- Total size of all domains (termination measure of the AC-3 worklist). -/
def BinaryCsp.totalDomain (s : BinaryCsp) : Nat :=
  (s.vars.map (fun w => w.domain.length)).sum

/-- The arcs put back on the AC-3 worklist after the domain of `v` was
revised: one arc per constraint incident to `v`, aimed at its other endpoint
(computed as in apply_ac3: the first participant unless it is `v`).
Constraints are named by their index in the constraint list. -/
def BinaryCsp.requeue (s : BinaryCsp) (v : VarId) : List (VarId × Nat) :=
  (s.constraints.enum.filter (fun p => v = p.2.fst ∨ v = p.2.snd)).map
    (fun p => (if p.2.fst = v then p.2.snd else p.2.fst, p.1))

/-- The initial AC-3 worklist: both directions of every constraint. -/
def BinaryCsp.initQueue (s : BinaryCsp) : List (VarId × Nat) :=
  s.constraints.enum.flatMap (fun p => [(p.2.fst, p.1), (p.2.snd, p.1)])

/-- The AC-3 worklist loop: pop an arc, revise it, and when the domain shrank
push every arc aimed at a neighbour of the revised variable. The loop is
bounded by fuel; `applyAc3` passes a provably sufficient amount, so the zero
case is unreachable there. -/
def BinaryCsp.ac3Fuel : Nat → BinaryCsp → List (VarId × Nat) → BinaryCsp
  | 0, s, _ => s
  | _ + 1, s, [] => s
  | fuel + 1, s, (v, ci) :: rest =>
    match s.constraints.get? ci with
    | none => BinaryCsp.ac3Fuel fuel s rest
    | some c =>
      let p := s.revise c v
      if p.2 then BinaryCsp.ac3Fuel fuel p.1 (rest ++ p.1.requeue v)
      else BinaryCsp.ac3Fuel fuel p.1 rest

/-- BinaryCsp.apply_ac3 of lib/csp.py. -/
def BinaryCsp.applyAc3 (s : BinaryCsp) : BinaryCsp :=
  BinaryCsp.ac3Fuel
    (s.initQueue.length + (s.totalDomain + 1) * (s.constraints.length + 1) + 1)
    s s.initQueue

/-- Shallow embedding of BacktrackBinaryCspSolver of lib/backtrack_solver.py
(the solver works on a deep copy of the CSP, which in this functional model is
the state value it holds). -/
structure BSolver where
  csp : BinaryCsp
  useAc3 : Bool
  failureDepthSum : Nat
  failureNumber : Nat

/-- The average_failure_depth property of BacktrackBinaryCspSolver: the
division is guarded, 0 when the failure count is 0. -/
def BSolver.averageFailureDepth (sol : BSolver) : Option ℚ :=
  if sol.failureNumber ≠ 0 then
    some ((sol.failureDepthSum : ℚ) / (sol.failureNumber : ℚ))
  else some 0

/-- The value-candidate loop of _backtrack_solving of BacktrackBinaryCspSolver:
try each candidate; a raised InvalidValueError moves to the next candidate; on
success recurse into the next unassigned variable (success when none remains);
when every candidate is exhausted, record the failure depth and count, assign
null to the variable, and report failure. The fuel bounds the recursion depth;
exhausted fuel, and any exception other than the InvalidValueError caught by
the loop, is a crash. -/
def btLoop : Nat → BSolver → VarId → Nat → List Val → Outcome (Bool × BSolver)
  | 0, _, _, _, _ => .crash
  | _ + 1, sol, v, depth, [] =>
    let sol1 := { sol with failureDepthSum := sol.failureDepthSum + depth,
                           failureNumber := sol.failureNumber + 1 }
    match sol1.csp.assign v none with
    | .ok s' => .ok (false, { sol1 with csp := s' })
    | _ => .crash
  | fuel + 1, sol, v, depth, x :: rest =>
    match sol.csp.assign v (some x) with
    | .crash => .crash
    | .invalid s' => btLoop fuel { sol with csp := s' } v depth rest
    | .ok s' =>
      match s'.getUnassigned with
      | .ok (none, s2) => .ok (true, { sol with csp := s2 })
      | .ok (some nv, s2) =>
        match btLoop fuel { sol with csp := s2 } nv (depth + 1) (s2.getValues nv) with
        | .ok (true, sol2) => .ok (true, sol2)
        | .ok (false, sol2) => btLoop fuel sol2 v depth rest
        | _ => .crash
      | _ => .crash

/-- BacktrackBinaryCspSolver.solve: run AC-3 when enabled, pick the initial
unassigned variable (returning at once when there is none), and run the
backtracking loop; a false result is the raised InconsistentCspError. -/
def BSolver.solve (sol : BSolver) : Outcome BSolver :=
  let sol := if sol.useAc3 then { sol with csp := sol.csp.applyAc3 } else sol
  match sol.csp.getUnassigned with
  | .ok (none, s1) => .ok { sol with csp := s1 }
  | .ok (some v, s1) =>
    match btLoop ((s1.totalDomain + 2) * (s1.vars.length + 2)) { sol with csp := s1 } v 0
        (s1.getValues v) with
    | .ok (true, sol') => .ok sol'
    | .ok (false, sol') => .invalid sol'
    | _ => .crash
  | _ => .crash

/-- Shallow embedding of BacktrackCspSolver of lib/backtrack_solver.py. -/
structure PSolver where
  csp : PCsp
  failureDepthSum : Nat
  failureNumber : Nat

/-- The average_failure_depth property of BacktrackCspSolver: an unguarded
division, a ZeroDivisionError (none) when the failure count is 0. -/
def PSolver.averageFailureDepth (sol : PSolver) : Option ℚ :=
  if sol.failureNumber = 0 then none
  else some ((sol.failureDepthSum : ℚ) / (sol.failureNumber : ℚ))

/-- The value-candidate loop of _backtrack_solving of BacktrackCspSolver; the
candidates are iterated directly from the variable's domain. -/
def pbtLoop : Nat → PSolver → VarId → Nat → List Val → Outcome (Bool × PSolver)
  | 0, _, _, _, _ => .crash
  | _ + 1, sol, v, depth, [] =>
    let sol1 := { sol with failureDepthSum := sol.failureDepthSum + depth,
                           failureNumber := sol.failureNumber + 1 }
    match sol1.csp.assign v none with
    | .ok s' => .ok (false, { sol1 with csp := s' })
    | _ => .crash
  | fuel + 1, sol, v, depth, x :: rest =>
    match sol.csp.assign v (some x) with
    | .crash => .crash
    | .invalid s' => pbtLoop fuel { sol with csp := s' } v depth rest
    | .ok s' =>
      match s'.getUnassigned with
      | .ok (none, s2) => .ok (true, { sol with csp := s2 })
      | .ok (some nv, s2) =>
        match pbtLoop fuel { sol with csp := s2 } nv (depth + 1) (s2.domainOf nv) with
        | .ok (true, sol2) => .ok (true, sol2)
        | .ok (false, sol2) => pbtLoop fuel sol2 v depth rest
        | _ => .crash
      | _ => .crash

/-- BacktrackCspSolver.solve: it reads an initial unassigned variable, returns
when there is none, and then calls get_unassigned_variable a second time and
starts the search from that second result — with a stateful selection (degree
heuristic) the two calls return different variables. A None second result is
passed into the loop and dereferenced (AttributeError, a crash). -/
def PSolver.solve (sol : PSolver) : Outcome PSolver :=
  match sol.csp.getUnassigned with
  | .ok (none, s1) => .ok { sol with csp := s1 }
  | .ok (some _, s1) =>
    match s1.getUnassigned with
    | .ok (none, _) => .crash
    | .ok (some v, s2) =>
      match pbtLoop ((s2.totalDomain + 2) * (s2.vars.length + 2)) { sol with csp := s2 } v 0
          (s2.domainOf v) with
      | .ok (true, sol') => .ok sol'
      | .ok (false, sol') => .invalid sol'
      | _ => .crash
    | _ => .crash
  | _ => .crash

/-- Degree of a variable in a BinaryCsp (number of incident constraints). -/
def BinaryCsp.degreeOf (s : BinaryCsp) (v : VarId) : Nat :=
  (s.incident v).length

/-- BinaryCsp.adding_completed: the inherited degree sort, then, with MRV, one
empty removed-values record per ordered constraint pair. -/
def BinaryCsp.addingCompleted (s : BinaryCsp) : BinaryCsp :=
  let s1 :=
    if s.useDegree then
      { s with sortedByDegree := sortByKeyDesc (fun v => s.degreeOf v) s.sortedByDegree }
    else s
  if s1.useMrv then
    { s1 with removed := s1.vars.foldl (fun acc w =>
        (s1.incident w.id).foldl (fun acc c =>
          let key := (w.id, c.other w.id)
          if acc.any (fun e => e.1 = key) then acc else acc ++ [(key, ([] : List Val))]) acc) [] }
  else s1

/-- Construction of a BinaryCsp: add_variable for every (id, domain) pair,
add_constraint for every constraint, then adding_completed. -/
def BinaryCsp.build (vs : List (VarId × List Val)) (cs : List BinaryConstraint)
    (useMrv useLcv useDegree : Bool) : BinaryCsp :=
  let s0 : BinaryCsp :=
    { vars := vs.map (fun p => { id := p.1, domain := p.2, originalDomain := p.2, value := none }),
      constraints := cs,
      unassigned := vs.foldl (fun l p => addId l p.1) [],
      useMrv := useMrv,
      useLcv := useLcv,
      useDegree := useDegree,
      sortedByDegree := if useDegree then vs.map (fun p => p.1) else [],
      degreeIdx := 0,
      mrv := if useMrv then vs.foldl (fun l p => addId l p.1) [] else [],
      removed := [] }
  s0.addingCompleted

/-- A fresh BacktrackBinaryCspSolver over (a deep copy of) a CSP. -/
def BSolver.mk0 (s : BinaryCsp) (useAc3 : Bool) : BSolver :=
  { csp := s, useAc3 := useAc3, failureDepthSum := 0, failureNumber := 0 }

/-- A fresh BacktrackCspSolver over (a deep copy of) a CSP. -/
def PSolver.mk0 (s : PCsp) : PSolver :=
  { csp := s, failureDepthSum := 0, failureNumber := 0 }

/-- The ids of the registered variables of a BinaryCsp. -/
def BinaryCsp.ids (s : BinaryCsp) : List VarId :=
  s.vars.map (fun w => w.id)

/-- The ids of the registered variables of a plain Csp. -/
def PCsp.ids (s : PCsp) : List VarId :=
  s.vars.map (fun w => w.id)

/-- The reachable states of a BinaryCsp: the closure of a start state under
assign (both the normal return and the state left by a raised
InvalidValueError), apply_ac3 and get_unassigned_variable. -/
inductive BReach : BinaryCsp → BinaryCsp → Prop where
  | refl (s : BinaryCsp) : BReach s s
  | assignOk {a s s' : BinaryCsp} (v : VarId) (x : Option Val) :
      BReach a s → s.assign v x = .ok s' → BReach a s'
  | assignInvalid {a s s' : BinaryCsp} (v : VarId) (x : Option Val) :
      BReach a s → s.assign v x = .invalid s' → BReach a s'
  | ac3 {a s : BinaryCsp} : BReach a s → BReach a s.applyAc3
  | getU {a s : BinaryCsp} {r : Option VarId} {s' : BinaryCsp} :
      BReach a s → s.getUnassigned = .ok (r, s') → BReach a s'

/-- The reachable states of a plain Csp: the closure of a start state under
assign and get_unassigned_variable. -/
inductive PReach : PCsp → PCsp → Prop where
  | refl (s : PCsp) : PReach s s
  | assignOk {a s s' : PCsp} (v : VarId) (x : Option Val) :
      PReach a s → s.assign v x = .ok s' → PReach a s'
  | assignInvalid {a s s' : PCsp} (v : VarId) (x : Option Val) :
      PReach a s → s.assign v x = .invalid s' → PReach a s'
  | getU {a s : PCsp} {r : Option VarId} {s' : PCsp} :
      PReach a s → s.getUnassigned = .ok (r, s') → PReach a s'

/-- A well-formed construction input: distinct variable ids, duplicate-free
domains, and every constraint between two distinct registered variables. -/
def GoodInput (vs : List (VarId × List Val)) (cs : List BinaryConstraint) : Prop :=
  (vs.map (fun p => p.1)).Nodup ∧
  (∀ p ∈ vs, p.2.Nodup) ∧
  (∀ c ∈ cs, c.fst ∈ vs.map (fun p => p.1) ∧ c.snd ∈ vs.map (fun p => p.1) ∧ c.fst ≠ c.snd)

/-- A well-formed construction input for a plain Csp. -/
def GoodInputP (vs : List (VarId × List Val)) (cs : List NConstraint) : Prop :=
  (vs.map (fun p => p.1)).Nodup ∧
  (∀ p ∈ vs, p.2.Nodup) ∧
  (∀ c ∈ cs, ∀ v ∈ c.vars, v ∈ vs.map (fun p => p.1))

/-- No two constraints connect the same unordered pair of variables. -/
def DistinctPairs (cs : List BinaryConstraint) : Prop :=
  cs.Pairwise (fun c d =>
    ¬ (c.fst = d.fst ∧ c.snd = d.snd) ∧ ¬ (c.fst = d.snd ∧ c.snd = d.fst))

/-- Every constraint predicate is symmetric. -/
def SymmetricCons (cs : List BinaryConstraint) : Prop :=
  ∀ c ∈ cs, ∀ a b, c.func a b = c.func b a

/-- A total assignment satisfies every constraint (predicate applied in
participant order, as Constraint.check does). -/
def SatisfiesAll (cs : List BinaryConstraint) (f : VarId → Val) : Prop :=
  ∀ c ∈ cs, c.func (f c.fst) (f c.snd) = true

/-- A construction input admits a solution: a total assignment inside the
given domains that satisfies every constraint. -/
def Solvable (vs : List (VarId × List Val)) (cs : List BinaryConstraint) : Prop :=
  ∃ f : VarId → Val, (∀ p ∈ vs, f p.1 ∈ p.2) ∧ SatisfiesAll cs f

/-- Every removed-values record the MRV path of assign can look up is present
(what adding_completed establishes for every registered variable). -/
def BinaryCsp.removedKeysOk (s : BinaryCsp) : Prop :=
  ∀ v ∈ s.ids, ∀ c ∈ s.incident v, s.removedAt v (c.other v) ≠ none

/-- Two variables with singleton domains, no constraints, degree heuristic on:
the concrete input on which BacktrackCspSolver.solve returns normally with a
variable unassigned. -/
def c1Csp : PCsp :=
  PCsp.build [(0, [1]), (1, [1])] [] true

/-- The run of BacktrackCspSolver.solve on that input. -/
def c1Run : Outcome PSolver :=
  (PSolver.mk0 c1Csp).solve

/-- An asymmetric predicate: strictly-less-than. -/
def ltFunc : Val → Val → Bool := fun a b => decide (a < b)

/-- The two-variable CSP with domains [1] and [2] and the constraint
first < second; it is satisfied by assigning 1 and 2. -/
def lessCsp : BinaryCsp :=
  BinaryCsp.build [(0, [1]), (1, [2])] [{ fst := 0, snd := 1, func := ltFunc }] false false false

/-- The predicate of the rollback-corruption scenario, given by its table of
true entries. -/
def tblFunc : Val → Val → Bool := fun a b =>
  decide ((a, b) ∈ [(1, 5), (6, 1), (2, 6), (6, 2)])

/-- The start state of the rollback-corruption scenario. -/
def rbCsp0 : BinaryCsp :=
  BinaryCsp.build [(0, [1, 2]), (1, [5, 6])] [{ fst := 0, snd := 1, func := tblFunc }]
    false false false

/-- The scenario: assign 1 to the first variable, 5 to the second, then run
AC-3 (which prunes both assigned values out of their domains). -/
def rbCsp3 : BinaryCsp :=
  ((((rbCsp0.assign 0 (some 1)).state rbCsp0).assign 1 (some 5)).state rbCsp0).applyAc3

/-- A two-variable not-equal CSP with MRV enabled, for the restore scenario. -/
def neCsp0 : BinaryCsp :=
  BinaryCsp.build [(0, [1, 2]), (1, [1, 2])] [{ fst := 0, snd := 1, func := fun a b => a ≠ b }]
    true false false

/-- The restore scenario: assign 1 to variable 0 (prunes 1 from the
neighbour), assign 2 to variable 1, then unassign variable 0 (the neighbour is
assigned, so its record keeps the stale entry), then unassign variable 1. -/
def neCsp4 : BinaryCsp :=
  let s1 := (neCsp0.assign 0 (some 1)).state neCsp0
  let s2 := (s1.assign 1 (some 2)).state neCsp0
  let s3 := (s2.assign 0 none).state neCsp0
  (s3.assign 1 none).state neCsp0

/-- The assign half of the pair applied on top of the restore scenario. -/
def neCsp5 : BinaryCsp :=
  (neCsp4.assign 0 (some 2)).state neCsp0

/-- The unassign half of the pair. -/
def neCsp6 : BinaryCsp :=
  (neCsp5.assign 0 none).state neCsp0

/-- A one-variable plain Csp with the degree heuristic, for the selection
counterexample. -/
def degCsp0 : PCsp :=
  PCsp.build [(0, [1])] [] true

/-- The state after one call of get_unassigned_variable (which advanced the
degree index past the only variable). -/
def degCsp1 : PCsp :=
  ((degCsp0.getUnassigned).state (none, degCsp0)).2

/-- The state in which the rollback of a failed assign itself fails, leaving
the new value behind. -/
def rbBad : BinaryCsp :=
  (rbCsp3.assign 0 (some 2)).state rbCsp0

/-- The satisfying total assignment of the less-than CSP. -/
def lessPick : VarId → Val := fun v => if v = 0 then 1 else 2

/-- A fresh plain backtracking solver with zero recorded failures. -/
def c8Solver : PSolver :=
  PSolver.mk0 (PCsp.build [] [] false)

/-- The state invariant maintained by every CSP operation after construction:
distinct ids, the unassigned set made of registered ids, a variable unassigned
exactly when its value is null, the MRV structure holding exactly the
unassigned variables, and a removed-values record present for every ordered
constraint pair. -/
def BInv (s : BinaryCsp) : Prop :=
  s.ids.Nodup ∧
  (∀ q ∈ s.unassigned, q ∈ s.ids) ∧
  (∀ i ∈ s.ids, (s.valueOf i = none ↔ i ∈ s.unassigned)) ∧
  (s.useMrv = true → ∀ q, q ∈ s.mrv ↔ q ∈ s.unassigned) ∧
  (s.useMrv = true → ∀ v ∈ s.ids, ∀ c ∈ s.incident v, s.removedAt v (c.other v) ≠ none)

/-- The state invariant of a plain Csp after construction. -/
def PInv (s : PCsp) : Prop :=
  s.ids.Nodup ∧
  (∀ q ∈ s.unassigned, q ∈ s.ids) ∧
  (∀ i ∈ s.ids, (s.valueOf i = none ↔ i ∈ s.unassigned))

/-- The state after assigning 1 to variable 0 of the not-equal CSP, for the
clean-record restore witness. -/
def neCsp1w : BinaryCsp :=
  (neCsp0.assign 0 (some 1)).state neCsp0

/-- An arc (constraint, revised endpoint) is clean when revise would discard
nothing: every value of the endpoint has a supporting value of the other
endpoint under the predicate as revise applies it. -/
def reviseClean (s : BinaryCsp) (d : BinaryConstraint) (w : VarId) : Prop :=
  (s.domainOf w).filter
    (fun x => (s.domainOf (if d.fst = w then d.snd else d.fst)).any (fun y => d.func x y)) =
    s.domainOf w

/-- An artificial plain Csp for the rollback-path witness: the variable holds
a value no longer in its domain, and a constraint that always fails forces the
rollback; there the re-run domain check raises and the new value stays. -/
def c3RbCsp : PCsp :=
  { vars := [{ id := 0, domain := [2], originalDomain := [1, 2], value := some 1 }],
    constraints := [{ vars := [0], func := fun _ => false }],
    unassigned := [],
    useDegree := false,
    sortedByDegree := [],
    degreeIdx := 0 }

theorem mem_addVal {l : List Val} {x y : Val} : y ∈ addVal l x ↔ y ∈ l ∨ y = x := by
  unfold addVal
  split
  · rename_i h
    constructor
    · exact Or.inl
    · intro hy
      cases hy with
      | inl h1 => exact h1
      | inr h1 => exact h1 ▸ h
  · simp

theorem nodup_addVal {l : List Val} {x : Val} (h : l.Nodup) : (addVal l x).Nodup := by
  unfold addVal
  split
  · exact h
  · rename_i hx
    rw [List.nodup_append]
    refine ⟨h, List.nodup_singleton x, ?_⟩
    intro a ha hax
    rw [List.mem_singleton] at hax
    exact hx (hax ▸ ha)

theorem mem_foldl_addVal {r l : List Val} {y : Val} :
    y ∈ r.foldl addVal l ↔ y ∈ l ∨ y ∈ r := by
  induction r generalizing l with
  | nil => simp
  | cons a r ih =>
    simp only [List.foldl_cons, ih, mem_addVal, List.mem_cons]
    tauto

theorem nodup_foldl_addVal {r l : List Val} (h : l.Nodup) : (r.foldl addVal l).Nodup := by
  induction r generalizing l with
  | nil => exact h
  | cons a r ih => exact ih (nodup_addVal h)

theorem mem_removeVal {l : List Val} {x y : Val} : y ∈ removeVal l x ↔ y ∈ l ∧ y ≠ x := by
  simp [removeVal]

theorem mem_addId {l : List VarId} {x y : VarId} : y ∈ addId l x ↔ y ∈ l ∨ y = x := by
  unfold addId
  split
  · rename_i h
    constructor
    · exact Or.inl
    · intro hy
      cases hy with
      | inl h1 => exact h1
      | inr h1 => exact h1 ▸ h
  · simp

theorem nodup_addId {l : List VarId} {x : VarId} (h : l.Nodup) : (addId l x).Nodup := by
  unfold addId
  split
  · exact h
  · rename_i hx
    rw [List.nodup_append]
    refine ⟨h, List.nodup_singleton x, ?_⟩
    intro a ha hax
    rw [List.mem_singleton] at hax
    exact hx (hax ▸ ha)

theorem mem_removeId {l : List VarId} {x y : VarId} : y ∈ removeId l x ↔ y ∈ l ∧ y ≠ x := by
  simp [removeId]

theorem nodup_removeId {l : List VarId} {x : VarId} (h : l.Nodup) : (removeId l x).Nodup :=
  h.filter _

theorem replaceVar_map_id (l : List Variable) (w : Variable) :
    (replaceVar l w).map (fun u => u.id) = l.map (fun u => u.id) := by
  induction l with
  | nil => rfl
  | cons u us ih =>
    unfold replaceVar
    split <;> simp_all

theorem replaceDomain_map_id (l : List Variable) (v : VarId) (d : List Val) :
    (replaceDomain l v d).map (fun u => u.id) = l.map (fun u => u.id) := by
  induction l with
  | nil => rfl
  | cons u us ih =>
    unfold replaceDomain
    split <;> simp_all

theorem find_replaceVar_self {l : List Variable} {w : Variable} {u : Variable}
    (h : l.find? (fun t => t.id = w.id) = some u) :
    (replaceVar l w).find? (fun t => t.id = w.id) = some w := by
  induction l with
  | nil => simp at h
  | cons a as ih =>
    unfold replaceVar
    by_cases ha : a.id = w.id
    · rw [if_pos ha]
      exact List.find?_cons_of_pos _ (by simp)
    · rw [if_neg ha]
      rw [List.find?_cons_of_neg _ (by simp [ha])] at h
      rw [List.find?_cons_of_neg _ (by simp [ha])]
      exact ih h

theorem find_replaceVar_other {l : List Variable} {w : Variable} {i : VarId}
    (h : i ≠ w.id) :
    (replaceVar l w).find? (fun t => t.id = i) = l.find? (fun t => t.id = i) := by
  induction l with
  | nil => rfl
  | cons a as ih =>
    unfold replaceVar
    by_cases ha : a.id = w.id
    · rw [if_pos ha]
      rw [List.find?_cons_of_neg _ (by simp [Ne.symm h]),
          List.find?_cons_of_neg _ (by simp only [decide_eq_true_eq]; rw [ha]; exact Ne.symm h)]
    · rw [if_neg ha]
      by_cases hai : a.id = i
      · rw [List.find?_cons_of_pos _ (by simp [hai]), List.find?_cons_of_pos _ (by simp [hai])]
      · rw [List.find?_cons_of_neg _ (by simp [hai]), List.find?_cons_of_neg _ (by simp [hai])]
        exact ih

theorem find_replaceDomain_self {l : List Variable} {v : VarId} {d : List Val} {u : Variable}
    (h : l.find? (fun t => t.id = v) = some u) :
    (replaceDomain l v d).find? (fun t => t.id = v) = some { u with domain := d } := by
  induction l with
  | nil => simp at h
  | cons a as ih =>
    unfold replaceDomain
    by_cases ha : a.id = v
    · rw [List.find?_cons_of_pos _ (by simp [ha])] at h
      rw [if_pos ha]
      rw [List.find?_cons_of_pos _ (by simp [ha])]
      rw [Option.some_inj] at h
      rw [h]
    · rw [List.find?_cons_of_neg _ (by simp [ha])] at h
      rw [if_neg ha]
      rw [List.find?_cons_of_neg _ (by simp [ha])]
      exact ih h

theorem find_replaceDomain_other {l : List Variable} {v i : VarId} {d : List Val}
    (h : i ≠ v) :
    (replaceDomain l v d).find? (fun t => t.id = i) = l.find? (fun t => t.id = i) := by
  induction l with
  | nil => rfl
  | cons a as ih =>
    unfold replaceDomain
    by_cases ha : a.id = v
    · rw [if_pos ha]
      rw [List.find?_cons_of_neg _ (by simp only [decide_eq_true_eq]; rw [ha]; exact Ne.symm h),
          List.find?_cons_of_neg _ (by simp only [decide_eq_true_eq]; rw [ha]; exact Ne.symm h)]
    · rw [if_neg ha]
      by_cases hai : a.id = i
      · rw [List.find?_cons_of_pos _ (by simp [hai]), List.find?_cons_of_pos _ (by simp [hai])]
      · rw [List.find?_cons_of_neg _ (by simp [hai]), List.find?_cons_of_neg _ (by simp [hai])]
        exact ih

theorem find_replaceDomain_none {l : List Variable} {v : VarId} {d : List Val}
    (h : l.find? (fun t => t.id = v) = none) :
    replaceDomain l v d = l := by
  induction l with
  | nil => rfl
  | cons a as ih =>
    by_cases ha : a.id = v
    · rw [List.find?_cons_of_pos _ (by simp [ha])] at h
      simp at h
    · rw [List.find?_cons_of_neg _ (by simp [ha])] at h
      unfold replaceDomain
      rw [if_neg ha, ih h]

theorem trySet_some {v : Variable} {x : Option Val} {w : Variable}
    (h : v.trySet x = some w) :
    w.id = v.id ∧ w.domain = v.domain ∧ w.originalDomain = v.originalDomain ∧ w.value = x := by
  cases x with
  | none =>
    simp only [Variable.trySet, Option.some_inj] at h
    rw [← h]
    exact ⟨rfl, rfl, rfl, rfl⟩
  | some a =>
    by_cases ha : a ∈ v.domain
    · simp only [Variable.trySet, if_pos ha, Option.some_inj] at h
      rw [← h]
      exact ⟨rfl, rfl, rfl, rfl⟩
    · simp only [Variable.trySet, if_neg ha] at h
      exact absurd h (by simp)

theorem trySet_isSome_iff {v : Variable} {x : Option Val} :
    (v.trySet x).isSome = true ↔ x = none ∨ ∃ a, x = some a ∧ a ∈ v.domain := by
  cases x with
  | none => simp [Variable.trySet]
  | some a =>
    by_cases ha : a ∈ v.domain
    · simp [Variable.trySet, ha]
    · simp [Variable.trySet, ha]

theorem trySet_value_mem {v : Variable} {a : Val} (h : a ∈ v.domain) :
    v.trySet (some a) = some { v with value := some a } := by
  simp only [Variable.trySet, if_pos h]

theorem trySet_value_not_mem {v : Variable} {a : Val} (h : a ∉ v.domain) :
    v.trySet (some a) = none := by
  simp only [Variable.trySet, if_neg h]

theorem getVar_setVar_self {s : BinaryCsp} {w u : Variable}
    (h : s.getVar w.id = some u) : (s.setVar w).getVar w.id = some w :=
  find_replaceVar_self h

theorem getVar_setVar_other {s : BinaryCsp} {w : Variable} {i : VarId}
    (h : i ≠ w.id) : (s.setVar w).getVar i = s.getVar i :=
  find_replaceVar_other h

theorem getVar_setDomain_self {s : BinaryCsp} {v : VarId} {d : List Val} {u : Variable}
    (h : s.getVar v = some u) :
    (s.setDomain v d).getVar v = some { u with domain := d } :=
  find_replaceDomain_self h

theorem getVar_setDomain_other {s : BinaryCsp} {v i : VarId} {d : List Val}
    (h : i ≠ v) : (s.setDomain v d).getVar i = s.getVar i :=
  find_replaceDomain_other h

theorem pGetVar_setVar_self {s : PCsp} {w u : Variable}
    (h : s.getVar w.id = some u) : (s.setVar w).getVar w.id = some w :=
  find_replaceVar_self h

theorem pGetVar_setVar_other {s : PCsp} {w : Variable} {i : VarId}
    (h : i ≠ w.id) : (s.setVar w).getVar i = s.getVar i :=
  find_replaceVar_other h

theorem getVar_id {s : BinaryCsp} {v : VarId} {u : Variable}
    (h : s.getVar v = some u) : u.id = v := by
  unfold BinaryCsp.getVar at h
  have := List.find?_some h
  simpa using this

theorem pGetVar_id {s : PCsp} {v : VarId} {u : Variable}
    (h : s.getVar v = some u) : u.id = v := by
  unfold PCsp.getVar at h
  have := List.find?_some h
  simpa using this

theorem getVar_mem {s : BinaryCsp} {v : VarId} {u : Variable}
    (h : s.getVar v = some u) : u ∈ s.vars :=
  List.mem_of_find?_eq_some h

theorem ids_setVar (s : BinaryCsp) (w : Variable) : (s.setVar w).ids = s.ids :=
  replaceVar_map_id s.vars w

theorem ids_setVar' (s : PCsp) (w : Variable) : (s.setVar w).ids = s.ids :=
  replaceVar_map_id s.vars w

theorem ids_setDomain (s : BinaryCsp) (v : VarId) (d : List Val) :
    (s.setDomain v d).ids = s.ids :=
  replaceDomain_map_id s.vars v d

theorem pAssign_not_mem {s : PCsp} {v : VarId} {u : Variable} {a : Val}
    (hv : s.getVar v = some u) (ha : a ∉ u.domain) :
    s.assign v (some a) = .invalid s := by
  simp only [PCsp.assign, hv, trySet_value_not_mem ha]


/-- C8 counterexample: on a fresh BacktrackCspSolver the failure count is 0 and
reading average_failure_depth is a ZeroDivisionError (modelled as none) — the
division of the plain solver is not guarded, so reading the property can fail. -/
theorem c8_counterexample :
    c8Solver.failureNumber = 0 ∧ c8Solver.averageFailureDepth = none :=
  ⟨rfl, rfl⟩

/-- C8 as amended: for BacktrackBinaryCspSolver reading average_failure_depth
never fails and yields the failure-depth sum divided by the failure count, 0
when the count is 0; for BacktrackCspSolver the unguarded division yields the
same quotient only when the failure count is non-zero (and fails otherwise). -/
theorem c8_average_failure_depth_guarded (b : BSolver) (p : PSolver) :
    b.averageFailureDepth =
      some (if b.failureNumber = 0 then 0
            else (b.failureDepthSum : ℚ) / (b.failureNumber : ℚ)) ∧
    (p.failureNumber ≠ 0 →
      p.averageFailureDepth = some ((p.failureDepthSum : ℚ) / (p.failureNumber : ℚ))) := by
  constructor
  · unfold BSolver.averageFailureDepth
    by_cases h : b.failureNumber = 0 <;> simp [h]
  · intro h
    unfold PSolver.averageFailureDepth
    rw [if_neg h]

/-- Witness for C8 at concrete solver states. -/
theorem c8_average_failure_depth_witness :
    (BSolver.mk0 (BinaryCsp.build [] [] false false false) false).averageFailureDepth = some 0 ∧
    (PSolver.mk (PCsp.build [] [] false) 4 2).averageFailureDepth = some 2 := by
  have h := c8_average_failure_depth_guarded
    (BSolver.mk0 (BinaryCsp.build [] [] false false false) false)
    (PSolver.mk (PCsp.build [] [] false) 4 2)
  constructor
  · rw [h.1]
    norm_num [BSolver.mk0]
  · rw [h.2 (by norm_num)]
    norm_num

/-- C1: on the concrete CSP with two variables with the non-empty finite
domain [1] each, no constraints, and the degree heuristic enabled,
BacktrackCspSolver.solve returns normally although variable 0 is still
unassigned — solve consumes one variable from the stateful degree-ordered
selection before the search starts, because it calls get_unassigned_variable
a second time instead of using the initial variable it already read. -/
theorem c1_solve_returns_partial_assignment :
    (∀ w ∈ c1Csp.vars, w.domain ≠ []) ∧
    c1Run.isOk = true ∧
    (c1Run.state (PSolver.mk0 c1Csp)).csp.unassigned = [0] ∧
    (c1Run.state (PSolver.mk0 c1Csp)).csp.valueOf 0 = none := by
  refine ⟨by decide, by decide, by decide, by decide⟩

/-- C4 counterexample: on the fixed binary CSP with domains [1] and [2] and
the single asymmetric constraint first < second, solve without AC-3 returns
normally while solve with AC-3 (all other flags equal) raises
InconsistentCspError — the AC-3 flag changes whether solve raises. -/
theorem c4_counterexample :
    (BSolver.mk0 lessCsp false).solve.isOk = true ∧
    (BSolver.mk0 lessCsp true).solve.isInvalid = true := by
  refine ⟨by decide, by decide⟩

/-- C5 counterexample: on the same CSP the total assignment 1, 2 picks a value
from each current domain and satisfies the only constraint, yet apply_ac3
prunes the picked value 2 out of variable 1's domain (revise applies the
predicate with swapped arguments when it revises the second participant). -/
theorem c5_counterexample :
    (∀ w ∈ lessCsp.vars, lessPick w.id ∈ w.domain) ∧
    (∀ c ∈ lessCsp.constraints, c.func (lessPick c.fst) (lessPick c.snd) = true) ∧
    lessPick 1 ∉ (lessCsp.applyAc3).domainOf 1 := by
  exact ⟨by decide, by decide, by decide⟩

/-- C2 counterexample: in a state reachable through two assignments followed
by apply_ac3 (which prunes both assigned values out of their domains), an
assign that fails its constraint check attempts the rollback through the value
setter, the setter's domain check rejects the old value, and the variable is
left holding the new value: the observable state after the raised
InvalidValueError differs from the state before the call. -/
theorem c2_counterexample :
    BReach rbCsp0 rbCsp3 ∧
    rbCsp3.assign 0 (some 2) = .invalid rbBad ∧
    rbCsp3.valueOf 0 = some 1 ∧
    rbBad.valueOf 0 = some 2 ∧
    2 ∈ rbCsp3.domainOf 0 := by
  refine ⟨?_, by rfl, by decide, by decide, by decide⟩
  exact BReach.ac3 (BReach.assignOk 1 (some 5)
    (BReach.assignOk 0 (some 1) (BReach.refl _) (by rfl)) (by rfl))

/-- C6 counterexample: in a reachable state of an MRV BinaryCsp in which the
removed-values record of variable 0 holds a stale entry toward its unassigned
neighbour (left behind because the neighbour was assigned when variable 0 was
unassigned), a successful assign followed immediately by assign-none does not
restore the neighbour's domain nor the removed-values record. -/
theorem c6_counterexample :
    BReach neCsp0 neCsp4 ∧
    neCsp4.assign 0 (some 2) = .ok neCsp5 ∧
    neCsp5.assign 0 none = .ok neCsp6 ∧
    (1 ∈ neCsp6.domainOf 1 ∧ 1 ∉ neCsp4.domainOf 1) ∧
    neCsp4.removedAt 0 1 = some [1] ∧ neCsp6.removedAt 0 1 = some [] := by
  refine ⟨?_, by rfl, by rfl, by decide, by decide, by decide⟩
  exact BReach.assignOk 1 none (BReach.assignOk 0 none (BReach.assignOk 1 (some 2)
    (BReach.assignOk 0 (some 1) (BReach.refl _) (by rfl)) (by rfl)) (by rfl)) (by rfl)

/-- C7 counterexample: with the degree heuristic, after one reachable call of
get_unassigned_variable the selection returns none although the unassigned set
is non-empty (the walked index reached the end of the pre-sorted order). -/
theorem c7_counterexample :
    PReach degCsp0 degCsp1 ∧
    degCsp0.useDegree = true ∧
    degCsp1.getUnassigned = .ok (none, degCsp1) ∧
    degCsp1.unassigned = [0] := by
  refine ⟨PReach.getU (PReach.refl _) (by rfl), by decide, by rfl, by decide⟩

theorem variable_eq_of_fields {u w : Variable} (h1 : u.id = w.id) (h2 : u.domain = w.domain)
    (h3 : u.originalDomain = w.originalDomain) (h4 : u.value = w.value) : u = w := by
  cases u
  cases w
  simp_all

theorem replaceVar_cancel {l : List Variable} {u w : Variable}
    (hu : l.find? (fun t => t.id = u.id) = some u) (hw : w.id = u.id) :
    replaceVar (replaceVar l w) u = l := by
  induction l with
  | nil => simp at hu
  | cons a as ih =>
    by_cases ha : a.id = w.id
    · have hau : a.id = u.id := by rw [ha, hw]
      rw [List.find?_cons_of_pos _ (by simp [hau])] at hu
      rw [Option.some_inj] at hu
      simp only [replaceVar]
      rw [if_pos ha]
      simp only [replaceVar]
      rw [if_pos hw, hu]
    · have hau : ¬ a.id = u.id := by rw [← hw]; exact ha
      rw [List.find?_cons_of_neg _ (by simp [hau])] at hu
      simp only [replaceVar]
      rw [if_neg ha]
      simp only [replaceVar]
      rw [if_neg hau, ih hu]

theorem trySet_back {var var1 : Variable} {x : Option Val}
    (ht : var.trySet x = some var1)
    (hv : ∀ a, var.value = some a → a ∈ var.domain) :
    var1.trySet var.value = some var := by
  obtain ⟨hid, hdm, hod, hval⟩ := trySet_some ht
  cases hva : var.value with
  | none =>
    simp only [Variable.trySet, Option.some_inj]
    exact variable_eq_of_fields hid hdm hod (by rw [hva])
  | some b =>
    have hb : b ∈ var1.domain := by
      rw [hdm]
      exact hv b hva
    rw [trySet_value_mem hb, Option.some_inj]
    exact variable_eq_of_fields hid hdm hod (by rw [hva])

theorem setVar_setVar_cancel {s : BinaryCsp} {v : VarId} {var var1 : Variable}
    (hv : s.getVar v = some var) (hw : var1.id = var.id) :
    (s.setVar var1).setVar var = s := by
  have hvid : var.id = v := getVar_id hv
  have hu : s.vars.find? (fun t => t.id = var.id) = some var := by
    rw [hvid]
    exact hv
  show ({ s with vars := replaceVar (replaceVar s.vars var1) var } : BinaryCsp) = s
  rw [replaceVar_cancel hu hw]

theorem pSetVar_setVar_cancel {s : PCsp} {v : VarId} {var var1 : Variable}
    (hv : s.getVar v = some var) (hw : var1.id = var.id) :
    (s.setVar var1).setVar var = s := by
  have hvid : var.id = v := pGetVar_id hv
  have hu : s.vars.find? (fun t => t.id = var.id) = some var := by
    rw [hvid]
    exact hv
  show ({ s with vars := replaceVar (replaceVar s.vars var1) var } : PCsp) = s
  rw [replaceVar_cancel hu hw]

theorem bSuperAssign_invalid {s : BinaryCsp} {v : VarId} {x : Option Val} {s' : BinaryCsp}
    (hdom : ∀ u ∈ s.vars, ∀ a, u.value = some a → a ∈ u.domain)
    (h : s.superAssign v x = .invalid s') : s' = s := by
  unfold BinaryCsp.superAssign at h
  cases hv : s.getVar v with
  | none =>
    simp only [hv] at h
    exact Outcome.noConfusion h
  | some var =>
    simp only [hv] at h
    cases ht : var.trySet x with
    | none =>
      simp only [ht, Outcome.invalid.injEq] at h
      exact h.symm
    | some var1 =>
      simp only [ht] at h
      split at h
      · split at h <;> simp at h
      · have hvv : var1.trySet var.value = some var :=
          trySet_back ht (hdom var (getVar_mem hv))
        simp only [hvv, Outcome.invalid.injEq] at h
        rw [← h]
        exact setVar_setVar_cancel hv (trySet_some ht).1

theorem mrvStep_not_invalid {v : VarId} {s : BinaryCsp} {c : BinaryConstraint} {s' : BinaryCsp} :
    BinaryCsp.mrvStep v s c ≠ .invalid s' := by
  unfold BinaryCsp.mrvStep
  simp only
  split
  · cases h : s.removedAt v (c.other v) <;> simp [h]
  · simp

theorem mrvLoop_not_invalid {v : VarId} {s : BinaryCsp} {cs : List BinaryConstraint}
    {s' : BinaryCsp} : BinaryCsp.mrvLoop v s cs ≠ .invalid s' := by
  induction cs generalizing s with
  | nil => simp [BinaryCsp.mrvLoop]
  | cons c cs ih =>
    unfold BinaryCsp.mrvLoop
    cases h : BinaryCsp.mrvStep v s c with
    | ok s1 => exact ih
    | invalid s1 => exact absurd h mrvStep_not_invalid
    | crash => simp

theorem bAssign_invalid {s : BinaryCsp} {v : VarId} {x : Option Val} {s' : BinaryCsp}
    (hdom : ∀ u ∈ s.vars, ∀ a, u.value = some a → a ∈ u.domain)
    (h : s.assign v x = .invalid s') : s' = s := by
  unfold BinaryCsp.assign at h
  cases hsa : s.superAssign v x with
  | crash =>
    simp only [hsa] at h
    exact Outcome.noConfusion h
  | invalid s1 =>
    simp only [hsa, Outcome.invalid.injEq] at h
    rw [← h]
    exact bSuperAssign_invalid hdom hsa
  | ok s1 =>
    simp only [hsa] at h
    split at h
    · exact Outcome.noConfusion h
    · exact absurd h mrvLoop_not_invalid

theorem pAssign_invalid {s : PCsp} {v : VarId} {x : Option Val} {s' : PCsp}
    (hdom : ∀ u ∈ s.vars, ∀ a, u.value = some a → a ∈ u.domain)
    (h : s.assign v x = .invalid s') : s' = s := by
  unfold PCsp.assign at h
  cases hv : s.getVar v with
  | none =>
    simp only [hv] at h
    exact Outcome.noConfusion h
  | some var =>
    simp only [hv] at h
    cases ht : var.trySet x with
    | none =>
      simp only [ht, Outcome.invalid.injEq] at h
      exact h.symm
    | some var1 =>
      simp only [ht] at h
      split at h
      · split at h <;> simp at h
      · have hvv : var1.trySet var.value = some var :=
          trySet_back ht (hdom var (List.mem_of_find?_eq_some hv))
        simp only [hvv, Outcome.invalid.injEq] at h
        rw [← h]
        exact pSetVar_setVar_cancel hv (trySet_some ht).1

/-- C2 as amended: in every state in which each assigned variable's value is
still a member of its domain (true in every state reachable without running
apply_ac3 after assignments, in particular throughout the solver's use), a
Csp.assign or BinaryCsp.assign that raises InvalidValueError leaves the entire
observable CSP state — every variable's value and domain, the unassigned set,
the degree index, the MRV structure and the removed-values record — exactly as
it was before the call. -/
theorem c2_assign_rollback_atomic (s : BinaryCsp) (p : PCsp) (v : VarId) (x : Option Val) :
    ((∀ u ∈ s.vars, ∀ a, u.value = some a → a ∈ u.domain) →
      ∀ s', s.assign v x = .invalid s' → s' = s) ∧
    ((∀ u ∈ p.vars, ∀ a, u.value = some a → a ∈ u.domain) →
      ∀ p', p.assign v x = .invalid p' → p' = p) :=
  ⟨fun hdom _ h => bAssign_invalid hdom h, fun hdom _ h => pAssign_invalid hdom h⟩

/-- Witness for the amended C2 at a concrete failing assign. -/
theorem c2_assign_rollback_atomic_witness :
    neCsp0 = neCsp0 ∧ degCsp0 = degCsp0 :=
  ⟨(c2_assign_rollback_atomic neCsp0 degCsp0 0 (some 5)).1 (by decide) neCsp0 (by rfl),
   (c2_assign_rollback_atomic neCsp0 degCsp0 0 (some 5)).2 (by decide) degCsp0 (by rfl)⟩

/-- C3: the Variable value setter succeeds exactly when the new value is null
or a member of the current domain; a successful set stores exactly the new
value and touches nothing else; the raise happens before the store, so a
failed set leaves the variable untouched; and Csp.assign runs this same check
on every mutation path: a non-null non-member makes assign raise
InvalidValueError with the CSP state identical to the state before the call,
and the rollback mutation of a failed assign runs the identical check — when
the snapshot value passes it the state is restored exactly, and when the
snapshot value is non-null and no longer a member of the domain the rollback
itself raises and the new value is left stored. -/
theorem c3_assign_domain_check (var : Variable) (x : Option Val) (s : PCsp) (v : VarId) :
    ((var.trySet x).isSome = true ↔ x = none ∨ ∃ a, x = some a ∧ a ∈ var.domain) ∧
    (∀ w, var.trySet x = some w →
      w.value = x ∧ w.domain = var.domain ∧ w.id = var.id) ∧
    (∀ u a, s.getVar v = some u → x = some a → a ∉ u.domain →
      s.assign v x = .invalid s) ∧
    (∀ u, s.getVar v = some u → (∀ a, u.value = some a → a ∈ u.domain) →
      ∀ s', s.assign v x = .invalid s' → s' = s) ∧
    (∀ u a b, s.getVar v = some u → u.value = some a → a ∉ u.domain → b ∈ u.domain →
      ∀ s', s.assign v (some b) = .invalid s' →
        s' = s.setVar { u with value := some b }) := by
  refine ⟨trySet_isSome_iff, ?_, ?_, ?_, ?_⟩
  · intro w hw
    obtain ⟨h1, h2, _, h4⟩ := trySet_some hw
    exact ⟨h4, h2, h1⟩
  · intro u a hu hx ha
    rw [hx]
    exact pAssign_not_mem hu ha
  · intro u hu hdomu s' h
    unfold PCsp.assign at h
    simp only [hu] at h
    cases ht : u.trySet x with
    | none =>
      simp only [ht, Outcome.invalid.injEq] at h
      exact h.symm
    | some var1 =>
      simp only [ht] at h
      split at h
      · split at h <;> simp at h
      · have hvv : var1.trySet u.value = some u := trySet_back ht hdomu
        simp only [hvv, Outcome.invalid.injEq] at h
        rw [← h]
        exact pSetVar_setVar_cancel hu (trySet_some ht).1
  · intro u a b hu hval hnot hb s' h
    unfold PCsp.assign at h
    simp only [hu, trySet_value_mem hb] at h
    split at h
    · split at h <;> simp at h
    · rw [hval] at h
      simp only [@trySet_value_not_mem { u with value := some b } a hnot,
        Outcome.invalid.injEq] at h
      exact h.symm

/-- Witness for C3 at concrete inputs: setting a member of the domain
succeeds, setting a non-member does not, and on the rollback-forcing CSP the
re-run check raises and the failed assign leaves the new value stored. -/
theorem c3_assign_domain_check_witness :
    ((Variable.mk 7 [1, 2] [1, 2] none).trySet (some 2)).isSome = true ∧
    ((Variable.mk 7 [1, 2] [1, 2] none).trySet (some 3)).isSome ≠ true ∧
    (c3RbCsp.setVar { id := 0, domain := [2], originalDomain := [1, 2], value := some 2 } =
      c3RbCsp.setVar { id := 0, domain := [2], originalDomain := [1, 2], value := some 2 }) := by
  refine ⟨?_, ?_, ?_⟩
  · exact (c3_assign_domain_check (Variable.mk 7 [1, 2] [1, 2] none) (some 2)
      (PCsp.build [] [] false) 0).1.mpr (Or.inr ⟨2, rfl, by decide⟩)
  · intro h
    have h2 := (c3_assign_domain_check (Variable.mk 7 [1, 2] [1, 2] none) (some 3)
      (PCsp.build [] [] false) 0).1.mp h
    simp at h2
  · exact (c3_assign_domain_check (Variable.mk 7 [1, 2] [1, 2] none) (some 2) c3RbCsp 0).2.2.2.2
      { id := 0, domain := [2], originalDomain := [1, 2], value := some 1 } 1 2
      (by rfl) (by rfl) (by decide) (by decide)
      (c3RbCsp.setVar { id := 0, domain := [2], originalDomain := [1, 2], value := some 2 })
      (by rfl)

theorem getVar_mem_ids {s : BinaryCsp} {v : VarId} {u : Variable}
    (h : s.getVar v = some u) : v ∈ s.ids := by
  have hid := getVar_id h
  have hm := getVar_mem h
  rw [← hid]
  exact List.mem_map_of_mem _ hm

theorem getVar_of_mem_ids {s : BinaryCsp} {v : VarId} (h : v ∈ s.ids) :
    ∃ u, s.getVar v = some u := by
  unfold BinaryCsp.ids at h
  obtain ⟨u, hu, hid⟩ := List.mem_map.mp h
  have : (s.vars.find? (fun t => t.id = v)).isSome := by
    rw [List.find?_isSome]
    exact ⟨u, hu, by simp [hid]⟩
  exact Option.isSome_iff_exists.mp this

theorem valueOf_setDomain (s : BinaryCsp) (o : VarId) (d : List Val) (i : VarId) :
    (s.setDomain o d).valueOf i = s.valueOf i := by
  by_cases hio : i = o
  · subst hio
    cases hv : s.getVar i with
    | none =>
      unfold BinaryCsp.valueOf
      unfold BinaryCsp.getVar at hv ⊢
      show ((replaceDomain s.vars i d).find? (fun t => t.id = i)).bind _ = _
      rw [find_replaceDomain_none hv, hv]
    | some u =>
      unfold BinaryCsp.valueOf
      rw [getVar_setDomain_self hv, hv]
      rfl
  · unfold BinaryCsp.valueOf
    rw [getVar_setDomain_other hio]

theorem domainOf_setDomain_other {s : BinaryCsp} {o i : VarId} {d : List Val}
    (h : i ≠ o) : (s.setDomain o d).domainOf i = s.domainOf i := by
  unfold BinaryCsp.domainOf
  rw [getVar_setDomain_other h]

theorem domainOf_setDomain_self {s : BinaryCsp} {o : VarId} {d : List Val} {u : Variable}
    (h : s.getVar o = some u) : (s.setDomain o d).domainOf o = d := by
  unfold BinaryCsp.domainOf
  rw [getVar_setDomain_self h]
  rfl

theorem setRemoved_removedAt (s : BinaryCsp) (v o a b : VarId) (r : List Val) :
    (s.setRemoved v o r).removedAt a b =
      (s.removedAt a b).map (fun q => if (a, b) = (v, o) then r else q) := by
  unfold BinaryCsp.removedAt BinaryCsp.setRemoved
  show ((s.removed.map (fun e => if e.1 = (v, o) then (e.1, r) else e)).find?
      (fun e => e.1 = (a, b))).map (fun e => e.2) = _
  rw [List.find?_map]
  have hcomp : ((fun e : (VarId × VarId) × List Val => decide (e.1 = (a, b))) ∘
      (fun e => if e.1 = (v, o) then (e.1, r) else e)) =
      (fun e => decide (e.1 = (a, b))) := by
    funext e
    show decide ((if e.1 = (v, o) then (e.1, r) else e).1 = (a, b)) = decide (e.1 = (a, b))
    split <;> rfl
  rw [hcomp]
  cases hf : s.removed.find? (fun e => decide (e.1 = (a, b))) with
  | none => rfl
  | some e =>
    have he : e.1 = (a, b) := by
      have := List.find?_some hf
      simpa using this
    show some (if e.1 = (v, o) then (e.1, r) else e).2 = _
    rw [he]
    split <;> rfl

theorem removedAt_setRemoved_same {s : BinaryCsp} {v o : VarId} {r : List Val}
    (h : s.removedAt v o ≠ none) : (s.setRemoved v o r).removedAt v o = some r := by
  rw [setRemoved_removedAt]
  cases hf : s.removedAt v o with
  | none => exact absurd hf h
  | some q => simp

theorem removedAt_setRemoved_other {s : BinaryCsp} {v o a b : VarId} {r : List Val}
    (h : ¬ ((a, b) = (v, o))) :
    (s.setRemoved v o r).removedAt a b = s.removedAt a b := by
  rw [setRemoved_removedAt]
  cases hf : s.removedAt a b with
  | none => rfl
  | some q => simp [h]

theorem removedAt_setRemoved_none_iff (s : BinaryCsp) (v o a b : VarId) (r : List Val) :
    ((s.setRemoved v o r).removedAt a b = none ↔ s.removedAt a b = none) := by
  rw [setRemoved_removedAt]
  cases hf : s.removedAt a b with
  | none => simp
  | some q => simp

theorem trySet_eq_update {var var1 : Variable} {x : Option Val}
    (ht : var.trySet x = some var1) : var1 = { var with value := x } := by
  obtain ⟨h1, h2, h3, h4⟩ := trySet_some ht
  exact variable_eq_of_fields h1 h2 h3 h4

theorem bSuperAssign_ok_elim {s : BinaryCsp} {v : VarId} {x : Option Val} {s1 : BinaryCsp}
    (h : s.superAssign v x = .ok s1) :
    ∃ var, s.getVar v = some var ∧
      (∀ a, x = some a → a ∈ var.domain) ∧
      (((s.setVar { var with value := x }).incident v).all
        (fun c => c.check (s.setVar { var with value := x }))) = true ∧
      s1 = (if x = none then
              { s.setVar { var with value := x } with
                  unassigned := addId s.unassigned v,
                  degreeIdx := if s.useDegree then s.degreeIdx - 1 else s.degreeIdx }
            else
              { s.setVar { var with value := x } with
                  unassigned := removeId s.unassigned v }) := by
  unfold BinaryCsp.superAssign at h
  cases hv : s.getVar v with
  | none =>
    simp only [hv] at h
    exact Outcome.noConfusion h
  | some var =>
    simp only [hv] at h
    cases ht : var.trySet x with
    | none =>
      simp only [ht] at h
      exact Outcome.noConfusion h
    | some var1 =>
      simp only [ht] at h
      have hupd := trySet_eq_update ht
      subst hupd
      refine ⟨var, rfl, ?_, ?_, ?_⟩
      · intro a ha
        subst ha
        by_cases hm : a ∈ var.domain
        · exact hm
        · rw [trySet_value_not_mem hm] at ht
          exact Option.noConfusion ht
      · by_cases hc : (((s.setVar { var with value := x }).incident v).all
            (fun c => c.check (s.setVar { var with value := x }))) = true
        · exact hc
        · rw [if_neg hc] at h
          split at h <;> exact Outcome.noConfusion h
      · by_cases hc : (((s.setVar { var with value := x }).incident v).all
            (fun c => c.check (s.setVar { var with value := x }))) = true
        · rw [if_pos hc] at h
          by_cases hx : x = none
          · rw [if_pos hx] at h
            rw [if_pos hx]
            simp only [Outcome.ok.injEq] at h
            exact h.symm
          · rw [if_neg hx] at h
            rw [if_neg hx]
            simp only [Outcome.ok.injEq] at h
            exact h.symm
        · rw [if_neg hc] at h
          split at h <;> exact Outcome.noConfusion h

theorem mrvStep_ok_elim {v : VarId} {s : BinaryCsp} {c : BinaryConstraint} {s' : BinaryCsp}
    (h : BinaryCsp.mrvStep v s c = .ok s') :
    s'.constraints = s.constraints ∧ s'.unassigned = s.unassigned ∧
    s'.useMrv = s.useMrv ∧ s'.useLcv = s.useLcv ∧ s'.useDegree = s.useDegree ∧
    s'.sortedByDegree = s.sortedByDegree ∧ s'.degreeIdx = s.degreeIdx ∧
    s'.ids = s.ids ∧
    (∀ q, q ∈ s'.mrv ↔ q ∈ s.mrv) ∧
    (∀ a b, (s'.removedAt a b = none ↔ s.removedAt a b = none)) ∧
    (∀ i, s'.valueOf i = s.valueOf i) ∧
    (∀ i, i ≠ c.other v → s'.domainOf i = s.domainOf i) ∧
    (∀ a b, b ≠ c.other v → s'.removedAt a b = s.removedAt a b) := by
  unfold BinaryCsp.mrvStep at h
  simp only at h
  by_cases ho : c.other v ∈ s.mrv
  · rw [if_pos ho] at h
    cases hr : s.removedAt v (c.other v) with
    | none =>
      rw [hr] at h
      exact Outcome.noConfusion h
    | some r =>
      rw [hr] at h
      simp only [Outcome.ok.injEq] at h
      rw [← h]
      refine ⟨rfl, rfl, rfl, rfl, rfl, rfl, rfl, ?_, ?_, ?_, ?_, ?_, ?_⟩
      · show (replaceDomain (replaceDomain s.vars (c.other v) _) (c.other v) _).map
          (fun u => u.id) = s.vars.map (fun u => u.id)
        rw [replaceDomain_map_id, replaceDomain_map_id]
      · intro q
        show q ∈ addId (removeId s.mrv (c.other v)) (c.other v) ↔ q ∈ s.mrv
        rw [mem_addId, mem_removeId]
        constructor
        · intro hq
          cases hq with
          | inl h1 => exact h1.1
          | inr h1 => exact h1 ▸ ho
        · intro hq
          by_cases hqo : q = c.other v
          · exact Or.inr hqo
          · exact Or.inl ⟨hq, hqo⟩
      · intro a b
        show ((BinaryCsp.setRemoved _ v (c.other v) _).removedAt a b = none ↔
          s.removedAt a b = none)
        rw [removedAt_setRemoved_none_iff]
        show ((BinaryCsp.setRemoved _ v (c.other v) []).removedAt a b = none ↔ _)
        rw [removedAt_setRemoved_none_iff]
        exact Iff.rfl
      · intro i
        show (BinaryCsp.setDomain _ (c.other v) _).valueOf i = s.valueOf i
        rw [valueOf_setDomain]
        show (BinaryCsp.setDomain _ (c.other v) _).valueOf i = s.valueOf i
        rw [valueOf_setDomain]
        rfl
      · intro i hi
        show (BinaryCsp.setDomain _ (c.other v) _).domainOf i = s.domainOf i
        rw [domainOf_setDomain_other hi]
        show (BinaryCsp.setDomain _ (c.other v) _).domainOf i = s.domainOf i
        rw [domainOf_setDomain_other hi]
        rfl
      · intro a b hb
        have hne : ¬ ((a, b) = (v, c.other v)) := by
          intro hc
          exact hb (congrArg Prod.snd hc)
        show (BinaryCsp.setRemoved _ v (c.other v) _).removedAt a b = s.removedAt a b
        rw [removedAt_setRemoved_other hne]
        show (BinaryCsp.setRemoved _ v (c.other v) []).removedAt a b = _
        rw [removedAt_setRemoved_other hne]
        rfl
  · rw [if_neg ho] at h
    simp only [Outcome.ok.injEq] at h
    rw [← h]
    exact ⟨rfl, rfl, rfl, rfl, rfl, rfl, rfl, rfl, fun q => Iff.rfl,
      fun a b => Iff.rfl, fun i => rfl, fun i hi => rfl, fun a b hb => rfl⟩

theorem mrvLoop_ok_elim {v : VarId} {cs : List BinaryConstraint} {s s' : BinaryCsp}
    (h : BinaryCsp.mrvLoop v s cs = .ok s') :
    s'.constraints = s.constraints ∧ s'.unassigned = s.unassigned ∧
    s'.useMrv = s.useMrv ∧ s'.useLcv = s.useLcv ∧ s'.useDegree = s.useDegree ∧
    s'.sortedByDegree = s.sortedByDegree ∧ s'.degreeIdx = s.degreeIdx ∧
    s'.ids = s.ids ∧
    (∀ q, q ∈ s'.mrv ↔ q ∈ s.mrv) ∧
    (∀ a b, (s'.removedAt a b = none ↔ s.removedAt a b = none)) ∧
    (∀ i, s'.valueOf i = s.valueOf i) := by
  induction cs generalizing s with
  | nil =>
    simp only [BinaryCsp.mrvLoop, Outcome.ok.injEq] at h
    rw [← h]
    exact ⟨rfl, rfl, rfl, rfl, rfl, rfl, rfl, rfl, fun q => Iff.rfl,
      fun a b => Iff.rfl, fun i => rfl⟩
  | cons c cs ih =>
    unfold BinaryCsp.mrvLoop at h
    cases hs : BinaryCsp.mrvStep v s c with
    | ok s1 =>
      rw [hs] at h
      obtain ⟨e1, e2, e3, e4, e5, e6, e7, e8, e9, e10, e11, _, _⟩ := mrvStep_ok_elim hs
      obtain ⟨f1, f2, f3, f4, f5, f6, f7, f8, f9, f10, f11⟩ := ih h
      refine ⟨f1.trans e1, f2.trans e2, f3.trans e3, f4.trans e4, f5.trans e5,
        f6.trans e6, f7.trans e7, f8.trans e8, ?_, ?_, ?_⟩
      · intro q
        exact (f9 q).trans (e9 q)
      · intro a b
        exact (f10 a b).trans (e10 a b)
      · intro i
        exact (f11 i).trans (e11 i)
    | invalid s1 =>
      exact absurd hs mrvStep_not_invalid
    | crash =>
      rw [hs] at h
      exact Outcome.noConfusion h

theorem bAssign_ok_elim {s : BinaryCsp} {v : VarId} {x : Option Val} {s' : BinaryCsp}
    (h : s.assign v x = .ok s') :
    s'.constraints = s.constraints ∧
    s'.useMrv = s.useMrv ∧ s'.useLcv = s.useLcv ∧ s'.useDegree = s.useDegree ∧
    s'.sortedByDegree = s.sortedByDegree ∧
    s'.ids = s.ids ∧
    s'.unassigned = (if x = none then addId s.unassigned v else removeId s.unassigned v) ∧
    (∀ a b, (s'.removedAt a b = none ↔ s.removedAt a b = none)) ∧
    (s.useMrv = true →
      ∀ q, q ∈ s'.mrv ↔ (if x = none then q ∈ s.mrv ∨ q = v else q ∈ s.mrv ∧ q ≠ v)) ∧
    (s.useMrv = false → s'.mrv = s.mrv) ∧
    v ∈ s.ids ∧
    s'.valueOf v = x ∧
    (∀ i, i ≠ v → s'.valueOf i = s.valueOf i) := by
  unfold BinaryCsp.assign at h
  cases hsa : s.superAssign v x with
  | crash =>
    simp only [hsa] at h
    exact Outcome.noConfusion h
  | invalid s1 =>
    simp only [hsa] at h
    exact Outcome.noConfusion h
  | ok s1 =>
    simp only [hsa] at h
    obtain ⟨var, hv, hmem, hchk, hs1⟩ := bSuperAssign_ok_elim hsa
    have hvid : var.id = v := getVar_id hv
    have hvids : v ∈ s.ids := getVar_mem_ids hv
    have hval1 : s1.valueOf v = x := by
      rw [hs1]
      have hget : (s.setVar { var with value := x }).getVar v = some { var with value := x } := by
        have : ({ var with value := x } : Variable).id = v := hvid
        rw [← this]
        exact getVar_setVar_self (by rw [this]; exact hv)
      split <;> · unfold BinaryCsp.valueOf
                  show ((s.setVar { var with value := x }).getVar v).bind _ = x
                  rw [hget]
                  rfl
    have hvalo : ∀ i, i ≠ v → s1.valueOf i = s.valueOf i := by
      intro i hi
      rw [hs1]
      have : (s.setVar { var with value := x }).getVar i = s.getVar i :=
        getVar_setVar_other (by rw [hvid]; exact hi)
      split <;> · unfold BinaryCsp.valueOf
                  show ((s.setVar { var with value := x }).getVar i).bind _ = _
                  rw [this]
    have hids1 : s1.ids = s.ids := by
      rw [hs1]
      split <;> · show (s.setVar { var with value := x }).ids = s.ids
                  exact ids_setVar s _
    have hcons1 : s1.constraints = s.constraints := by
      rw [hs1]; split <;> rfl
    have hmrv1 : s1.mrv = s.mrv := by
      rw [hs1]; split <;> rfl
    have hflags1 : s1.useMrv = s.useMrv ∧ s1.useLcv = s.useLcv ∧ s1.useDegree = s.useDegree ∧
        s1.sortedByDegree = s.sortedByDegree := by
      rw [hs1]; split <;> exact ⟨rfl, rfl, rfl, rfl⟩
    have hunas1 : s1.unassigned = (if x = none then addId s.unassigned v
        else removeId s.unassigned v) := by
      rw [hs1]
      by_cases hx : x = none
      · rw [if_pos hx, if_pos hx]
      · rw [if_neg hx, if_neg hx]
    have hrem1 : ∀ a b, s1.removedAt a b = s.removedAt a b := by
      intro a b
      rw [hs1]
      split <;> rfl
    by_cases hm : s1.useMrv
    · rw [if_neg (by rw [hm]; exact fun hc => hc rfl)] at h
      have hm0 : s.useMrv = true := by rw [← hflags1.1]; exact hm
      cases hx : x with
      | none =>
        rw [hx] at h hunas1 hval1
        rw [if_neg (fun hc => hc rfl)] at h
        obtain ⟨g1, g2, g3, g4, g5, g6, g7, g8, g9, g10, g11⟩ := mrvLoop_ok_elim h
        refine ⟨g1.trans hcons1, g3.trans hflags1.1, g4.trans hflags1.2.1,
          g5.trans hflags1.2.2.1, g6.trans hflags1.2.2.2, g8.trans hids1,
          g2.trans (show s1.unassigned = _ from hunas1), ?_, ?_, ?_, hvids,
          (g11 v).trans hval1, ?_⟩
        · intro a b
          refine (g10 a b).trans ?_
          show (s1.removedAt a b = none ↔ s.removedAt a b = none)
          rw [hrem1]
        · intro _ q
          rw [g9 q]
          show q ∈ addId s1.mrv v ↔ _
          rw [if_pos rfl, mem_addId, hmrv1]
        · intro hc
          rw [hm0] at hc
          exact Bool.noConfusion hc
        · intro i hi
          rw [g11 i]
          exact hvalo i hi
      | some a =>
        rw [hx] at h hunas1 hval1
        rw [if_pos (fun hc => Option.noConfusion hc)] at h
        obtain ⟨g1, g2, g3, g4, g5, g6, g7, g8, g9, g10, g11⟩ := mrvLoop_ok_elim h
        refine ⟨g1.trans hcons1, g3.trans hflags1.1, g4.trans hflags1.2.1,
          g5.trans hflags1.2.2.1, g6.trans hflags1.2.2.2, g8.trans hids1,
          g2.trans (show s1.unassigned = _ from hunas1), ?_, ?_, ?_, hvids,
          (g11 v).trans hval1, ?_⟩
        · intro a' b
          refine (g10 a' b).trans ?_
          show (s1.removedAt a' b = none ↔ s.removedAt a' b = none)
          rw [hrem1]
        · intro _ q
          rw [g9 q]
          show q ∈ removeId s1.mrv v ↔ _
          rw [if_neg (by simp), mem_removeId, hmrv1]
        · intro hc
          rw [hm0] at hc
          exact Bool.noConfusion hc
        · intro i hi
          rw [g11 i]
          exact hvalo i hi
    · rw [if_pos (by simpa using hm)] at h
      simp only [Outcome.ok.injEq] at h
      rw [← h]
      have hm0 : s.useMrv = false := by
        cases hmv : s.useMrv
        · rfl
        · rw [← hflags1.1] at hmv
          exact absurd hmv hm
      refine ⟨hcons1, hflags1.1, hflags1.2.1, hflags1.2.2.1, hflags1.2.2.2, hids1,
        hunas1, fun a b => by rw [hrem1], ?_, fun _ => hmrv1, hvids, hval1, hvalo⟩
      intro hc
      rw [hm0] at hc
      exact Bool.noConfusion hc

theorem revise_fst_fields (s : BinaryCsp) (c : BinaryConstraint) (v : VarId) :
    (s.revise c v).1.constraints = s.constraints ∧
    (s.revise c v).1.unassigned = s.unassigned ∧
    (s.revise c v).1.useMrv = s.useMrv ∧ (s.revise c v).1.useLcv = s.useLcv ∧
    (s.revise c v).1.useDegree = s.useDegree ∧
    (s.revise c v).1.sortedByDegree = s.sortedByDegree ∧
    (s.revise c v).1.degreeIdx = s.degreeIdx ∧
    (s.revise c v).1.mrv = s.mrv ∧ (s.revise c v).1.removed = s.removed ∧
    (s.revise c v).1.ids = s.ids ∧
    (∀ i, (s.revise c v).1.valueOf i = s.valueOf i) := by
  refine ⟨rfl, rfl, rfl, rfl, rfl, rfl, rfl, rfl, rfl, ?_, ?_⟩
  · exact ids_setDomain s v _
  · intro i
    exact valueOf_setDomain s v _ i

theorem ac3Fuel_skel (fuel : Nat) (q : List (VarId × Nat)) (s : BinaryCsp) :
    (BinaryCsp.ac3Fuel fuel s q).constraints = s.constraints ∧
    (BinaryCsp.ac3Fuel fuel s q).unassigned = s.unassigned ∧
    (BinaryCsp.ac3Fuel fuel s q).useMrv = s.useMrv ∧
    (BinaryCsp.ac3Fuel fuel s q).useLcv = s.useLcv ∧
    (BinaryCsp.ac3Fuel fuel s q).useDegree = s.useDegree ∧
    (BinaryCsp.ac3Fuel fuel s q).sortedByDegree = s.sortedByDegree ∧
    (BinaryCsp.ac3Fuel fuel s q).degreeIdx = s.degreeIdx ∧
    (BinaryCsp.ac3Fuel fuel s q).mrv = s.mrv ∧
    (BinaryCsp.ac3Fuel fuel s q).removed = s.removed ∧
    (BinaryCsp.ac3Fuel fuel s q).ids = s.ids ∧
    (∀ i, (BinaryCsp.ac3Fuel fuel s q).valueOf i = s.valueOf i) := by
  induction fuel generalizing s q with
  | zero =>
    exact ⟨rfl, rfl, rfl, rfl, rfl, rfl, rfl, rfl, rfl, rfl, fun i => rfl⟩
  | succ fuel ih =>
    match q with
    | [] =>
      exact ⟨rfl, rfl, rfl, rfl, rfl, rfl, rfl, rfl, rfl, rfl, fun i => rfl⟩
    | (v, ci) :: rest =>
      unfold BinaryCsp.ac3Fuel
      cases hc : s.constraints.get? ci with
      | none =>
        simp only [hc]
        exact ih rest s
      | some c =>
        simp only [hc]
        obtain ⟨r1, r2, r3, r4, r5, r6, r7, r8, r9, r10, r11⟩ := revise_fst_fields s c v
        by_cases hrev : (s.revise c v).2
        · rw [if_pos hrev]
          obtain ⟨t1, t2, t3, t4, t5, t6, t7, t8, t9, t10, t11⟩ :=
            ih (rest ++ (s.revise c v).1.requeue v) (s.revise c v).1
          exact ⟨t1.trans r1, t2.trans r2, t3.trans r3, t4.trans r4, t5.trans r5,
            t6.trans r6, t7.trans r7, t8.trans r8, t9.trans r9, t10.trans r10,
            fun i => (t11 i).trans (r11 i)⟩
        · rw [if_neg hrev]
          obtain ⟨t1, t2, t3, t4, t5, t6, t7, t8, t9, t10, t11⟩ := ih rest (s.revise c v).1
          exact ⟨t1.trans r1, t2.trans r2, t3.trans r3, t4.trans r4, t5.trans r5,
            t6.trans r6, t7.trans r7, t8.trans r8, t9.trans r9, t10.trans r10,
            fun i => (t11 i).trans (r11 i)⟩

theorem applyAc3_skel (s : BinaryCsp) :
    s.applyAc3.constraints = s.constraints ∧
    s.applyAc3.unassigned = s.unassigned ∧
    s.applyAc3.useMrv = s.useMrv ∧
    s.applyAc3.useLcv = s.useLcv ∧
    s.applyAc3.useDegree = s.useDegree ∧
    s.applyAc3.sortedByDegree = s.sortedByDegree ∧
    s.applyAc3.degreeIdx = s.degreeIdx ∧
    s.applyAc3.mrv = s.mrv ∧
    s.applyAc3.removed = s.removed ∧
    s.applyAc3.ids = s.ids ∧
    (∀ i, s.applyAc3.valueOf i = s.valueOf i) :=
  ac3Fuel_skel _ _ s

theorem bGetU_ok_elim {s : BinaryCsp} {r : Option VarId} {s' : BinaryCsp}
    (h : s.getUnassigned = .ok (r, s')) :
    s'.vars = s.vars ∧ s'.unassigned = s.unassigned ∧ s'.mrv = s.mrv ∧
    s'.removed = s.removed ∧ s'.constraints = s.constraints ∧
    s'.useMrv = s.useMrv ∧ s'.useLcv = s.useLcv ∧ s'.useDegree = s.useDegree ∧
    s'.sortedByDegree = s.sortedByDegree := by
  unfold BinaryCsp.getUnassigned at h
  by_cases hm : s.useMrv = true
  · rw [if_pos hm] at h
    have hs : s' = s := by
      cases hq : s.mrv with
      | nil =>
        rw [hq] at h
        simp only [Outcome.ok.injEq, Prod.mk.injEq] at h
        exact h.2.symm
      | cons a as =>
        rw [hq] at h
        simp only [Outcome.ok.injEq, Prod.mk.injEq] at h
        exact h.2.symm
    rw [hs]
    exact ⟨rfl, rfl, rfl, rfl, rfl, rfl, rfl, rfl, rfl⟩
  · rw [if_neg hm] at h
    by_cases h0 : s.unassigned.length = 0
    · rw [if_pos h0] at h
      simp only [Outcome.ok.injEq, Prod.mk.injEq] at h
      rw [← h.2]
      exact ⟨rfl, rfl, rfl, rfl, rfl, rfl, rfl, rfl, rfl⟩
    · rw [if_neg h0] at h
      by_cases hd : s.useDegree = true
      · rw [if_neg (by rw [hd]; exact fun hc => hc rfl)] at h
        by_cases he : s.degreeIdx = (s.sortedByDegree.length : Int)
        · rw [if_pos he] at h
          simp only [Outcome.ok.injEq, Prod.mk.injEq] at h
          rw [← h.2]
          exact ⟨rfl, rfl, rfl, rfl, rfl, rfl, rfl, rfl, rfl⟩
        · rw [if_neg he] at h
          cases hp : pyGet s.sortedByDegree s.degreeIdx with
          | none =>
            rw [hp] at h
            exact Outcome.noConfusion h
          | some w =>
            rw [hp] at h
            simp only [Outcome.ok.injEq, Prod.mk.injEq] at h
            rw [← h.2]
            exact ⟨rfl, rfl, rfl, rfl, rfl, rfl, rfl, rfl, rfl⟩
      · rw [if_pos (by simpa using hd)] at h
        simp only [Outcome.ok.injEq, Prod.mk.injEq] at h
        rw [← h.2]
        exact ⟨rfl, rfl, rfl, rfl, rfl, rfl, rfl, rfl, rfl⟩

theorem checkOv_resolve_none_fst {s : BinaryCsp} {c : BinaryConstraint}
    (hv : s.valueOf c.fst = none) : c.check s = true := by
  unfold BinaryConstraint.check BinaryConstraint.checkOv
  simp [hv]

theorem checkOv_resolve_none_snd {s : BinaryCsp} {c : BinaryConstraint}
    (hv : s.valueOf c.snd = none) : c.check s = true := by
  unfold BinaryConstraint.check BinaryConstraint.checkOv
  cases h : s.valueOf c.fst <;> simp [hv, h]

theorem check_vacuous_of_none {s : BinaryCsp} {c : BinaryConstraint} {v : VarId}
    (hc : v = c.fst ∨ v = c.snd) (hv : s.valueOf v = none) : c.check s = true := by
  cases hc with
  | inl h1 => exact checkOv_resolve_none_fst (h1 ▸ hv)
  | inr h1 => exact checkOv_resolve_none_snd (h1 ▸ hv)

theorem pCheck_vacuous_of_none {s : PCsp} {c : NConstraint} {v : VarId}
    (hc : v ∈ c.vars) (hv : s.valueOf v = none) : c.checkPlain s = true := by
  unfold NConstraint.checkPlain
  rw [if_pos]
  rw [List.any_eq_true]
  exact ⟨v, hc, by simp [hv]⟩

theorem bSuperAssign_none_ok {s : BinaryCsp} {v : VarId} {u : Variable}
    (hu : s.getVar v = some u) :
    s.superAssign v none =
      .ok { s.setVar { u with value := none } with
              unassigned := addId s.unassigned v,
              degreeIdx := if s.useDegree then s.degreeIdx - 1 else s.degreeIdx } := by
  unfold BinaryCsp.superAssign
  simp only [hu]
  have ht : u.trySet none = some { u with value := none } := rfl
  simp only [ht]
  have hidv : u.id = v := getVar_id hu
  have hu2 : s.getVar (({ u with value := none } : Variable).id) = some u := by
    show s.getVar u.id = some u
    rw [hidv]
    exact hu
  have hget : (s.setVar { u with value := none }).getVar v = some { u with value := none } := by
    rw [← hidv]
    exact getVar_setVar_self hu2
  have hval : (s.setVar { u with value := none }).valueOf v = none := by
    unfold BinaryCsp.valueOf
    rw [hget]
    rfl
  have hall : (((s.setVar { u with value := none }).incident v).all
      (fun c => c.check (s.setVar { u with value := none }))) = true := by
    rw [List.all_eq_true]
    intro c hcm
    have hcv : v = c.fst ∨ v = c.snd := by
      have := List.of_mem_filter hcm
      simpa using this
    exact check_vacuous_of_none hcv hval
  rw [if_pos hall]
  simp only [if_true]
  rfl

theorem bAssign_invalid_elim {s : BinaryCsp} {v : VarId} {x : Option Val} {s' : BinaryCsp}
    (h : s.assign v x = .invalid s') :
    s' = s ∨ (∃ var a, s.getVar v = some var ∧ x = some a ∧ s.valueOf v ≠ none ∧
      s' = s.setVar { var with value := x }) := by
  unfold BinaryCsp.assign at h
  cases hsa : s.superAssign v x with
  | crash =>
    simp only [hsa] at h
    exact Outcome.noConfusion h
  | ok s1 =>
    simp only [hsa] at h
    split at h
    · exact Outcome.noConfusion h
    · exact absurd h mrvLoop_not_invalid
  | invalid s1 =>
    simp only [hsa, Outcome.invalid.injEq] at h
    have hsa0 := hsa
    unfold BinaryCsp.superAssign at hsa
    cases hv : s.getVar v with
    | none =>
      simp only [hv] at hsa
      exact Outcome.noConfusion hsa
    | some var =>
      simp only [hv] at hsa
      cases ht : var.trySet x with
      | none =>
        simp only [ht, Outcome.invalid.injEq] at hsa
        left
        rw [← h, ← hsa]
      | some var1 =>
        simp only [ht] at hsa
        split at hsa
        · split at hsa <;> exact Outcome.noConfusion hsa
        · cases hrb : var1.trySet var.value with
          | some var2 =>
            rw [hrb] at hsa
            simp only [Outcome.invalid.injEq] at hsa
            left
            have h2 := trySet_eq_update hrb
            have h1 := trySet_eq_update ht
            have hv2 : var2 = var := by
              rw [h2, h1]
            rw [← h, ← hsa, hv2]
            exact setVar_setVar_cancel hv (trySet_some ht).1
          | none =>
            rw [hrb] at hsa
            simp only [Outcome.invalid.injEq] at hsa
            cases hx : x with
            | none =>
              exfalso
              rw [hx] at hsa0
              rw [bSuperAssign_none_ok hv] at hsa0
              exact Outcome.noConfusion hsa0
            | some a =>
              right
              refine ⟨var, a, rfl, rfl, ?_, ?_⟩
              · cases hvv : var.value with
                | none =>
                  exfalso
                  rw [hvv] at hrb
                  exact Option.noConfusion hrb
                | some b =>
                  simp [BinaryCsp.valueOf, hv, hvv]
              · rw [hx] at ht
                rw [← h, ← hsa, ← trySet_eq_update ht]

theorem incident_congr {s s' : BinaryCsp} (h : s'.constraints = s.constraints) (w : VarId) :
    s'.incident w = s.incident w := by
  unfold BinaryCsp.incident
  rw [h]

theorem removedAt_congr {s s' : BinaryCsp} (h : s'.removed = s.removed) (a b : VarId) :
    s'.removedAt a b = s.removedAt a b := by
  unfold BinaryCsp.removedAt
  rw [h]

theorem valueOf_congr {s s' : BinaryCsp} (h : s'.vars = s.vars) (i : VarId) :
    s'.valueOf i = s.valueOf i := by
  unfold BinaryCsp.valueOf BinaryCsp.getVar
  rw [h]

theorem valueOf_setVar_self {s : BinaryCsp} {v : VarId} {u w : Variable}
    (hu : s.getVar v = some u) (hw : w.id = v) : (s.setVar w).valueOf v = w.value := by
  unfold BinaryCsp.valueOf
  rw [← hw]
  rw [getVar_setVar_self (by rw [hw]; exact hu)]
  rfl

theorem valueOf_setVar_other {s : BinaryCsp} {w : Variable} {i : VarId}
    (h : i ≠ w.id) : (s.setVar w).valueOf i = s.valueOf i := by
  unfold BinaryCsp.valueOf
  rw [getVar_setVar_other h]

theorem binv_assign_ok {s s' : BinaryCsp} {v : VarId} {x : Option Val}
    (hinv : BInv s) (h : s.assign v x = .ok s') : BInv s' := by
  obtain ⟨i1, i2, i3, i4, i5⟩ := hinv
  obtain ⟨e1, e2, e3, e4, e5, e6, e7, e8, e9, e10, hvids, e11, e12⟩ := bAssign_ok_elim h
  refine ⟨?_, ?_, ?_, ?_, ?_⟩
  · rw [e6]
    exact i1
  · intro q hq
    rw [e7] at hq
    rw [e6]
    split at hq
    · rw [mem_addId] at hq
      cases hq with
      | inl h1 => exact i2 q h1
      | inr h1 => exact h1 ▸ hvids
    · rw [mem_removeId] at hq
      exact i2 q hq.1
  · intro i hi
    rw [e6] at hi
    rw [e7]
    by_cases hiv : i = v
    · subst hiv
      rw [e11]
      cases hx : x with
      | none =>
        rw [if_pos rfl, mem_addId]
        simp
      | some a =>
        rw [if_neg (by simp), mem_removeId]
        simp
    · rw [e12 i hiv]
      split
      · rw [mem_addId]
        constructor
        · intro hn
          exact Or.inl ((i3 i hi).mp hn)
        · intro hn
          cases hn with
          | inl h1 => exact (i3 i hi).mpr h1
          | inr h1 => exact absurd h1 hiv
      · rw [mem_removeId]
        constructor
        · intro hn
          exact ⟨(i3 i hi).mp hn, hiv⟩
        · intro hn
          exact (i3 i hi).mpr hn.1
  · intro hm q
    have hm0 : s.useMrv = true := by rw [← e2]; exact hm
    rw [e9 hm0 q, e7]
    cases hx : x with
    | none =>
      rw [if_pos rfl, if_pos rfl, mem_addId, i4 hm0 q]
    | some a =>
      rw [if_neg (by simp), if_neg (by simp), mem_removeId, i4 hm0 q]
  · intro hm w hw c hc
    have hm0 : s.useMrv = true := by rw [← e2]; exact hm
    rw [e6] at hw
    rw [incident_congr e1 w] at hc
    intro hnone
    exact i5 hm0 w hw c hc ((e8 w (c.other w)).mp hnone)

theorem binv_assign_invalid {s s' : BinaryCsp} {v : VarId} {x : Option Val}
    (hinv : BInv s) (h : s.assign v x = .invalid s') : BInv s' := by
  cases bAssign_invalid_elim h with
  | inl he => rw [he]; exact hinv
  | inr he =>
    obtain ⟨var, a, hv, hx, hval, hs'⟩ := he
    obtain ⟨i1, i2, i3, i4, i5⟩ := hinv
    have hwid : ({ var with value := x } : Variable).id = v := by
      show var.id = v
      exact getVar_id hv
    subst hs'
    refine ⟨?_, ?_, ?_, ?_, ?_⟩
    · rw [ids_setVar]
      exact i1
    · intro q hq
      rw [ids_setVar]
      exact i2 q hq
    · intro i hi
      rw [ids_setVar] at hi
      by_cases hiv : i = v
      · subst hiv
        rw [valueOf_setVar_self hv hwid]
        have hvnu : i ∉ s.unassigned := by
          intro hmem
          exact hval ((i3 i hi).mpr hmem)
      
        constructor
        · intro hc
          rw [hx] at hc
          exact Option.noConfusion hc
        · intro hc
          exact absurd hc hvnu
      · rw [valueOf_setVar_other (by rw [hwid]; exact hiv)]
        exact i3 i hi
    · exact i4
    · intro hm w hw c hc
      rw [ids_setVar] at hw
      rw [incident_congr rfl w] at hc
      rw [removedAt_congr rfl]
      exact i5 hm w hw c hc

theorem binv_ac3 {s : BinaryCsp} (hinv : BInv s) : BInv s.applyAc3 := by
  obtain ⟨i1, i2, i3, i4, i5⟩ := hinv
  obtain ⟨k1, k2, k3, k4, k5, k6, k7, k8, k9, k10, k11⟩ := applyAc3_skel s
  refine ⟨?_, ?_, ?_, ?_, ?_⟩
  · rw [k10]; exact i1
  · intro q hq
    rw [k10]
    exact i2 q (k2 ▸ hq)
  · intro i hi
    rw [k2, k11 i]
    exact i3 i (k10 ▸ hi)
  · intro hm q
    rw [k8, k2]
    exact i4 (by rw [← k3]; exact hm) q
  · intro hm w hw c hc
    rw [incident_congr k1 w] at hc
    rw [removedAt_congr k9]
    exact i5 (by rw [← k3]; exact hm) w (k10 ▸ hw) c hc

theorem binv_getU {s : BinaryCsp} {r : Option VarId} {s' : BinaryCsp}
    (hinv : BInv s) (h : s.getUnassigned = .ok (r, s')) : BInv s' := by
  obtain ⟨i1, i2, i3, i4, i5⟩ := hinv
  obtain ⟨k1, k2, k3, k4, k5, k6, k7, k8, k9⟩ := bGetU_ok_elim h
  have hids : s'.ids = s.ids := by unfold BinaryCsp.ids; rw [k1]
  refine ⟨?_, ?_, ?_, ?_, ?_⟩
  · rw [hids]; exact i1
  · intro q hq
    rw [hids]
    exact i2 q (k2 ▸ hq)
  · intro i hi
    rw [k2, valueOf_congr k1 i]
    exact i3 i (hids ▸ hi)
  · intro hm q
    rw [k3, k2]
    exact i4 (by rw [← k6]; exact hm) q
  · intro hm w hw c hc
    rw [incident_congr k5 w] at hc
    rw [removedAt_congr k4]
    exact i5 (by rw [← k6]; exact hm) w (hids ▸ hw) c hc

theorem binv_reach {a s : BinaryCsp} (hinv : BInv a) (hr : BReach a s) : BInv s := by
  induction hr with
  | refl => exact hinv
  | assignOk v x _ he ih => exact binv_assign_ok ih he
  | assignInvalid v x _ he ih => exact binv_assign_invalid ih he
  | ac3 _ ih => exact binv_ac3 ih
  | getU _ he ih => exact binv_getU ih he

theorem pGetVar_of_mem_ids {s : PCsp} {v : VarId} (h : v ∈ s.ids) :
    ∃ u, s.getVar v = some u := by
  unfold PCsp.ids at h
  obtain ⟨u, hu, hid⟩ := List.mem_map.mp h
  have : (s.vars.find? (fun t => t.id = v)).isSome := by
    rw [List.find?_isSome]
    exact ⟨u, hu, by simp [hid]⟩
  exact Option.isSome_iff_exists.mp this

theorem pAssign_none_ok {s : PCsp} {v : VarId} (hv : v ∈ s.ids) :
    ∃ s', s.assign v none = .ok s' := by
  obtain ⟨u, hu⟩ := pGetVar_of_mem_ids hv
  unfold PCsp.assign
  simp only [hu]
  have ht : u.trySet none = some { u with value := none } := rfl
  simp only [ht]
  have hidv : u.id = v := pGetVar_id hu
  have hu2 : s.getVar (({ u with value := none } : Variable).id) = some u := by
    show s.getVar u.id = some u
    rw [hidv]
    exact hu
  have hget : (s.setVar { u with value := none }).getVar v = some { u with value := none } := by
    rw [← hidv]
    exact pGetVar_setVar_self hu2
  have hval : (s.setVar { u with value := none }).valueOf v = none := by
    unfold PCsp.valueOf
    rw [hget]
    rfl
  have hall : (((s.setVar { u with value := none }).incident v).all
      (fun c => c.checkPlain (s.setVar { u with value := none }))) = true := by
    rw [List.all_eq_true]
    intro c hcm
    have hcv : v ∈ c.vars := by
      have := List.of_mem_filter hcm
      simpa using this
    exact pCheck_vacuous_of_none hcv hval
  rw [if_pos hall]
  exact ⟨_, by simp only [if_true]; rfl⟩

theorem pGetVar_mem_ids {s : PCsp} {v : VarId} {u : Variable}
    (h : s.getVar v = some u) : v ∈ s.ids := by
  have hid := pGetVar_id h
  have hm := List.mem_of_find?_eq_some h
  rw [← hid]
  exact List.mem_map_of_mem _ hm

theorem pValueOf_setVar_self {s : PCsp} {v : VarId} {u w : Variable}
    (hu : s.getVar v = some u) (hw : w.id = v) : (s.setVar w).valueOf v = w.value := by
  unfold PCsp.valueOf
  rw [← hw]
  rw [pGetVar_setVar_self (by rw [hw]; exact hu)]
  rfl

theorem pValueOf_setVar_other {s : PCsp} {w : Variable} {i : VarId}
    (h : i ≠ w.id) : (s.setVar w).valueOf i = s.valueOf i := by
  unfold PCsp.valueOf
  rw [pGetVar_setVar_other h]

theorem pAssign_ok_elim {s : PCsp} {v : VarId} {x : Option Val} {s' : PCsp}
    (h : s.assign v x = .ok s') :
    s'.constraints = s.constraints ∧ s'.useDegree = s.useDegree ∧
    s'.sortedByDegree = s.sortedByDegree ∧ s'.ids = s.ids ∧
    s'.unassigned = (if x = none then addId s.unassigned v else removeId s.unassigned v) ∧
    v ∈ s.ids ∧ s'.valueOf v = x ∧ (∀ i, i ≠ v → s'.valueOf i = s.valueOf i) := by
  unfold PCsp.assign at h
  cases hv : s.getVar v with
  | none =>
    simp only [hv] at h
    exact Outcome.noConfusion h
  | some var =>
    simp only [hv] at h
    cases ht : var.trySet x with
    | none =>
      simp only [ht] at h
      exact Outcome.noConfusion h
    | some var1 =>
      simp only [ht] at h
      have hupd := trySet_eq_update ht
      subst hupd
      have hvid : var.id = v := pGetVar_id hv
      have hwid : ({ var with value := x } : Variable).id = v := by
        show var.id = v
        exact hvid
      split at h
      · by_cases hx : x = none
        · rw [if_pos hx] at h
          simp only [Outcome.ok.injEq] at h
          rw [← h]
          refine ⟨rfl, rfl, rfl, ids_setVar' s _, ?_, pGetVar_mem_ids hv, ?_, ?_⟩
          · rw [if_pos hx]
            rfl
          · show (s.setVar { var with value := x }).valueOf v = x
            rw [pValueOf_setVar_self hv hwid]
          · intro i hi
            show (s.setVar { var with value := x }).valueOf i = s.valueOf i
            exact pValueOf_setVar_other (by rw [hwid]; exact hi)
        · rw [if_neg hx] at h
          simp only [Outcome.ok.injEq] at h
          rw [← h]
          refine ⟨rfl, rfl, rfl, ids_setVar' s _, ?_, pGetVar_mem_ids hv, ?_, ?_⟩
          · rw [if_neg hx]
            rfl
          · show (s.setVar { var with value := x }).valueOf v = x
            rw [pValueOf_setVar_self hv hwid]
          · intro i hi
            show (s.setVar { var with value := x }).valueOf i = s.valueOf i
            exact pValueOf_setVar_other (by rw [hwid]; exact hi)
      · split at h <;> exact Outcome.noConfusion h

theorem pAssign_invalid_elim {s : PCsp} {v : VarId} {x : Option Val} {s' : PCsp}
    (h : s.assign v x = .invalid s') :
    s' = s ∨ (∃ var a, s.getVar v = some var ∧ x = some a ∧ s.valueOf v ≠ none ∧
      s' = s.setVar { var with value := x }) := by
  unfold PCsp.assign at h
  cases hv : s.getVar v with
  | none =>
    simp only [hv] at h
    exact Outcome.noConfusion h
  | some var =>
    simp only [hv] at h
    cases ht : var.trySet x with
    | none =>
      simp only [ht, Outcome.invalid.injEq] at h
      left
      rw [← h]
    | some var1 =>
      simp only [ht] at h
      split at h
      · split at h <;> exact Outcome.noConfusion h
      · rename_i hchk
        cases hrb : var1.trySet var.value with
        | some var2 =>
          rw [hrb] at h
          simp only [Outcome.invalid.injEq] at h
          left
          have h2 := trySet_eq_update hrb
          have h1 := trySet_eq_update ht
          have hv2 : var2 = var := by
            rw [h2, h1]
          rw [← h, hv2]
          exact pSetVar_setVar_cancel hv (trySet_some ht).1
        | none =>
          rw [hrb] at h
          simp only [Outcome.invalid.injEq] at h
          cases hx : x with
          | none =>
            exfalso
            obtain ⟨sq, hsq⟩ := pAssign_none_ok (pGetVar_mem_ids hv)
            rw [hx] at ht
            unfold PCsp.assign at hsq
            simp only [hv, ht] at hsq
            split at hsq
            · rename_i hchk2
              exact hchk hchk2
            · rw [hrb] at hsq
              exact Outcome.noConfusion hsq
          | some a =>
            right
            refine ⟨var, a, rfl, rfl, ?_, ?_⟩
            · cases hvv : var.value with
              | none =>
                exfalso
                rw [hvv] at hrb
                exact Option.noConfusion hrb
              | some b =>
                simp [PCsp.valueOf, hv, hvv]
            · rw [hx] at ht
              rw [← h, ← trySet_eq_update ht]

theorem pGetU_ok_elim {s : PCsp} {r : Option VarId} {s' : PCsp}
    (h : s.getUnassigned = .ok (r, s')) :
    s'.vars = s.vars ∧ s'.unassigned = s.unassigned ∧ s'.constraints = s.constraints ∧
    s'.useDegree = s.useDegree ∧ s'.sortedByDegree = s.sortedByDegree := by
  unfold PCsp.getUnassigned at h
  by_cases h0 : s.unassigned.length = 0
  · rw [if_pos h0] at h
    simp only [Outcome.ok.injEq, Prod.mk.injEq] at h
    rw [← h.2]
    exact ⟨rfl, rfl, rfl, rfl, rfl⟩
  · rw [if_neg h0] at h
    by_cases hd : s.useDegree = true
    · rw [if_neg (by rw [hd]; exact fun hc => hc rfl)] at h
      by_cases he : s.degreeIdx = (s.sortedByDegree.length : Int)
      · rw [if_pos he] at h
        simp only [Outcome.ok.injEq, Prod.mk.injEq] at h
        rw [← h.2]
        exact ⟨rfl, rfl, rfl, rfl, rfl⟩
      · rw [if_neg he] at h
        cases hp : pyGet s.sortedByDegree s.degreeIdx with
        | none =>
          rw [hp] at h
          exact Outcome.noConfusion h
        | some w =>
          rw [hp] at h
          simp only [Outcome.ok.injEq, Prod.mk.injEq] at h
          rw [← h.2]
          exact ⟨rfl, rfl, rfl, rfl, rfl⟩
    · rw [if_pos (by simpa using hd)] at h
      simp only [Outcome.ok.injEq, Prod.mk.injEq] at h
      rw [← h.2]
      exact ⟨rfl, rfl, rfl, rfl, rfl⟩

theorem pinv_assign_ok {s s' : PCsp} {v : VarId} {x : Option Val}
    (hinv : PInv s) (h : s.assign v x = .ok s') : PInv s' := by
  obtain ⟨i1, i2, i3⟩ := hinv
  obtain ⟨e1, e2, e3, e4, e5, hvids, e6, e7⟩ := pAssign_ok_elim h
  refine ⟨?_, ?_, ?_⟩
  · rw [e4]
    exact i1
  · intro q hq
    rw [e5] at hq
    rw [e4]
    split at hq
    · rw [mem_addId] at hq
      cases hq with
      | inl h1 => exact i2 q h1
      | inr h1 => exact h1 ▸ hvids
    · rw [mem_removeId] at hq
      exact i2 q hq.1
  · intro i hi
    rw [e4] at hi
    rw [e5]
    by_cases hiv : i = v
    · subst hiv
      rw [e6]
      cases hx : x with
      | none =>
        rw [if_pos rfl, mem_addId]
        simp
      | some a =>
        rw [if_neg (by simp), mem_removeId]
        simp
    · rw [e7 i hiv]
      split
      · rw [mem_addId]
        constructor
        · intro hn
          exact Or.inl ((i3 i hi).mp hn)
        · intro hn
          cases hn with
          | inl h1 => exact (i3 i hi).mpr h1
          | inr h1 => exact absurd h1 hiv
      · rw [mem_removeId]
        constructor
        · intro hn
          exact ⟨(i3 i hi).mp hn, hiv⟩
        · intro hn
          exact (i3 i hi).mpr hn.1

theorem pinv_assign_invalid {s s' : PCsp} {v : VarId} {x : Option Val}
    (hinv : PInv s) (h : s.assign v x = .invalid s') : PInv s' := by
  cases pAssign_invalid_elim h with
  | inl he => rw [he]; exact hinv
  | inr he =>
    obtain ⟨var, a, hv, hx, hval, hs'⟩ := he
    obtain ⟨i1, i2, i3⟩ := hinv
    have hwid : ({ var with value := x } : Variable).id = v := by
      show var.id = v
      exact pGetVar_id hv
    subst hs'
    refine ⟨?_, ?_, ?_⟩
    · rw [ids_setVar']
      exact i1
    · intro q hq
      rw [ids_setVar']
      exact i2 q hq
    · intro i hi
      rw [ids_setVar'] at hi
      by_cases hiv : i = v
      · subst hiv
        rw [pValueOf_setVar_self hv hwid]
        have hvnu : i ∉ s.unassigned := by
          intro hmem
          exact hval ((i3 i hi).mpr hmem)
        constructor
        · intro hc
          rw [hx] at hc
          exact Option.noConfusion hc
        · intro hc
          exact absurd hc hvnu
      · rw [pValueOf_setVar_other (by rw [hwid]; exact hiv)]
        exact i3 i hi

theorem pinv_getU {s : PCsp} {r : Option VarId} {s' : PCsp}
    (hinv : PInv s) (h : s.getUnassigned = .ok (r, s')) : PInv s' := by
  obtain ⟨i1, i2, i3⟩ := hinv
  obtain ⟨k1, k2, k3, k4, k5⟩ := pGetU_ok_elim h
  have hids : s'.ids = s.ids := by unfold PCsp.ids; rw [k1]
  refine ⟨?_, ?_, ?_⟩
  · rw [hids]; exact i1
  · intro q hq
    rw [hids]
    exact i2 q (k2 ▸ hq)
  · intro i hi
    have hvq : s'.valueOf i = s.valueOf i := by
      unfold PCsp.valueOf PCsp.getVar
      rw [k1]
    rw [k2, hvq]
    exact i3 i (hids ▸ hi)

theorem pinv_reach {a s : PCsp} (hinv : PInv a) (hr : PReach a s) : PInv s := by
  induction hr with
  | refl => exact hinv
  | assignOk v x _ he ih => exact pinv_assign_ok ih he
  | assignInvalid v x _ he ih => exact pinv_assign_invalid ih he
  | getU _ he ih => exact pinv_getU ih he

theorem foldl_min_mem (s : BinaryCsp) (v : VarId) (vs : List VarId) :
    vs.foldl (fun best w =>
      if (s.domainOf w).length < (s.domainOf best).length then w else best) v ∈ v :: vs := by
  induction vs generalizing v with
  | nil => simp
  | cons a as ih =>
    simp only [List.foldl_cons]
    have h1 := ih (if (s.domainOf a).length < (s.domainOf v).length then a else v)
    cases List.mem_cons.mp h1 with
    | inl h2 =>
      rw [h2]
      split
      · exact List.mem_cons_of_mem v (List.mem_cons_self a as)
      · exact List.mem_cons_self v (a :: as)
    | inr h2 =>
      exact List.mem_cons_of_mem v (List.mem_cons_of_mem a h2)

theorem mrvSelect_mem {s : BinaryCsp} {q : VarId} {qs : List VarId} (h : s.mrv = q :: qs) :
    ∃ w, s.mrvSelect = some w ∧ w ∈ s.mrv := by
  unfold BinaryCsp.mrvSelect
  rw [h]
  exact ⟨_, rfl, foldl_min_mem s q qs⟩

/-- C7 as amended: in every reachable state of a constructed CSP whose
selection does not walk the degree-heuristic order (a plain Csp or BinaryCsp
without the degree heuristic, or a BinaryCsp with MRV, whose selection path
ignores the degree index), get_unassigned_variable returns none exactly when
the unassigned set is empty and otherwise returns a member of the unassigned
set whose value is null. With the degree heuristic the claim fails. -/
theorem c7_get_unassigned_correct (a s : BinaryCsp) (p0 p : PCsp) :
    (BInv a → BReach a s → (s.useMrv = true ∨ s.useDegree = false) →
      ∃ r s', s.getUnassigned = .ok (r, s') ∧
        (r = none ↔ s.unassigned = []) ∧
        (∀ w, r = some w → w ∈ s.unassigned ∧ s.valueOf w = none)) ∧
    (PInv p0 → PReach p0 p → p.useDegree = false →
      ∃ r p', p.getUnassigned = .ok (r, p') ∧
        (r = none ↔ p.unassigned = []) ∧
        (∀ w, r = some w → w ∈ p.unassigned ∧ p.valueOf w = none)) := by
  constructor
  · intro hinv hr hcfg
    obtain ⟨i1, i2, i3, i4, i5⟩ := binv_reach hinv hr
    unfold BinaryCsp.getUnassigned
    by_cases hm : s.useMrv = true
    · rw [if_pos hm]
      cases hq : s.mrv with
      | nil =>
        refine ⟨none, s, rfl, ?_, ?_⟩
        · simp only [true_iff]
          rw [List.eq_nil_iff_forall_not_mem]
          intro q hqu
          have : q ∈ s.mrv := (i4 hm q).mpr hqu
          rw [hq] at this
          exact List.not_mem_nil q this
        · intro w hw
          exact Option.noConfusion hw
      | cons q qs =>
        obtain ⟨w, hw, hwm⟩ := mrvSelect_mem hq
        refine ⟨s.mrvSelect, s, rfl, ?_, ?_⟩
        · rw [hw]
          constructor
          · intro hc
            exact Option.noConfusion hc
          · intro hc
            have : w ∈ s.unassigned := (i4 hm w).mp hwm
            rw [hc] at this
            exact absurd this (List.not_mem_nil w)
        · intro w' hw'
          rw [hw, Option.some_inj] at hw'
          have hwu : w ∈ s.unassigned := (i4 hm w).mp hwm
          rw [← hw']
          exact ⟨hwu, (i3 w (i2 w hwu)).mpr hwu⟩
    · have hdeg : s.useDegree = false := by
        cases hcfg with
        | inl h1 => exact absurd h1 hm
        | inr h1 => exact h1
      rw [if_neg hm]
      by_cases h0 : s.unassigned.length = 0
      · rw [if_pos h0]
        refine ⟨none, s, rfl, ?_, ?_⟩
        · simp only [true_iff]
          exact List.length_eq_zero.mp h0
        · intro w hw
          exact Option.noConfusion hw
      · rw [if_neg h0]
        rw [if_pos (by rw [hdeg]; exact fun hc => Bool.noConfusion hc)]
        cases hu : s.unassigned with
        | nil =>
          exfalso
          rw [hu] at h0
          exact h0 rfl
        | cons q qs =>
          refine ⟨(q :: qs).head?, s, rfl, ?_, ?_⟩
          · simp only [List.head?_cons]
            constructor
            · intro hc
              exact Option.noConfusion hc
            · intro hc
              exact List.noConfusion hc
          · intro w hw
            simp only [List.head?_cons, Option.some_inj] at hw
            have hwu : w ∈ s.unassigned := by
              rw [hu, ← hw]
              exact List.mem_cons_self q qs
            refine ⟨?_, (i3 w (i2 w hwu)).mpr hwu⟩
            rw [← hw]
            exact List.mem_cons_self q qs
  · intro hinv hr hdeg
    obtain ⟨i1, i2, i3⟩ := pinv_reach hinv hr
    unfold PCsp.getUnassigned
    by_cases h0 : p.unassigned.length = 0
    · rw [if_pos h0]
      refine ⟨none, p, rfl, ?_, ?_⟩
      · simp only [true_iff]
        exact List.length_eq_zero.mp h0
      · intro w hw
        exact Option.noConfusion hw
    · rw [if_neg h0]
      rw [if_pos (by rw [hdeg]; exact fun hc => Bool.noConfusion hc)]
      cases hu : p.unassigned with
      | nil =>
        exfalso
        rw [hu] at h0
        exact h0 rfl
      | cons q qs =>
        refine ⟨(q :: qs).head?, p, rfl, ?_, ?_⟩
        · simp only [List.head?_cons]
          constructor
          · intro hc
            exact Option.noConfusion hc
          · intro hc
            exact List.noConfusion hc
        · intro w hw
          simp only [List.head?_cons, Option.some_inj] at hw
          have hwu : w ∈ p.unassigned := by
            rw [hu, ← hw]
            exact List.mem_cons_self q qs
          refine ⟨?_, (i3 w (i2 w hwu)).mpr hwu⟩
          rw [← hw]
          exact List.mem_cons_self q qs

/-- Witness for the amended C7 at a concrete MRV CSP. -/
theorem c7_get_unassigned_correct_witness :
    ∃ r s', neCsp0.getUnassigned = .ok (r, s') ∧
      (r = none ↔ neCsp0.unassigned = []) ∧
      (∀ w, r = some w → w ∈ neCsp0.unassigned ∧ neCsp0.valueOf w = none) :=
  (c7_get_unassigned_correct neCsp0 neCsp0 c8Solver.csp c8Solver.csp).1
    (by unfold BInv; exact ⟨by decide, by decide, by decide, fun _ q => Iff.rfl, by decide⟩)
    (BReach.refl _) (Or.inl rfl)

theorem replaceDomain_self {l : List Variable} {o : VarId} {u : Variable}
    (h : l.find? (fun t => t.id = o) = some u) :
    replaceDomain l o u.domain = l := by
  induction l with
  | nil => rfl
  | cons a as ih =>
    by_cases ha : a.id = o
    · rw [List.find?_cons_of_pos _ (by simp [ha])] at h
      rw [Option.some_inj] at h
      unfold replaceDomain
      rw [if_pos ha, ← h]
    · rw [List.find?_cons_of_neg _ (by simp [ha])] at h
      unfold replaceDomain
      rw [if_neg ha, ih h]

theorem setDomain_self {s : BinaryCsp} {o : VarId} {u : Variable}
    (h : s.getVar o = some u) : s.setDomain o u.domain = s := by
  show ({ s with vars := replaceDomain s.vars o u.domain } : BinaryCsp) = s
  rw [replaceDomain_self h]

theorem checkOv_congr {s s' : BinaryCsp} (h : s'.vars = s.vars) (c : BinaryConstraint)
    (ov : List (VarId × Val)) : c.checkOv s' ov = c.checkOv s ov := by
  unfold BinaryConstraint.checkOv
  unfold BinaryCsp.valueOf BinaryCsp.getVar
  rw [h]

theorem setDomain_domainOf (s : BinaryCsp) (o : VarId) :
    s.setDomain o (s.domainOf o) = s := by
  cases hu : s.getVar o with
  | none =>
    show ({ s with vars := replaceDomain s.vars o (s.domainOf o) } : BinaryCsp) = s
    rw [find_replaceDomain_none hu]
  | some u =>
    have hd : s.domainOf o = u.domain := by
      unfold BinaryCsp.domainOf
      rw [hu]
      rfl
    rw [hd]
    exact setDomain_self hu

theorem domainOf_congr {s s' : BinaryCsp} (h : s'.vars = s.vars) (i : VarId) :
    s'.domainOf i = s.domainOf i := by
  unfold BinaryCsp.domainOf BinaryCsp.getVar
  rw [h]

theorem domainOf_setDomain_cases (s : BinaryCsp) (o : VarId) (d : List Val) :
    (s.setDomain o d).domainOf o = d ∨
    ((s.setDomain o d).domainOf o = [] ∧ s.domainOf o = []) := by
  cases hu : s.getVar o with
  | none =>
    right
    have hvars : s.setDomain o d = s := by
      show ({ s with vars := replaceDomain s.vars o d } : BinaryCsp) = s
      rw [find_replaceDomain_none hu]
    have hdom : s.domainOf o = [] := by
      unfold BinaryCsp.domainOf
      rw [hu]
      rfl
    rw [hvars]
    exact ⟨hdom, hdom⟩
  | some u =>
    left
    exact domainOf_setDomain_self hu

theorem filter_not_mem_nil (l : List Val) :
    l.filter (fun y => y ∉ ([] : List Val)) = l := by
  simp

theorem checkOv_vacuous {s : BinaryCsp} {c : BinaryConstraint} {v : VarId}
    (hp : v = c.fst ∨ v = c.snd) (hv : s.valueOf v = none)
    (ov : List (VarId × Val)) (hov : ∀ e ∈ ov, e.1 ≠ v) : c.checkOv s ov = true := by
  have hfind : ov.find? (fun p => p.1 = v) = none := by
    rw [List.find?_eq_none]
    intro e he
    simp [hov e he]
  unfold BinaryConstraint.checkOv
  cases hp with
  | inl h1 =>
    subst h1
    cases h2 : s.valueOf c.snd with
    | some b => simp [hv, hfind, h2]
    | none =>
      cases h3 : ov.find? (fun p => p.1 = c.snd) <;> simp [hv, hfind, h2, h3]
  | inr h1 =>
    subst h1
    cases h2 : s.valueOf c.fst with
    | some a => simp [hv, hfind, h2]
    | none =>
      cases h3 : ov.find? (fun p => p.1 = c.fst) <;> simp [hv, hfind, h2, h3]

theorem mrvStepA_elim {v : VarId} {s s' : BinaryCsp} {c : BinaryConstraint}
    (ho : c.other v ∈ s.mrv) (hr : s.removedAt v (c.other v) = some [])
    (h : BinaryCsp.mrvStep v s c = .ok s') :
    s'.removedAt v (c.other v) =
      some ((s.domainOf (c.other v)).filter (fun y => c.checkOv s [(c.other v, y)] = false)) ∧
    ((s.domainOf (c.other v)).filter (fun y => c.checkOv s [(c.other v, y)] = false)
        ⊆ s.domainOf (c.other v)) ∧
    (∀ x, x ∈ s'.domainOf (c.other v) ↔ x ∈ s.domainOf (c.other v) ∧
      x ∉ ((s.domainOf (c.other v)).filter (fun y => c.checkOv s [(c.other v, y)] = false))) := by
  unfold BinaryCsp.mrvStep at h
  simp only at h
  rw [if_pos ho] at h
  simp only [hr] at h
  set sA : BinaryCsp := { s with mrv := removeId s.mrv (c.other v) } with hsA
  have h2 : sA.setDomain (c.other v) (List.foldl addVal (sA.domainOf (c.other v)) []) = sA := by
    simp only [List.foldl_nil]
    exact setDomain_domainOf sA (c.other v)
  rw [h2] at h
  have h3 : (sA.setRemoved v (c.other v) []).domainOf (c.other v) = s.domainOf (c.other v) :=
    domainOf_congr rfl _
  have h4 : ∀ y, BinaryConstraint.checkOv (sA.setRemoved v (c.other v) []) c [(c.other v, y)] =
      BinaryConstraint.checkOv s c [(c.other v, y)] := fun y => checkOv_congr rfl c _
  simp only [h3, h4] at h
  simp only [Outcome.ok.injEq] at h
  rw [← h]
  set R : List Val :=
    (s.domainOf (c.other v)).filter (fun y => c.checkOv s [(c.other v, y)] = false) with hR
  have hpres : ((sA.setRemoved v (c.other v) []).setRemoved v (c.other v) R).removedAt
      v (c.other v) = some R := by
    refine removedAt_setRemoved_same ?_
    have hz : (sA.setRemoved v (c.other v) []).removedAt v (c.other v) = some [] := by
      refine removedAt_setRemoved_same ?_
      have he : sA.removedAt v (c.other v) = some [] := hr
      rw [he]
      simp
    rw [hz]
    simp
  refine ⟨?_, ?_, ?_⟩
  · show ((sA.setRemoved v (c.other v) []).setRemoved v (c.other v) R).removedAt
      v (c.other v) = some R
    exact hpres
  · intro x hx
    exact List.mem_of_mem_filter hx
  · intro x
    set s4 : BinaryCsp := (sA.setRemoved v (c.other v) []).setRemoved v (c.other v) R with hs4
    have hd4 : s4.domainOf (c.other v) = s.domainOf (c.other v) := domainOf_congr rfl _
    show x ∈ (s4.setDomain (c.other v)
      ((s4.domainOf (c.other v)).filter (fun y => y ∉ R))).domainOf (c.other v) ↔ _
    cases domainOf_setDomain_cases s4 (c.other v)
        ((s4.domainOf (c.other v)).filter (fun y => y ∉ R)) with
    | inl hcase =>
      rw [hcase, hd4]
      simp only [List.mem_filter, decide_not]
      constructor
      · intro hx
        exact ⟨hx.1, by simpa using hx.2⟩
      · intro hx
        exact ⟨hx.1, by simpa using hx.2⟩
    | inr hcase =>
      rw [hcase.1]
      have hnil : s.domainOf (c.other v) = [] := by rw [← hd4]; exact hcase.2
      rw [hnil]
      simp

theorem mrvStepU_elim {v : VarId} {s s' : BinaryCsp} {c : BinaryConstraint} {r : List Val}
    {u : Variable}
    (ho : c.other v ∈ s.mrv) (hr : s.removedAt v (c.other v) = some r)
    (hp : v = c.fst ∨ v = c.snd) (hvn : s.valueOf v = none) (hne : c.other v ≠ v)
    (hgo : s.getVar (c.other v) = some u)
    (h : BinaryCsp.mrvStep v s c = .ok s') :
    s'.removedAt v (c.other v) = some [] ∧
    (∀ x, x ∈ s'.domainOf (c.other v) ↔ x ∈ s.domainOf (c.other v) ∨ x ∈ r) := by
  unfold BinaryCsp.mrvStep at h
  simp only at h
  rw [if_pos ho] at h
  simp only [hr] at h
  set sA : BinaryCsp := { s with mrv := removeId s.mrv (c.other v) } with hsA
  set sB : BinaryCsp :=
    sA.setDomain (c.other v) (List.foldl addVal (sA.domainOf (c.other v)) r) with hsB
  set sC : BinaryCsp := sB.setRemoved v (c.other v) [] with hsC
  have hvC : sC.valueOf v = none := by
    have hv2 : sB.valueOf v = sA.valueOf v := valueOf_setDomain sA (c.other v) _ v
    show sB.valueOf v = none
    rw [hv2]
    exact hvn
  have hvac : ∀ y, BinaryConstraint.checkOv sC c [(c.other v, y)] = true := by
    intro y
    refine checkOv_vacuous hp hvC _ ?_
    intro e he
    simp only [List.mem_singleton] at he
    rw [he]
    exact hne
  have hnr : (sC.domainOf (c.other v)).filter
      (fun y => BinaryConstraint.checkOv sC c [(c.other v, y)] = false) = [] := by
    rw [List.filter_eq_nil_iff]
    intro y hy
    rw [hvac y]
    simp
  simp only [hnr] at h
  simp only [Outcome.ok.injEq] at h
  rw [← h]
  have hgA : sA.getVar (c.other v) = some u := hgo
  have hgB : sB.getVar (c.other v) =
      some { u with domain := List.foldl addVal (sA.domainOf (c.other v)) r } :=
    getVar_setDomain_self hgA
  have hdB : sB.domainOf (c.other v) = List.foldl addVal (s.domainOf (c.other v)) r :=
    domainOf_setDomain_self hgA
  constructor
  · show (sC.setRemoved v (c.other v) []).removedAt v (c.other v) = some []
    refine removedAt_setRemoved_same ?_
    have h1 : sC.removedAt v (c.other v) = some [] := by
      refine removedAt_setRemoved_same ?_
      have he : sB.removedAt v (c.other v) = some r := hr
      rw [he]
      simp
    rw [h1]
    simp
  · intro x
    set s4 : BinaryCsp := sC.setRemoved v (c.other v) [] with hs4
    have hg4 : s4.getVar (c.other v) = sB.getVar (c.other v) := rfl
    have hd4 : s4.domainOf (c.other v) = sB.domainOf (c.other v) := rfl
    show x ∈ (s4.setDomain (c.other v)
      ((s4.domainOf (c.other v)).filter (fun y => y ∉ ([] : List Val)))).domainOf
        (c.other v) ↔ _
    have hfull : (s4.setDomain (c.other v)
        ((s4.domainOf (c.other v)).filter (fun y => y ∉ ([] : List Val)))).domainOf
          (c.other v) =
        (s4.domainOf (c.other v)).filter (fun y => y ∉ ([] : List Val)) :=
      domainOf_setDomain_self (hg4.trans hgB)
    rw [hfull, filter_not_mem_nil, hd4, hdB]
    exact mem_foldl_addVal

theorem mem_incident_participant {s : BinaryCsp} {v : VarId} {c : BinaryConstraint}
    (h : c ∈ s.incident v) : v = c.fst ∨ v = c.snd := by
  unfold BinaryCsp.incident at h
  have hp := (List.mem_filter.mp h).2
  simpa using hp

theorem domainOf_setVar_self {s : BinaryCsp} {v : VarId} {u w : Variable}
    (hu : s.getVar v = some u) (hw : w.id = v) : (s.setVar w).domainOf v = w.domain := by
  unfold BinaryCsp.domainOf
  rw [← hw]
  rw [getVar_setVar_self (by rw [hw]; exact hu)]
  rfl

theorem domainOf_setVar_other {s : BinaryCsp} {w : Variable} {i : VarId}
    (h : i ≠ w.id) : (s.setVar w).domainOf i = s.domainOf i := by
  unfold BinaryCsp.domainOf
  rw [getVar_setVar_other h]

theorem mrvStepU_run {v : VarId} {s : BinaryCsp} {c : BinaryConstraint} {r : List Val}
    (ho : c.other v ∈ s.mrv) (hr : s.removedAt v (c.other v) = some r) :
    ∃ s', BinaryCsp.mrvStep v s c = .ok s' := by
  unfold BinaryCsp.mrvStep
  simp only
  rw [if_pos ho]
  simp only [hr]
  exact ⟨_, rfl⟩

theorem mrvLoopA_elim {v : VarId} {L : List BinaryConstraint} {s t : BinaryCsp}
    (hnd : (L.map (fun c => c.other v)).Nodup)
    (hmrv : ∀ c ∈ L, c.other v ∈ s.mrv)
    (hcl : ∀ c ∈ L, s.removedAt v (c.other v) = some [])
    (h : BinaryCsp.mrvLoop v s L = .ok t) :
    (∀ c ∈ L, ∃ R, t.removedAt v (c.other v) = some R ∧
      (∀ y, y ∈ R → y ∈ s.domainOf (c.other v)) ∧
      (∀ y, y ∈ t.domainOf (c.other v) ↔ y ∈ s.domainOf (c.other v) ∧ y ∉ R)) ∧
    (∀ i, i ∉ L.map (fun c => c.other v) → t.domainOf i = s.domainOf i) ∧
    (∀ a b, b ∉ L.map (fun c => c.other v) → t.removedAt a b = s.removedAt a b) := by
  induction L generalizing s with
  | nil =>
    simp only [BinaryCsp.mrvLoop, Outcome.ok.injEq] at h
    rw [← h]
    exact ⟨fun c hc => absurd hc (List.not_mem_nil c), fun i _ => rfl, fun a b _ => rfl⟩
  | cons c cs ih =>
    unfold BinaryCsp.mrvLoop at h
    cases hs : BinaryCsp.mrvStep v s c with
    | ok s1 =>
      rw [hs] at h
      obtain ⟨_, _, _, _, _, _, _, _, e9, _, _, e12, e13⟩ := mrvStep_ok_elim hs
      rw [List.map_cons, List.nodup_cons] at hnd
      obtain ⟨hhead, htail⟩ := hnd
      obtain ⟨hA1, hA2, hA3⟩ := mrvStepA_elim (hmrv c (List.mem_cons_self c cs))
        (hcl c (List.mem_cons_self c cs)) hs
      have hne1 : ∀ c' ∈ cs, c'.other v ≠ c.other v := by
        intro c' hc' heq
        exact hhead (heq ▸ List.mem_map.mpr ⟨c', hc', rfl⟩)
      have hmrv1 : ∀ c' ∈ cs, c'.other v ∈ s1.mrv := fun c' hc' =>
        (e9 _).mpr (hmrv c' (List.mem_cons_of_mem c hc'))
      have hcl1 : ∀ c' ∈ cs, s1.removedAt v (c'.other v) = some [] := by
        intro c' hc'
        rw [e13 v _ (hne1 c' hc')]
        exact hcl c' (List.mem_cons_of_mem c hc')
      obtain ⟨ih1, ih2, ih3⟩ := ih htail hmrv1 hcl1 h
      refine ⟨?_, ?_, ?_⟩
      · intro c' hc'
        rcases List.mem_cons.mp hc' with hh | hh
        · subst hh
          refine ⟨(s.domainOf (c'.other v)).filter
            (fun y => c'.checkOv s [(c'.other v, y)] = false), ?_, ?_, ?_⟩
          · rw [ih3 v (c'.other v) hhead]
            exact hA1
          · intro y hy
            exact hA2 hy
          · intro y
            rw [ih2 (c'.other v) hhead]
            exact hA3 y
        · obtain ⟨R, hR1, hR2, hR3⟩ := ih1 c' hh
          refine ⟨R, hR1, ?_, ?_⟩
          · intro y hy
            have hmem := hR2 y hy
            rwa [e12 _ (hne1 c' hh)] at hmem
          · intro y
            rw [hR3 y, e12 _ (hne1 c' hh)]
      · intro i hi
        rw [List.map_cons, List.mem_cons] at hi
        push_neg at hi
        rw [ih2 i hi.2, e12 i hi.1]
      · intro a b hb
        rw [List.map_cons, List.mem_cons] at hb
        push_neg at hb
        rw [ih3 a b hb.2, e13 a b hb.1]
    | invalid s1 =>
      rw [hs] at h
      exact Outcome.noConfusion h
    | crash =>
      rw [hs] at h
      exact Outcome.noConfusion h

theorem mrvLoopU_run {v : VarId} {L : List BinaryConstraint} {s : BinaryCsp}
    (hnd : (L.map (fun c => c.other v)).Nodup)
    (hmrv : ∀ c ∈ L, c.other v ∈ s.mrv)
    (hvn : s.valueOf v = none)
    (hp : ∀ c ∈ L, v = c.fst ∨ v = c.snd)
    (hne : ∀ c ∈ L, c.other v ≠ v)
    (hids : ∀ c ∈ L, c.other v ∈ s.ids)
    (hrec : ∀ c ∈ L, ∃ r, s.removedAt v (c.other v) = some r) :
    ∃ u, BinaryCsp.mrvLoop v s L = .ok u ∧
      (∀ c ∈ L, ∀ r, s.removedAt v (c.other v) = some r →
        u.removedAt v (c.other v) = some [] ∧
        (∀ y, y ∈ u.domainOf (c.other v) ↔ y ∈ s.domainOf (c.other v) ∨ y ∈ r)) ∧
      (∀ i, i ∉ L.map (fun c => c.other v) → u.domainOf i = s.domainOf i) ∧
      (∀ a b, b ∉ L.map (fun c => c.other v) → u.removedAt a b = s.removedAt a b) := by
  induction L generalizing s with
  | nil =>
    exact ⟨s, rfl, fun c hc => absurd hc (List.not_mem_nil c), fun i _ => rfl, fun a b _ => rfl⟩
  | cons c cs ih =>
    obtain ⟨r, hr⟩ := hrec c (List.mem_cons_self c cs)
    obtain ⟨w, hw⟩ := getVar_of_mem_ids (hids c (List.mem_cons_self c cs))
    obtain ⟨s1, hs1⟩ := mrvStepU_run (hmrv c (List.mem_cons_self c cs)) hr
    obtain ⟨_, _, _, _, _, _, _, e8, e9, _, e11, e12, e13⟩ := mrvStep_ok_elim hs1
    obtain ⟨hU1, hU2⟩ := mrvStepU_elim (hmrv c (List.mem_cons_self c cs)) hr
      (hp c (List.mem_cons_self c cs)) hvn (hne c (List.mem_cons_self c cs)) hw hs1
    rw [List.map_cons, List.nodup_cons] at hnd
    obtain ⟨hhead, htail⟩ := hnd
    have hne1 : ∀ c' ∈ cs, c'.other v ≠ c.other v := by
      intro c' hc' heq
      exact hhead (heq ▸ List.mem_map.mpr ⟨c', hc', rfl⟩)
    have hmrv1 : ∀ c' ∈ cs, c'.other v ∈ s1.mrv := fun c' hc' =>
      (e9 _).mpr (hmrv c' (List.mem_cons_of_mem c hc'))
    have hvn1 : s1.valueOf v = none := by
      rw [e11]
      exact hvn
    have hids1 : ∀ c' ∈ cs, c'.other v ∈ s1.ids := by
      intro c' hc'
      rw [e8]
      exact hids c' (List.mem_cons_of_mem c hc')
    have hrec1 : ∀ c' ∈ cs, ∃ r', s1.removedAt v (c'.other v) = some r' := by
      intro c' hc'
      rw [e13 v _ (hne1 c' hc')]
      exact hrec c' (List.mem_cons_of_mem c hc')
    obtain ⟨u, hu, ih1, ih2, ih3⟩ := ih htail hmrv1 hvn1
      (fun c' hc' => hp c' (List.mem_cons_of_mem c hc'))
      (fun c' hc' => hne c' (List.mem_cons_of_mem c hc')) hids1 hrec1
    refine ⟨u, ?_, ?_, ?_, ?_⟩
    · unfold BinaryCsp.mrvLoop
      rw [hs1]
      exact hu
    · intro c' hc' r' hr'
      rcases List.mem_cons.mp hc' with hh | hh
      · subst hh
        rw [hr] at hr'
        injection hr' with hrr
        subst hrr
        constructor
        · rw [ih3 v (c'.other v) hhead]
          exact hU1
        · intro y
          rw [ih2 (c'.other v) hhead]
          exact hU2 y
      · have hr1 : s1.removedAt v (c'.other v) = some r' := by
          rw [e13 v _ (hne1 c' hh)]
          exact hr'
        obtain ⟨hA, hB⟩ := ih1 c' hh r' hr1
        refine ⟨hA, ?_⟩
        intro y
        rw [hB y, e12 _ (hne1 c' hh)]
    · intro i hi
      rw [List.map_cons, List.mem_cons] at hi
      push_neg at hi
      rw [ih2 i hi.2, e12 i hi.1]
    · intro a b hb
      rw [List.map_cons, List.mem_cons] at hb
      push_neg at hb
      rw [ih3 a b hb.2, e13 a b hb.1]

theorem bAssign_some_loop_elim {s t : BinaryCsp} {v : VarId} {x : Val}
    (h : s.assign v (some x) = .ok t) :
    ∃ var, s.getVar v = some var ∧
      (s.useMrv = true →
        BinaryCsp.mrvLoop v
          { s.setVar { var with value := some x } with
              unassigned := removeId s.unassigned v,
              mrv := removeId s.mrv v }
          (({ s.setVar { var with value := some x } with
              unassigned := removeId s.unassigned v,
              mrv := removeId s.mrv v } : BinaryCsp).incident v) = .ok t) := by
  unfold BinaryCsp.assign at h
  cases hsa : s.superAssign v (some x) with
  | crash =>
    simp only [hsa] at h
    exact Outcome.noConfusion h
  | invalid s0 =>
    simp only [hsa] at h
    exact Outcome.noConfusion h
  | ok s1 =>
    simp only [hsa] at h
    obtain ⟨var, hvar, hmem, hchk, hs1eq⟩ := bSuperAssign_ok_elim hsa
    rw [if_neg (by simp : ¬ ((some x : Option Val) = none))] at hs1eq
    subst hs1eq
    refine ⟨var, hvar, ?_⟩
    intro hm
    rw [if_neg (fun hc => hc hm)] at h
    simp only at h
    rw [if_pos (Option.some_ne_none x)] at h
    exact h

/-- C6 (amended): on a BinaryCsp with MRV enabled, in a state where the
variable being assigned is unassigned, registered in the MRV structure and in
the unassigned set, its incident neighbors are pairwise distinct, distinct from
it, registered, in the MRV structure, and all its removed-value records are
clean (empty), a successful assign(v, x) immediately followed by assign(v, None)
succeeds and restores every variable's domain, the MRV structure, the
unassigned set, every value, and v's removed-value records, leaving all other
records untouched. The unrestricted claim is refuted by
MapColor.c6_counterexample: a reachable state carries a stale removed-value
record from an earlier assignment round, and the assign/unassign pair then
enlarges a neighbor's domain instead of restoring it. -/
theorem c6_assign_unassign_restores
    {s t : BinaryCsp} {v : VarId} {x : Val}
    (hm : s.useMrv = true)
    (hvm : v ∈ s.mrv)
    (hvu : v ∈ s.unassigned)
    (hvn0 : s.valueOf v = none)
    (hnd : ((s.incident v).map (fun c => c.other v)).Nodup)
    (hcl : ∀ c ∈ s.incident v, s.removedAt v (c.other v) = some [])
    (hmrv : ∀ c ∈ s.incident v, c.other v ∈ s.mrv)
    (hne : ∀ c ∈ s.incident v, c.other v ≠ v)
    (hids : ∀ c ∈ s.incident v, c.other v ∈ s.ids)
    (h1 : s.assign v (some x) = .ok t) :
    ∃ s2, t.assign v none = .ok s2 ∧
      (∀ i y, y ∈ s2.domainOf i ↔ y ∈ s.domainOf i) ∧
      (∀ q, q ∈ s2.mrv ↔ q ∈ s.mrv) ∧
      (∀ c ∈ s.incident v, s2.removedAt v (c.other v) = some []) ∧
      (∀ a b, b ∉ (s.incident v).map (fun c => c.other v) →
        s2.removedAt a b = s.removedAt a b) ∧
      (∀ i, s2.valueOf i = s.valueOf i) ∧
      (∀ q, q ∈ s2.unassigned ↔ q ∈ s.unassigned) := by
  obtain ⟨var, hvar, hloopA0⟩ := bAssign_some_loop_elim h1
  have hloopA := hloopA0 hm
  have hvid : var.id = v := getVar_id hvar
  set varX : Variable := { var with value := some x } with hvarXdef
  set sA : BinaryCsp := { s.setVar varX with
      unassigned := removeId s.unassigned v, mrv := removeId s.mrv v } with hsAdef
  have hdomsv : s.domainOf v = var.domain := by
    unfold BinaryCsp.domainOf
    rw [hvar]
    rfl
  have hdomA : ∀ i, sA.domainOf i = s.domainOf i := by
    intro i
    by_cases hiv : i = v
    · subst hiv
      have h2 : sA.domainOf i = (s.setVar varX).domainOf i := domainOf_congr rfl i
      rw [h2, domainOf_setVar_self hvar (show varX.id = i from hvid), hdomsv]
    · have h2 : sA.domainOf i = (s.setVar varX).domainOf i := domainOf_congr rfl i
      rw [h2, domainOf_setVar_other (show i ≠ varX.id from fun hc => hiv (hc.trans hvid))]
  have hremA : ∀ a b, sA.removedAt a b = s.removedAt a b := removedAt_congr rfl
  have hincA : sA.incident v = s.incident v := incident_congr rfl v
  have hidsA : sA.ids = s.ids := ids_setVar s varX
  have hvalA : ∀ i, i ≠ v → sA.valueOf i = s.valueOf i := by
    intro i hiv
    have h2 : sA.valueOf i = (s.setVar varX).valueOf i := valueOf_congr rfl i
    rw [h2, valueOf_setVar_other (show i ≠ varX.id from fun hc => hiv (hc.trans hvid))]
  rw [hincA] at hloopA
  have hmrvA : ∀ c ∈ s.incident v, c.other v ∈ sA.mrv := by
    intro c hc
    show c.other v ∈ removeId s.mrv v
    exact mem_removeId.mpr ⟨hmrv c hc, hne c hc⟩
  have hclA : ∀ c ∈ s.incident v, sA.removedAt v (c.other v) = some [] := by
    intro c hc
    rw [hremA]
    exact hcl c hc
  obtain ⟨LA1, LA2, LA3⟩ := mrvLoopA_elim hnd hmrvA hclA hloopA
  obtain ⟨f1, f2, f3, f4, f5, f6, f7, f8, f9, f10, f11⟩ := mrvLoop_ok_elim hloopA
  have hvt : v ∈ t.ids := by
    rw [f8, hidsA]
    exact getVar_mem_ids hvar
  obtain ⟨var1, hvar1⟩ := getVar_of_mem_ids hvt
  have hvid1 : var1.id = v := getVar_id hvar1
  have hsup := bSuperAssign_none_ok hvar1
  set varN : Variable := { var1 with value := none } with hvarNdef
  set sU : BinaryCsp := { t.setVar varN with
      unassigned := addId t.unassigned v,
      degreeIdx := if t.useDegree then t.degreeIdx - 1 else t.degreeIdx,
      mrv := addId t.mrv v } with hsUdef
  have hdomtv : t.domainOf v = var1.domain := by
    unfold BinaryCsp.domainOf
    rw [hvar1]
    rfl
  have hdomU : ∀ i, sU.domainOf i = t.domainOf i := by
    intro i
    by_cases hiv : i = v
    · subst hiv
      have h2 : sU.domainOf i = (t.setVar varN).domainOf i := domainOf_congr rfl i
      rw [h2, domainOf_setVar_self hvar1 (show varN.id = i from hvid1), hdomtv]
    · have h2 : sU.domainOf i = (t.setVar varN).domainOf i := domainOf_congr rfl i
      rw [h2, domainOf_setVar_other (show i ≠ varN.id from fun hc => hiv (hc.trans hvid1))]
  have hremU : ∀ a b, sU.removedAt a b = t.removedAt a b := removedAt_congr rfl
  have hincU : sU.incident v = s.incident v := incident_congr f1 v
  have hidsU : sU.ids = t.ids := ids_setVar t varN
  have hvalUv : sU.valueOf v = none := by
    have h2 : sU.valueOf v = (t.setVar varN).valueOf v := valueOf_congr rfl v
    rw [h2, valueOf_setVar_self hvar1 (show varN.id = v from hvid1)]
  have hvalUo : ∀ i, i ≠ v → sU.valueOf i = t.valueOf i := by
    intro i hiv
    have h2 : sU.valueOf i = (t.setVar varN).valueOf i := valueOf_congr rfl i
    rw [h2, valueOf_setVar_other (show i ≠ varN.id from fun hc => hiv (hc.trans hvid1))]
  have htmrv : ∀ q, q ∈ t.mrv ↔ (q ∈ s.mrv ∧ q ≠ v) := by
    intro q
    rw [f9 q]
    show q ∈ removeId s.mrv v ↔ _
    exact mem_removeId
  have hndU : ((sU.incident v).map (fun c => c.other v)).Nodup := by
    rw [hincU]
    exact hnd
  have hmrvU : ∀ c ∈ sU.incident v, c.other v ∈ sU.mrv := by
    intro c hc
    rw [hincU] at hc
    show c.other v ∈ addId t.mrv v
    exact mem_addId.mpr (Or.inl ((htmrv _).mpr ⟨hmrv c hc, hne c hc⟩))
  have hpU : ∀ c ∈ sU.incident v, v = c.fst ∨ v = c.snd := by
    intro c hc
    rw [hincU] at hc
    exact mem_incident_participant hc
  have hneU : ∀ c ∈ sU.incident v, c.other v ≠ v := by
    intro c hc
    rw [hincU] at hc
    exact hne c hc
  have hidsUc : ∀ c ∈ sU.incident v, c.other v ∈ sU.ids := by
    intro c hc
    rw [hincU] at hc
    rw [hidsU, f8, hidsA]
    exact hids c hc
  have hrecU : ∀ c ∈ sU.incident v, ∃ r, sU.removedAt v (c.other v) = some r := by
    intro c hc
    rw [hincU] at hc
    obtain ⟨R, hR1, hR2, hR3⟩ := LA1 c hc
    exact ⟨R, by rw [hremU]; exact hR1⟩
  obtain ⟨s2, hloop2, g1, g2, g3⟩ := mrvLoopU_run hndU hmrvU hvalUv hpU hneU hidsUc hrecU
  obtain ⟨k1, k2, k3, k4, k5, k6, k7, k8, k9, k10, k11⟩ := mrvLoop_ok_elim hloop2
  rw [hincU] at g1 g2 g3
  refine ⟨s2, ?_, ?_, ?_, ?_, ?_, ?_, ?_⟩
  · unfold BinaryCsp.assign
    simp only [hsup]
    have htm : t.useMrv = true := f3.trans hm
    rw [if_neg (fun hc => hc htm)]
    rw [if_neg (fun hc => hc rfl)]
    exact hloop2
  · intro i y
    by_cases hio : i ∈ (s.incident v).map (fun c => c.other v)
    · obtain ⟨c, hc, hoc⟩ := List.mem_map.mp hio
      subst hoc
      obtain ⟨R, hR1, hR2, hR3⟩ := LA1 c hc
      have hrec2 : sU.removedAt v (c.other v) = some R := by
        rw [hremU]
        exact hR1
      obtain ⟨gA, gB⟩ := g1 c hc R hrec2
      rw [gB y, hdomU]
      constructor
      · intro hcase
        rcases hcase with hy | hy
        · have hy2 := ((hR3 y).mp hy).1
          rwa [hdomA] at hy2
        · have hy2 := hR2 y hy
          rwa [hdomA] at hy2
      · intro hy
        by_cases hyR : y ∈ R
        · exact Or.inr hyR
        · refine Or.inl ((hR3 y).mpr ⟨?_, hyR⟩)
          rw [hdomA]
          exact hy
    · rw [g2 i hio, hdomU, LA2 i hio, hdomA]
  · intro q
    rw [k9 q]
    show q ∈ addId t.mrv v ↔ _
    rw [mem_addId, htmrv q]
    constructor
    · rintro (⟨hq, _⟩ | hq)
      · exact hq
      · rw [hq]
        exact hvm
    · intro hq
      by_cases hqv : q = v
      · exact Or.inr hqv
      · exact Or.inl ⟨hq, hqv⟩
  · intro c hc
    obtain ⟨R, hR1, hR2, hR3⟩ := LA1 c hc
    have hrec2 : sU.removedAt v (c.other v) = some R := by
      rw [hremU]
      exact hR1
    exact (g1 c hc R hrec2).1
  · intro a b hb
    rw [g3 a b hb, hremU, LA3 a b hb, hremA]
  · intro i
    by_cases hiv : i = v
    · subst hiv
      rw [k11 i, hvalUv]
      exact hvn0.symm
    · rw [k11 i, hvalUo i hiv, f11 i, hvalA i hiv]
  · intro q
    rw [k2]
    show q ∈ addId t.unassigned v ↔ _
    rw [mem_addId, f2]
    show (q ∈ removeId s.unassigned v ∨ q = v) ↔ _
    rw [mem_removeId]
    constructor
    · rintro (⟨hq, _⟩ | hq)
      · exact hq
      · rw [hq]
        exact hvu
    · intro hq
      by_cases hqv : q = v
      · exact Or.inr hqv
      · exact Or.inl ⟨hq, hqv⟩

theorem c6_assign_unassign_restores_witness :
    ∃ s2, neCsp1w.assign 0 none = .ok s2 ∧
      (∀ i y, y ∈ s2.domainOf i ↔ y ∈ neCsp0.domainOf i) ∧
      (∀ q, q ∈ s2.mrv ↔ q ∈ neCsp0.mrv) ∧
      (∀ c ∈ neCsp0.incident 0, s2.removedAt 0 (c.other 0) = some []) ∧
      (∀ a b, b ∉ (neCsp0.incident 0).map (fun c => c.other 0) →
        s2.removedAt a b = neCsp0.removedAt a b) ∧
      (∀ i, s2.valueOf i = neCsp0.valueOf i) ∧
      (∀ q, q ∈ s2.unassigned ↔ q ∈ neCsp0.unassigned) :=
  @c6_assign_unassign_restores neCsp0 neCsp1w 0 1 (by decide) (by decide) (by decide)
    (by rfl) (by decide) (by decide) (by decide) (by decide) (by decide) (by rfl)

theorem getVar_of_domainOf_ne_nil {s : BinaryCsp} {v : VarId}
    (h : s.domainOf v ≠ []) : ∃ u, s.getVar v = some u := by
  cases hg : s.getVar v with
  | none =>
    exfalso
    apply h
    unfold BinaryCsp.domainOf
    rw [hg]
    rfl
  | some u => exact ⟨u, rfl⟩

theorem mem_requeue {s : BinaryCsp} {v : VarId} {a : VarId × Nat}
    (h : a ∈ s.requeue v) :
    ∃ c, s.constraints.get? a.2 = some c ∧ (a.1 = c.fst ∨ a.1 = c.snd) := by
  unfold BinaryCsp.requeue at h
  obtain ⟨p, hp, hap⟩ := List.mem_map.mp h
  have hpe := List.mem_filter.mp hp
  have hget : s.constraints.get? p.1 = some p.2 := List.mem_enum_iff_get?.mp hpe.1
  subst hap
  refine ⟨p.2, hget, ?_⟩
  by_cases hf : p.2.fst = v
  · right
    show (if p.2.fst = v then p.2.snd else p.2.fst) = p.2.snd
    rw [if_pos hf]
  · left
    show (if p.2.fst = v then p.2.snd else p.2.fst) = p.2.fst
    rw [if_neg hf]

theorem mem_initQueue {s : BinaryCsp} {a : VarId × Nat} (h : a ∈ s.initQueue) :
    ∃ c, s.constraints.get? a.2 = some c ∧ (a.1 = c.fst ∨ a.1 = c.snd) := by
  unfold BinaryCsp.initQueue at h
  obtain ⟨p, hp, ha⟩ := List.mem_flatMap.mp h
  have hget : s.constraints.get? p.1 = some p.2 := List.mem_enum_iff_get?.mp hp
  simp only [List.mem_cons, List.not_mem_nil, or_false] at ha
  rcases ha with rfl | rfl
  · exact ⟨p.2, hget, Or.inl rfl⟩
  · exact ⟨p.2, hget, Or.inr rfl⟩

theorem ac3Fuel_pick_sound {f : VarId → Val} :
    ∀ (fuel : Nat) (s : BinaryCsp) (q : List (VarId × Nat)),
    (∀ c ∈ s.constraints, ∀ a b, c.func a b = c.func b a) →
    (∀ c ∈ s.constraints, c.func (f c.fst) (f c.snd) = true) →
    (∀ a ∈ q, ∀ c, s.constraints.get? a.2 = some c → a.1 = c.fst ∨ a.1 = c.snd) →
    (∀ c ∈ s.constraints, f c.fst ∈ s.domainOf c.fst ∧ f c.snd ∈ s.domainOf c.snd) →
    (∀ c ∈ s.constraints,
      f c.fst ∈ (BinaryCsp.ac3Fuel fuel s q).domainOf c.fst ∧
      f c.snd ∈ (BinaryCsp.ac3Fuel fuel s q).domainOf c.snd) ∧
    (∀ i, (∀ c ∈ s.constraints, i ≠ c.fst ∧ i ≠ c.snd) →
      (BinaryCsp.ac3Fuel fuel s q).domainOf i = s.domainOf i) := by
  intro fuel
  induction fuel with
  | zero =>
    intro s q hsym hsat hq hinv
    exact ⟨hinv, fun i _ => rfl⟩
  | succ fuel ih =>
    intro s q hsym hsat hq hinv
    cases q with
    | nil => exact ⟨hinv, fun i _ => rfl⟩
    | cons a rest =>
      obtain ⟨v, ci⟩ := a
      simp only [BinaryCsp.ac3Fuel]
      cases hg : s.constraints.get? ci with
      | none =>
        simp only [hg]
        exact ih s rest hsym hsat (fun a ha => hq a (List.mem_cons_of_mem _ ha)) hinv
      | some c =>
        simp only [hg]
        have hc : c ∈ s.constraints := List.get?_mem hg
        have hvpart : v = c.fst ∨ v = c.snd := hq (v, ci) (List.mem_cons_self _ _) c hg
        have hfvdom : f v ∈ s.domainOf v := by
          rcases hvpart with h1 | h1
          · rw [h1]
            exact (hinv c hc).1
          · rw [h1]
            exact (hinv c hc).2
        have hfo : f (if c.fst = v then c.snd else c.fst) ∈
            s.domainOf (if c.fst = v then c.snd else c.fst) := by
          by_cases hf : c.fst = v
          · rw [if_pos hf]
            exact (hinv c hc).2
          · rw [if_neg hf]
            exact (hinv c hc).1
        have hfunc : c.func (f v) (f (if c.fst = v then c.snd else c.fst)) = true := by
          by_cases hf : c.fst = v
          · rw [if_pos hf, ← hf]
            exact hsat c hc
          · rw [if_neg hf]
            have hv2 : v = c.snd := by
              rcases hvpart with h1 | h1
              · exact absurd h1.symm hf
              · exact h1
            rw [hv2, hsym c hc]
            exact hsat c hc
        have hkeep : f v ∈ (s.domainOf v).filter
            (fun x => (s.domainOf (if c.fst = v then c.snd else c.fst)).any
              (fun y => c.func x y)) := by
          refine List.mem_filter.mpr ⟨hfvdom, ?_⟩
          rw [List.any_eq_true]
          exact ⟨_, hfo, hfunc⟩
        obtain ⟨u, hu⟩ := getVar_of_domainOf_ne_nil
          (fun hnil => by rw [hnil] at hfvdom; exact List.not_mem_nil _ hfvdom)
        have hdomv : (s.revise c v).1.domainOf v = (s.domainOf v).filter
            (fun x => (s.domainOf (if c.fst = v then c.snd else c.fst)).any
              (fun y => c.func x y)) := domainOf_setDomain_self hu
        have hdomo : ∀ i, i ≠ v → (s.revise c v).1.domainOf i = s.domainOf i :=
          fun i hi => domainOf_setDomain_other hi
        have hstep : ∀ c' ∈ s.constraints,
            f c'.fst ∈ (s.revise c v).1.domainOf c'.fst ∧
            f c'.snd ∈ (s.revise c v).1.domainOf c'.snd := by
          intro c' hc'
          constructor
          · by_cases he : c'.fst = v
            · rw [he, hdomv]
              exact hkeep
            · rw [hdomo _ he]
              exact (hinv c' hc').1
          · by_cases he : c'.snd = v
            · rw [he, hdomv]
              exact hkeep
            · rw [hdomo _ he]
              exact (hinv c' hc').2
        have hvne : ∀ i, (∀ c' ∈ s.constraints, i ≠ c'.fst ∧ i ≠ c'.snd) → i ≠ v := by
          intro i hnp hiv
          rcases hvpart with h1 | h1
          · exact (hnp c hc).1 (hiv.trans h1)
          · exact (hnp c hc).2 (hiv.trans h1)
        have hqgen : ∀ (q' : List (VarId × Nat)),
            (∀ a ∈ q', ∀ c'', s.constraints.get? a.2 = some c'' →
              a.1 = c''.fst ∨ a.1 = c''.snd) →
            (∀ c' ∈ s.constraints,
              f c'.fst ∈ (BinaryCsp.ac3Fuel fuel (s.revise c v).1 q').domainOf c'.fst ∧
              f c'.snd ∈ (BinaryCsp.ac3Fuel fuel (s.revise c v).1 q').domainOf c'.snd) ∧
            (∀ i, (∀ c' ∈ s.constraints, i ≠ c'.fst ∧ i ≠ c'.snd) →
              (BinaryCsp.ac3Fuel fuel (s.revise c v).1 q').domainOf i = s.domainOf i) := by
          intro q' hq'
          obtain ⟨j1, j2⟩ := ih (s.revise c v).1 q' hsym hsat hq' hstep
          refine ⟨j1, ?_⟩
          intro i hnp
          rw [j2 i hnp, hdomo i (hvne i hnp)]
        cases hb : (s.revise c v).2 with
        | true =>
          rw [if_pos rfl]
          refine hqgen (rest ++ (s.revise c v).1.requeue v) ?_
          intro a ha c'' hgc
          rcases List.mem_append.mp ha with h1 | h1
          · exact hq a (List.mem_cons_of_mem _ h1) c'' hgc
          · obtain ⟨d, hd1, hd2⟩ := mem_requeue h1
            have hd1b : s.constraints.get? a.2 = some d := hd1
            rw [hgc] at hd1b
            injection hd1b with hd
            rw [hd]
            exact hd2
        | false =>
          rw [if_neg (fun hcc => Bool.noConfusion hcc)]
          exact hqgen rest (fun a ha => hq a (List.mem_cons_of_mem _ ha))

/-- C5 (amended): apply_ac3 never prunes a value that participates in a
globally consistent full assignment, provided every constraint predicate is
symmetric. For an asymmetric predicate the claim is false
(MapColor.c5_counterexample): revise applies the predicate as
func(candidate, other-value) regardless of which participant is being revised,
so a consistent value of the second participant can be discarded. -/
theorem c5_ac3_no_false_pruning {s : BinaryCsp} {f : VarId → Val}
    (hsym : ∀ c ∈ s.constraints, ∀ a b, c.func a b = c.func b a)
    (hsat : ∀ c ∈ s.constraints, c.func (f c.fst) (f c.snd) = true)
    (hdomp : ∀ c ∈ s.constraints, f c.fst ∈ s.domainOf c.fst ∧ f c.snd ∈ s.domainOf c.snd) :
    ∀ i, f i ∈ s.domainOf i → f i ∈ s.applyAc3.domainOf i := by
  intro i hi
  unfold BinaryCsp.applyAc3
  have hq0 : ∀ a ∈ s.initQueue, ∀ c, s.constraints.get? a.2 = some c →
      a.1 = c.fst ∨ a.1 = c.snd := by
    intro a ha c hgc
    obtain ⟨d, hd1, hd2⟩ := mem_initQueue ha
    rw [hgc] at hd1
    injection hd1 with hd
    rw [hd]
    exact hd2
  obtain ⟨hmem, hframe⟩ := ac3Fuel_pick_sound _ s s.initQueue hsym hsat hq0 hdomp
  by_cases hpart : ∃ c ∈ s.constraints, i = c.fst ∨ i = c.snd
  · obtain ⟨c, hc, hic⟩ := hpart
    rcases hic with h1 | h1
    · rw [h1]
      exact (hmem c hc).1
    · rw [h1]
      exact (hmem c hc).2
  · push_neg at hpart
    rw [hframe i hpart]
    exact hi

theorem c5_ac3_no_false_pruning_witness :
    (1 : Val) ∈ neCsp0.applyAc3.domainOf 0 :=
  @c5_ac3_no_false_pruning neCsp0 (fun i => if i = 0 then (1 : Val) else 2)
    (by
      intro c hc a b
      have hcon : neCsp0.constraints =
          [{ fst := 0, snd := 1, func := fun a b => a ≠ b }] := rfl
      rw [hcon, List.mem_singleton] at hc
      rw [hc]
      simp [ne_comm])
    (by
      intro c hc
      have hcon : neCsp0.constraints =
          [{ fst := 0, snd := 1, func := fun a b => a ≠ b }] := rfl
      rw [hcon, List.mem_singleton] at hc
      rw [hc]
      decide)
    (by
      intro c hc
      have hcon : neCsp0.constraints =
          [{ fst := 0, snd := 1, func := fun a b => a ≠ b }] := rfl
      rw [hcon, List.mem_singleton] at hc
      rw [hc]
      exact ⟨by decide, by decide⟩)
    0 (by decide)

theorem totalDomain_replaceDomain {l : List Variable} {v : VarId} {u : Variable} {d : List Val}
    (h : l.find? (fun t => t.id = v) = some u) :
    ((replaceDomain l v d).map (fun w => w.domain.length)).sum + u.domain.length =
      (l.map (fun w => w.domain.length)).sum + d.length := by
  induction l with
  | nil => exact absurd h (by simp)
  | cons a as ih =>
    by_cases ha : a.id = v
    · rw [List.find?_cons_of_pos _ (by simp [ha])] at h
      injection h with h
      subst h
      unfold replaceDomain
      rw [if_pos ha]
      simp only [List.map_cons, List.sum_cons]
      omega
    · rw [List.find?_cons_of_neg _ (by simp [ha])] at h
      unfold replaceDomain
      rw [if_neg ha]
      simp only [List.map_cons, List.sum_cons]
      have h2 := ih h
      omega

theorem totalDomain_setDomain {s : BinaryCsp} {v : VarId} {u : Variable} {d : List Val}
    (hu : s.getVar v = some u) :
    (s.setDomain v d).totalDomain + u.domain.length = s.totalDomain + d.length := by
  unfold BinaryCsp.totalDomain
  exact totalDomain_replaceDomain hu

theorem requeue_mem {s : BinaryCsp} {v : VarId} {ci : Nat} {c : BinaryConstraint}
    (hg : s.constraints.get? ci = some c) (hp : v = c.fst ∨ v = c.snd) :
    ((if c.fst = v then c.snd else c.fst), ci) ∈ s.requeue v := by
  unfold BinaryCsp.requeue
  refine List.mem_map.mpr ⟨(ci, c), ?_, rfl⟩
  refine List.mem_filter.mpr ⟨List.mem_enum_iff_get?.mpr hg, ?_⟩
  simpa using hp

theorem requeue_mem' {s : BinaryCsp} {v : VarId} {ci : Nat} {c : BinaryConstraint} {w : VarId}
    (hg : s.constraints.get? ci = some c) (hp : v = c.fst ∨ v = c.snd)
    (hw : w = (if c.fst = v then c.snd else c.fst)) : (w, ci) ∈ s.requeue v := by
  subst hw
  exact requeue_mem hg hp

theorem length_requeue_le (s : BinaryCsp) (v : VarId) :
    (s.requeue v).length ≤ s.constraints.length := by
  unfold BinaryCsp.requeue
  rw [List.length_map]
  calc (List.filter (fun p => v = p.2.fst ∨ v = p.2.snd) s.constraints.enum).length
      ≤ s.constraints.enum.length := List.length_filter_le _ _
    _ = s.constraints.length := List.enum_length

theorem initQueue_mem {s : BinaryCsp} {ci : Nat} {c : BinaryConstraint}
    (hg : s.constraints.get? ci = some c) :
    (c.fst, ci) ∈ s.initQueue ∧ (c.snd, ci) ∈ s.initQueue := by
  unfold BinaryCsp.initQueue
  constructor
  · exact List.mem_flatMap.mpr ⟨(ci, c), List.mem_enum_iff_get?.mpr hg, by simp⟩
  · exact List.mem_flatMap.mpr ⟨(ci, c), List.mem_enum_iff_get?.mpr hg, by simp⟩

theorem reviseClean_of_subset {s1 s : BinaryCsp} {d : BinaryConstraint} {w : VarId}
    (hsub : ∀ x ∈ s1.domainOf w, x ∈ s.domainOf w)
    (ho : s1.domainOf (if d.fst = w then d.snd else d.fst) =
      s.domainOf (if d.fst = w then d.snd else d.fst))
    (h : reviseClean s d w) : reviseClean s1 d w := by
  unfold reviseClean at h ⊢
  rw [ho]
  rw [List.filter_eq_self] at h ⊢
  intro x hx
  exact h x (hsub x hx)

theorem revise_fst_eq (s : BinaryCsp) (c : BinaryConstraint) (v : VarId) :
    (s.revise c v).1 = s.setDomain v ((s.domainOf v).filter
      (fun x => (s.domainOf (if c.fst = v then c.snd else c.fst)).any
        (fun y => c.func x y))) := rfl

theorem revise_snd_eq (s : BinaryCsp) (c : BinaryConstraint) (v : VarId) :
    (s.revise c v).2 = decide (((s.domainOf v).filter
      (fun x => (s.domainOf (if c.fst = v then c.snd else c.fst)).any
        (fun y => c.func x y))).length ≠ (s.domainOf v).length) := rfl

theorem revise_false_state {s : BinaryCsp} {c : BinaryConstraint} {v : VarId}
    (hb : (s.revise c v).2 = false) : (s.revise c v).1 = s := by
  have hnn := of_decide_eq_false (by rw [← revise_snd_eq]; exact hb)
  have hlen := not_not.mp hnn
  have hkept := (List.filter_sublist _).eq_of_length hlen
  rw [revise_fst_eq, hkept]
  exact setDomain_domainOf s v

theorem ac3Fuel_all_clean : ∀ (fuel : Nat) (s : BinaryCsp) (q : List (VarId × Nat)),
    q.length + s.totalDomain * (s.constraints.length + 1) < fuel →
    (∀ a ∈ q, ∀ d, s.constraints.get? a.2 = some d → a.1 = d.fst ∨ a.1 = d.snd) →
    (∀ w cj d, s.constraints.get? cj = some d → (w = d.fst ∨ w = d.snd) →
      (w, cj) ∉ q → reviseClean s d w) →
    ∀ w cj d, s.constraints.get? cj = some d → (w = d.fst ∨ w = d.snd) →
      reviseClean (BinaryCsp.ac3Fuel fuel s q) d w := by
  intro fuel
  induction fuel with
  | zero =>
    intro s q hF hq hclean
    exact absurd hF (by omega)
  | succ fuel ih =>
    intro s q hF hq hclean
    cases q with
    | nil =>
      intro w cj d hg hp
      exact hclean w cj d hg hp (List.not_mem_nil _)
    | cons a rest =>
      obtain ⟨v, ci⟩ := a
      cases hg0 : s.constraints.get? ci with
      | none =>
        intro w cj d hg hp
        have hres : BinaryCsp.ac3Fuel (fuel + 1) s ((v, ci) :: rest) =
            BinaryCsp.ac3Fuel fuel s rest := by
          simp only [BinaryCsp.ac3Fuel, hg0]
        rw [hres]
        refine ih s rest (by simp only [List.length_cons] at hF; omega)
          (fun a ha => hq a (List.mem_cons_of_mem _ ha)) ?_ w cj d hg hp
        intro w2 cj2 d2 hg2 hp2 hnot
        refine hclean w2 cj2 d2 hg2 hp2 ?_
        intro hmem
        rcases List.mem_cons.mp hmem with h1 | h1
        · have hcj2 : cj2 = ci := congrArg Prod.snd h1
          rw [hcj2, hg0] at hg2
          exact Option.noConfusion hg2
        · exact hnot h1
      | some c =>
        have hvpart : v = c.fst ∨ v = c.snd := hq (v, ci) (List.mem_cons_self _ _) c hg0
        cases hb : (s.revise c v).2 with
        | false =>
          have hs1 : (s.revise c v).1 = s := revise_false_state hb
          intro w cj d hg hp
          have hres : BinaryCsp.ac3Fuel (fuel + 1) s ((v, ci) :: rest) =
              BinaryCsp.ac3Fuel fuel s rest := by
            simp only [BinaryCsp.ac3Fuel, hg0]
            rw [hb, if_neg (fun hcc => Bool.noConfusion hcc), hs1]
          rw [hres]
          refine ih s rest (by simp only [List.length_cons] at hF; omega)
            (fun a ha => hq a (List.mem_cons_of_mem _ ha)) ?_ w cj d hg hp
          intro w2 cj2 d2 hg2 hp2 hnot
          by_cases harc : (w2, cj2) = (v, ci)
          · have hw2 : w2 = v := congrArg Prod.fst harc
            have hcj2 : cj2 = ci := congrArg Prod.snd harc
            rw [hcj2, hg0] at hg2
            injection hg2 with hd2
            subst hd2
            subst hw2
            have hnn := of_decide_eq_false (by rw [← revise_snd_eq]; exact hb)
            have hlen := not_not.mp hnn
            have hkept := (List.filter_sublist _).eq_of_length hlen
            unfold reviseClean
            exact hkept
          · refine hclean w2 cj2 d2 hg2 hp2 ?_
            intro hmem
            rcases List.mem_cons.mp hmem with h1 | h1
            · exact harc h1
            · exact hnot h1
        | true =>
          have hlenne := of_decide_eq_true (by rw [← revise_snd_eq]; exact hb)
          have hdomne : s.domainOf v ≠ [] := by
            intro hnil
            rw [hnil] at hlenne
            simp at hlenne
          obtain ⟨u, hu⟩ := getVar_of_domainOf_ne_nil hdomne
          have hdomu : s.domainOf v = u.domain := by
            unfold BinaryCsp.domainOf
            rw [hu]
            rfl
          have hdom1v : (s.revise c v).1.domainOf v = (s.domainOf v).filter
              (fun x => (s.domainOf (if c.fst = v then c.snd else c.fst)).any
                (fun y => c.func x y)) := domainOf_setDomain_self hu
          have hdom1o : ∀ i, i ≠ v → (s.revise c v).1.domainOf i = s.domainOf i :=
            fun i hi => domainOf_setDomain_other hi
          have hkeptlen : (((s.domainOf v).filter
              (fun x => (s.domainOf (if c.fst = v then c.snd else c.fst)).any
                (fun y => c.func x y))).length) < (s.domainOf v).length :=
            Nat.lt_of_le_of_ne (List.length_filter_le _ _) hlenne
          have htd : (s.revise c v).1.totalDomain < s.totalDomain := by
            rw [revise_fst_eq]
            have h2 := @totalDomain_setDomain s v u
              ((s.domainOf v).filter
                (fun x => (s.domainOf (if c.fst = v then c.snd else c.fst)).any
                  (fun y => c.func x y))) hu
            have hkl : (((s.domainOf v).filter
                (fun x => (s.domainOf (if c.fst = v then c.snd else c.fst)).any
                  (fun y => c.func x y))).length) < u.domain.length := by
              rw [← hdomu]
              exact hkeptlen
            omega
          have hclean1 : ∀ w2 cj2 d2, s.constraints.get? cj2 = some d2 →
              (w2 = d2.fst ∨ w2 = d2.snd) →
              (w2, cj2) ∉ rest ++ (s.revise c v).1.requeue v →
              reviseClean (s.revise c v).1 d2 w2 := by
            intro w2 cj2 d2 hg2 hp2 hnot
            have hnotrest : (w2, cj2) ∉ rest :=
              fun hmem => hnot (List.mem_append.mpr (Or.inl hmem))
            have hnotreq : (w2, cj2) ∉ s.requeue v :=
              fun hmem => hnot (List.mem_append.mpr (Or.inr hmem))
            by_cases ho : (if d2.fst = w2 then d2.snd else d2.fst) = v
            · exfalso
              apply hnotreq
              by_cases hf : d2.fst = w2
              · have hsnd : d2.snd = v := by
                  rw [if_pos hf] at ho
                  exact ho
                by_cases hfv : d2.fst = v
                · exact requeue_mem' hg2 (Or.inr hsnd.symm)
                    (by rw [if_pos hfv, hsnd]; exact hf.symm.trans hfv)
                · exact requeue_mem' hg2 (Or.inr hsnd.symm)
                    (by rw [if_neg hfv]; exact hf.symm)
              · have hfst : d2.fst = v := by
                  rw [if_neg hf] at ho
                  exact ho
                have hw2 : w2 = d2.snd := by
                  rcases hp2 with h1 | h1
                  · exact absurd h1.symm hf
                  · exact h1
                exact requeue_mem' hg2 (Or.inl hfst.symm) (by rw [if_pos hfst]; exact hw2)
            · by_cases hwv : w2 = v
              · subst hwv
                by_cases hcj : cj2 = ci
                · rw [hcj, hg0] at hg2
                  injection hg2 with hd2
                  subst hd2
                  unfold reviseClean
                  rw [hdom1v, hdom1o _ ho]
                  rw [List.filter_eq_self]
                  intro x hx
                  exact (List.mem_filter.mp hx).2
                · have hcl := hclean w2 cj2 d2 hg2 hp2 (fun hmem => by
                    rcases List.mem_cons.mp hmem with h1 | h1
                    · exact hcj (congrArg Prod.snd h1)
                    · exact hnotrest h1)
                  refine reviseClean_of_subset ?_ (hdom1o _ ho) hcl
                  intro x hx
                  rw [hdom1v] at hx
                  exact List.mem_of_mem_filter hx
              · have hcl := hclean w2 cj2 d2 hg2 hp2 (fun hmem => by
                  rcases List.mem_cons.mp hmem with h1 | h1
                  · exact hwv (congrArg Prod.fst h1)
                  · exact hnotrest h1)
                refine reviseClean_of_subset ?_ (hdom1o _ ho) hcl
                intro x hx
                rw [hdom1o _ hwv] at hx
                exact hx
          have hq1 : ∀ a ∈ rest ++ (s.revise c v).1.requeue v, ∀ d2,
              s.constraints.get? a.2 = some d2 → a.1 = d2.fst ∨ a.1 = d2.snd := by
            intro a ha d2 hga
            rcases List.mem_append.mp ha with h1 | h1
            · exact hq a (List.mem_cons_of_mem _ h1) d2 hga
            · obtain ⟨e, he1, he2⟩ := mem_requeue h1
              have he1b : s.constraints.get? a.2 = some e := he1
              rw [hga] at he1b
              injection he1b with he
              rw [he]
              exact he2
          have hF1 : (rest ++ (s.revise c v).1.requeue v).length +
              (s.revise c v).1.totalDomain * (s.constraints.length + 1) < fuel := by
            rw [List.length_append]
            have hreq : ((s.revise c v).1.requeue v).length ≤ s.constraints.length :=
              length_requeue_le (s.revise c v).1 v
            simp only [List.length_cons] at hF
            have hmul : (s.revise c v).1.totalDomain * (s.constraints.length + 1) +
                (s.constraints.length + 1) ≤ s.totalDomain * (s.constraints.length + 1) := by
              have hsucc : (s.revise c v).1.totalDomain + 1 ≤ s.totalDomain := htd
              calc (s.revise c v).1.totalDomain * (s.constraints.length + 1) +
                  (s.constraints.length + 1)
                  = ((s.revise c v).1.totalDomain + 1) * (s.constraints.length + 1) := by ring
                _ ≤ s.totalDomain * (s.constraints.length + 1) :=
                  Nat.mul_le_mul_right _ hsucc
            omega
          intro w cj d hg hp
          have hres : BinaryCsp.ac3Fuel (fuel + 1) s ((v, ci) :: rest) =
              BinaryCsp.ac3Fuel fuel (s.revise c v).1
                (rest ++ (s.revise c v).1.requeue v) := by
            simp only [BinaryCsp.ac3Fuel, hg0]
            rw [hb, if_pos rfl]
          rw [hres]
          exact ih (s.revise c v).1 (rest ++ (s.revise c v).1.requeue v) hF1 hq1 hclean1
            w cj d hg hp

theorem ac3Fuel_noop : ∀ (fuel : Nat) (s : BinaryCsp) (q : List (VarId × Nat)),
    (∀ a ∈ q, ∀ d, s.constraints.get? a.2 = some d → reviseClean s d a.1) →
    BinaryCsp.ac3Fuel fuel s q = s := by
  intro fuel
  induction fuel with
  | zero =>
    intro s q h
    rfl
  | succ fuel ih =>
    intro s q hcl
    cases q with
    | nil => rfl
    | cons a rest =>
      obtain ⟨v, ci⟩ := a
      cases hg : s.constraints.get? ci with
      | none =>
        simp only [BinaryCsp.ac3Fuel, hg]
        exact ih s rest (fun a ha => hcl a (List.mem_cons_of_mem _ ha))
      | some c =>
        have hc := hcl (v, ci) (List.mem_cons_self _ _) c hg
        have hflag : (s.revise c v).2 = false := by
          rw [revise_snd_eq]
          apply decide_eq_false
          unfold reviseClean at hc
          rw [hc]
          exact fun hne => hne rfl
        have hs1 : (s.revise c v).1 = s := revise_false_state hflag
        simp only [BinaryCsp.ac3Fuel, hg]
        rw [hflag, if_neg (fun hcc => Bool.noConfusion hcc), hs1]
        exact ih s rest (fun a ha => hcl a (List.mem_cons_of_mem _ ha))

/-- C9: apply_ac3 is idempotent — a second run leaves every domain (indeed the
whole state) exactly as the first run left it: after the first run every arc
of the worklist is clean, so every revision of the second run discards
nothing. -/
theorem c9_ac3_idempotent (s : BinaryCsp) :
    ∀ i, s.applyAc3.applyAc3.domainOf i = s.applyAc3.domainOf i := by
  have hcon : s.applyAc3.constraints = s.constraints := (ac3Fuel_skel _ _ _).1
  have hall : ∀ w cj d, s.constraints.get? cj = some d → (w = d.fst ∨ w = d.snd) →
      reviseClean s.applyAc3 d w := by
    intro w cj d hg hp
    unfold BinaryCsp.applyAc3
    refine ac3Fuel_all_clean _ s s.initQueue ?_ ?_ ?_ w cj d hg hp
    · rw [Nat.succ_mul]
      omega
    · intro a ha d2 hga
      obtain ⟨e, he1, he2⟩ := mem_initQueue ha
      rw [hga] at he1
      injection he1 with he
      rw [he]
      exact he2
    · intro w2 cj2 d2 hg2 hp2 hnot
      exfalso
      obtain ⟨hfm, hsm⟩ := initQueue_mem hg2
      rcases hp2 with h1 | h1
      · exact hnot (h1 ▸ hfm)
      · exact hnot (h1 ▸ hsm)
  have hnoop : s.applyAc3.applyAc3 = s.applyAc3 := by
    show BinaryCsp.ac3Fuel (s.applyAc3.initQueue.length +
        (s.applyAc3.totalDomain + 1) * (s.applyAc3.constraints.length + 1) + 1)
      s.applyAc3 s.applyAc3.initQueue = s.applyAc3
    refine ac3Fuel_noop _ _ _ ?_
    intro a ha d hga
    obtain ⟨e, he1, he2⟩ := mem_initQueue ha
    have hga2 : s.constraints.get? a.2 = some d := by
      rw [← hcon]
      exact hga
    refine hall a.1 a.2 d hga2 ?_
    rw [hga] at he1
    injection he1 with he
    rw [he]
    exact he2
  intro i
  rw [hnoop]

theorem check_congr_two {s s' : BinaryCsp} {c : BinaryConstraint}
    (h1 : s'.valueOf c.fst = s.valueOf c.fst) (h2 : s'.valueOf c.snd = s.valueOf c.snd) :
    c.check s' = c.check s := by
  unfold BinaryConstraint.check BinaryConstraint.checkOv
  simp only [h1, h2]

theorem find_id_self_of_nodup : ∀ {l : List Variable},
    (l.map (fun w => w.id)).Nodup →
    ∀ {u : Variable}, u ∈ l → l.find? (fun t => t.id = u.id) = some u := by
  intro l
  induction l with
  | nil =>
    intro _ u hu
    exact absurd hu (List.not_mem_nil _)
  | cons a as ih =>
    intro hnd u hu
    rw [List.map_cons, List.nodup_cons] at hnd
    by_cases ha : a.id = u.id
    · rw [List.find?_cons_of_pos _ (by simp [ha])]
      rcases List.mem_cons.mp hu with h1 | h1
      · rw [h1]
      · exact absurd (by rw [ha]; exact List.mem_map.mpr ⟨u, h1, rfl⟩) hnd.1
    · rw [List.find?_cons_of_neg _ (by simp [ha])]
      rcases List.mem_cons.mp hu with h1 | h1
      · exact absurd (by rw [h1]) ha
      · exact ih hnd.2 h1

theorem getVar_self_of_nodup {s : BinaryCsp} (hnd : s.ids.Nodup) {u : Variable}
    (hu : u ∈ s.vars) : s.getVar u.id = some u :=
  find_id_self_of_nodup hnd hu

theorem avd_var_of_id {s : BinaryCsp} (hnd : s.ids.Nodup)
    (h : ∀ i a, s.valueOf i = some a → a ∈ s.domainOf i) :
    ∀ u ∈ s.vars, ∀ a, u.value = some a → a ∈ u.domain := by
  intro u hu a hv
  have hg := getVar_self_of_nodup hnd hu
  have hval : s.valueOf u.id = some a := by
    unfold BinaryCsp.valueOf
    rw [hg]
    exact hv
  have hd := h u.id a hval
  unfold BinaryCsp.domainOf at hd
  rw [hg] at hd
  exact hd

theorem avd_id_of_var {s : BinaryCsp}
    (h : ∀ u ∈ s.vars, ∀ a, u.value = some a → a ∈ u.domain) :
    ∀ i a, s.valueOf i = some a → a ∈ s.domainOf i := by
  intro i a hv
  unfold BinaryCsp.valueOf at hv
  cases hg : s.getVar i with
  | none =>
    rw [hg] at hv
    exact Option.noConfusion hv
  | some u =>
    rw [hg] at hv
    have hu : u ∈ s.vars := getVar_mem hg
    have hmem := h u hu a hv
    unfold BinaryCsp.domainOf
    rw [hg]
    exact hmem

theorem mrvStep_skip {v : VarId} {s : BinaryCsp} {c : BinaryConstraint}
    (ho : c.other v ∉ s.mrv) : BinaryCsp.mrvStep v s c = .ok s := by
  unfold BinaryCsp.mrvStep
  simp only
  rw [if_neg ho]

theorem mrvLoop_dom_not_mrv {v i : VarId} : ∀ (cs : List BinaryConstraint) {s s' : BinaryCsp},
    BinaryCsp.mrvLoop v s cs = .ok s' → i ∉ s.mrv → s'.domainOf i = s.domainOf i := by
  intro cs
  induction cs with
  | nil =>
    intro s s' h hi
    simp only [BinaryCsp.mrvLoop, Outcome.ok.injEq] at h
    rw [← h]
  | cons c cs ih =>
    intro s s' h hi
    unfold BinaryCsp.mrvLoop at h
    cases hs : BinaryCsp.mrvStep v s c with
    | ok s1 =>
      rw [hs] at h
      obtain ⟨_, _, _, _, _, _, _, _, e9, _, _, e12, _⟩ := mrvStep_ok_elim hs
      by_cases hio : i = c.other v
      · subst hio
        rw [mrvStep_skip hi] at hs
        injection hs with hs1
        subst hs1
        exact ih h hi
      · rw [ih h (fun hm => hi ((e9 i).mp hm)), e12 i hio]
    | invalid s1 =>
      rw [hs] at h
      exact Outcome.noConfusion h
    | crash =>
      rw [hs] at h
      exact Outcome.noConfusion h

theorem valueOf_some_mem_ids {s : BinaryCsp} {i : VarId} {a : Val}
    (h : s.valueOf i = some a) : i ∈ s.ids := by
  unfold BinaryCsp.valueOf at h
  cases hg : s.getVar i with
  | none =>
    rw [hg] at h
    exact Option.noConfusion h
  | some u => exact getVar_mem_ids hg

theorem bAssign_ok_some_mem {s t : BinaryCsp} {v : VarId} {a : Val}
    (h : s.assign v (some a) = .ok t) : a ∈ s.domainOf v := by
  unfold BinaryCsp.assign at h
  cases hsa : s.superAssign v (some a) with
  | crash =>
    simp only [hsa] at h
    exact Outcome.noConfusion h
  | invalid s0 =>
    simp only [hsa] at h
    exact Outcome.noConfusion h
  | ok s1 =>
    obtain ⟨var, hvar, hmem, _, _⟩ := bSuperAssign_ok_elim hsa
    have hv := hmem a rfl
    unfold BinaryCsp.domainOf
    rw [hvar]
    exact hv

theorem bAssign_ok_dom_frame {s t : BinaryCsp} {v : VarId} {x : Option Val} {i : VarId}
    (h : s.assign v x = .ok t)
    (hc : s.useMrv = true → ((i ∉ s.mrv ∧ i ≠ v) ∨ (i = v ∧ x ≠ none))) :
    t.domainOf i = s.domainOf i := by
  unfold BinaryCsp.assign at h
  cases hsa : s.superAssign v x with
  | crash =>
    simp only [hsa] at h
    exact Outcome.noConfusion h
  | invalid s0 =>
    simp only [hsa] at h
    exact Outcome.noConfusion h
  | ok s1 =>
    simp only [hsa] at h
    obtain ⟨var, hvar, hmem, hchk, hs1eq⟩ := bSuperAssign_ok_elim hsa
    have hvid : var.id = v := getVar_id hvar
    have hdomsv : s.domainOf v = var.domain := by
      unfold BinaryCsp.domainOf
      rw [hvar]
      rfl
    have hvars1 : s1.vars = (s.setVar { var with value := x }).vars := by
      rw [hs1eq]
      split <;> rfl
    have hs1mrv : s1.mrv = s.mrv := by
      rw [hs1eq]
      split <;> rfl
    have hs1use : s1.useMrv = s.useMrv := by
      rw [hs1eq]
      split <;> rfl
    have hdom1 : ∀ j, s1.domainOf j = s.domainOf j := by
      intro j
      have h2 : s1.domainOf j = (s.setVar { var with value := x }).domainOf j :=
        domainOf_congr hvars1 j
      by_cases hj : j = v
      · subst hj
        rw [h2, domainOf_setVar_self hvar
          (show ({ var with value := x } : Variable).id = j from hvid), hdomsv]
      · rw [h2, domainOf_setVar_other
          (show j ≠ ({ var with value := x } : Variable).id from
            fun hcc => hj (hcc.trans hvid))]
    cases hm : s.useMrv with
    | false =>
      have hcond : ¬ (s1.useMrv = true) := by
        rw [hs1use, hm]
        exact fun hcc => Bool.noConfusion hcc
      rw [if_pos hcond] at h
      simp only [Outcome.ok.injEq] at h
      rw [← h]
      exact hdom1 i
    | true =>
      have hcond : ¬ ¬ (s1.useMrv = true) := fun hcc => hcc (by rw [hs1use]; exact hm)
      rw [if_neg hcond] at h
      cases hxn : x with
      | none =>
        rw [hxn] at h
        rw [if_neg (fun hcc => hcc rfl)] at h
        rcases hc hm with ⟨hnm, hne⟩ | ⟨_, hxx⟩
        · have hnmrv : i ∉ addId s1.mrv v := by
            rw [hs1mrv]
            intro hmem2
            rcases mem_addId.mp hmem2 with h1 | h1
            · exact hnm h1
            · exact hne h1
          rw [mrvLoop_dom_not_mrv _ h hnmrv]
          exact hdom1 i
        · rw [hxn] at hxx
          exact absurd rfl hxx
      | some a =>
        rw [hxn] at h
        rw [if_pos (Option.some_ne_none a)] at h
        have hnmrv : i ∉ removeId s1.mrv v := by
          rw [hs1mrv]
          intro hmem2
          have hmem3 := mem_removeId.mp hmem2
          rcases hc hm with ⟨hnm, _⟩ | ⟨hiv, _⟩
          · exact hnm hmem3.1
          · exact hmem3.2 hiv
        rw [mrvLoop_dom_not_mrv _ h hnmrv]
        exact hdom1 i

theorem avd_assign_ok {s t : BinaryCsp} {v : VarId} {x : Option Val}
    (hinv : BInv s) (h : s.assign v x = .ok t)
    (havd : ∀ i a, s.valueOf i = some a → a ∈ s.domainOf i) :
    ∀ i a, t.valueOf i = some a → a ∈ t.domainOf i := by
  obtain ⟨f1, f2, f3, f4, f5, f6, f7, f8, f9, f10, hvids, f12, f13⟩ := bAssign_ok_elim h
  intro i a hval
  by_cases hiv : i = v
  · subst hiv
    rw [f12] at hval
    subst hval
    have hframe : t.domainOf i = s.domainOf i :=
      bAssign_ok_dom_frame h (fun _ => Or.inr ⟨rfl, by simp⟩)
    rw [hframe]
    exact bAssign_ok_some_mem h
  · rw [f13 i hiv] at hval
    have hia := havd i a hval
    have hids : i ∈ s.ids := valueOf_some_mem_ids hval
    have hnun : i ∉ s.unassigned := by
      intro hun
      have hz := (hinv.2.2.1 i hids).mpr hun
      rw [hval] at hz
      exact Option.noConfusion hz
    have hframe : t.domainOf i = s.domainOf i := by
      refine bAssign_ok_dom_frame h (fun hm => Or.inl ⟨?_, hiv⟩)
      intro hmrv
      exact hnun ((hinv.2.2.2.1 hm i).mp hmrv)
    rw [hframe]
    exact hia

theorem sat_assign_ok {s t : BinaryCsp} {v : VarId} {x : Option Val}
    (h : s.assign v x = .ok t)
    (hsat : ∀ c ∈ s.constraints, c.check s = true) :
    ∀ c ∈ t.constraints, c.check t = true := by
  obtain ⟨f1, f2, f3, f4, f5, f6, f7, f8, f9, f10, hvids, f12, f13⟩ := bAssign_ok_elim h
  unfold BinaryCsp.assign at h
  cases hsa : s.superAssign v x with
  | crash =>
    simp only [hsa] at h
    exact Outcome.noConfusion h
  | invalid s0 =>
    simp only [hsa] at h
    exact Outcome.noConfusion h
  | ok s1 =>
    obtain ⟨var, hvar, hmem, hchk, hs1eq⟩ := bSuperAssign_ok_elim hsa
    have hvid : var.id = v := getVar_id hvar
    have hvalX : ∀ i, t.valueOf i = (s.setVar { var with value := x }).valueOf i := by
      intro i
      by_cases hiv : i = v
      · subst hiv
        rw [f12, valueOf_setVar_self hvar
          (show ({ var with value := x } : Variable).id = i from hvid)]
      · rw [f13 i hiv, valueOf_setVar_other
          (show i ≠ ({ var with value := x } : Variable).id from
            fun hcc => hiv (hcc.trans hvid))]
    intro c hc
    rw [f1] at hc
    by_cases hpart : v = c.fst ∨ v = c.snd
    · have hcin : c ∈ (s.setVar { var with value := x }).incident v := by
        unfold BinaryCsp.incident
        refine List.mem_filter.mpr ⟨?_, by simpa using hpart⟩
        exact hc
      have hck := List.all_eq_true.mp hchk c hcin
      rw [check_congr_two (hvalX c.fst) (hvalX c.snd)]
      exact hck
    · push_neg at hpart
      rw [check_congr_two (f13 c.fst (fun hc2 => hpart.1 hc2.symm))
        (f13 c.snd (fun hc2 => hpart.2 hc2.symm))]
      exact hsat c hc

theorem sat_getU {s s' : BinaryCsp} {r : Option VarId}
    (h : s.getUnassigned = .ok (r, s'))
    (hsat : ∀ c ∈ s.constraints, c.check s = true) :
    ∀ c ∈ s'.constraints, c.check s' = true := by
  obtain ⟨k1, k2, k3, k4, k5, k6, k7, k8, k9⟩ := bGetU_ok_elim h
  intro c hc
  rw [k5] at hc
  rw [check_congr_two (valueOf_congr k1 c.fst) (valueOf_congr k1 c.snd)]
  exact hsat c hc

theorem avd_getU {s s' : BinaryCsp} {r : Option VarId}
    (h : s.getUnassigned = .ok (r, s'))
    (havd : ∀ u ∈ s.vars, ∀ a, u.value = some a → a ∈ u.domain) :
    ∀ u ∈ s'.vars, ∀ a, u.value = some a → a ∈ u.domain := by
  obtain ⟨k1, _, _, _, _, _, _, _, _⟩ := bGetU_ok_elim h
  intro u hu
  rw [k1] at hu
  exact havd u hu

theorem btLoop_inv : ∀ (fuel : Nat) (sol : BSolver) (v : VarId) (depth : Nat)
    (vals : List Val) (b : Bool) (sol2 : BSolver),
    btLoop fuel sol v depth vals = .ok (b, sol2) →
    BInv sol.csp →
    (∀ c ∈ sol.csp.constraints, c.check sol.csp = true) →
    (∀ u ∈ sol.csp.vars, ∀ a, u.value = some a → a ∈ u.domain) →
    BInv sol2.csp ∧ (∀ c ∈ sol2.csp.constraints, c.check sol2.csp = true) ∧
    (∀ u ∈ sol2.csp.vars, ∀ a, u.value = some a → a ∈ u.domain) := by
  intro fuel
  induction fuel with
  | zero =>
    intro sol v depth vals b sol2 h
    exact Outcome.noConfusion h
  | succ fuel ih =>
    intro sol v depth vals b sol2 h hinv hsat havd
    cases vals with
    | nil =>
      simp only [btLoop] at h
      cases ha : sol.csp.assign v none with
      | ok s2 =>
        simp only [ha, Outcome.ok.injEq, Prod.mk.injEq] at h
        obtain ⟨hb, hsol⟩ := h
        rw [← hsol]
        refine ⟨binv_assign_ok hinv ha, sat_assign_ok ha hsat, ?_⟩
        have hinv2 := binv_assign_ok hinv ha
        exact avd_var_of_id hinv2.1 (avd_assign_ok hinv ha (avd_id_of_var havd))
      | invalid s2 =>
        simp only [ha] at h
        exact Outcome.noConfusion h
      | crash =>
        simp only [ha] at h
        exact Outcome.noConfusion h
    | cons xx rest =>
      simp only [btLoop] at h
      cases ha : sol.csp.assign v (some xx) with
      | crash =>
        simp only [ha] at h
        exact Outcome.noConfusion h
      | invalid s2 =>
        simp only [ha] at h
        have hseq : s2 = sol.csp := bAssign_invalid havd ha
        subst hseq
        exact ih { sol with csp := sol.csp } v depth rest b sol2 h hinv hsat havd
      | ok s2 =>
        simp only [ha] at h
        have hinv2 := binv_assign_ok hinv ha
        have hsat2 := sat_assign_ok ha hsat
        have havd2 := avd_var_of_id hinv2.1 (avd_assign_ok hinv ha (avd_id_of_var havd))
        cases hg : s2.getUnassigned with
        | ok pr =>
          obtain ⟨or2, s3⟩ := pr
          cases or2 with
          | none =>
            simp only [hg, Outcome.ok.injEq, Prod.mk.injEq] at h
            obtain ⟨hb, hsol⟩ := h
            rw [← hsol]
            exact ⟨binv_getU hinv2 hg, sat_getU hg hsat2, avd_getU hg havd2⟩
          | some nv =>
            simp only [hg] at h
            cases hbl : btLoop fuel { sol with csp := s3 } nv (depth + 1)
                (s3.getValues nv) with
            | ok pr2 =>
              obtain ⟨b2, solR⟩ := pr2
              have hinv3 := binv_getU hinv2 hg
              have hsat3 := sat_getU hg hsat2
              have havd3 := avd_getU hg havd2
              obtain ⟨hinv4, hsat4, havd4⟩ := ih { sol with csp := s3 } nv (depth + 1)
                (s3.getValues nv) b2 solR hbl hinv3 hsat3 havd3
              cases b2 with
              | true =>
                simp only [hbl, Outcome.ok.injEq, Prod.mk.injEq] at h
                obtain ⟨hb, hsol⟩ := h
                rw [← hsol]
                exact ⟨hinv4, hsat4, havd4⟩
              | false =>
                simp only [hbl] at h
                exact ih solR v depth rest b sol2 h hinv4 hsat4 havd4
            | invalid pr2 =>
              simp only [hbl] at h
              exact Outcome.noConfusion h
            | crash =>
              simp only [hbl] at h
              exact Outcome.noConfusion h
        | invalid pr =>
          simp only [hg] at h
          exact Outcome.noConfusion h
        | crash =>
          simp only [hg] at h
          exact Outcome.noConfusion h

/-- C4 (amended): on a well-formed, initially unassigned binary CSP, whenever
BacktrackBinaryCspSolver.solve returns normally — under any combination of the
MRV, LCV, degree and AC-3 flags — every constraint of the resulting state
checks true (in particular a full resulting assignment satisfies every
predicate). The other half of the claim, that raising InconsistentCspError is
flag-independent, is refuted by MapColor.c4_counterexample: on the same CSP
solve returns normally without AC-3 and raises with AC-3, because revise
applies an asymmetric predicate with swapped arguments. -/
theorem c4_solve_success_sound {sol sol2 : BSolver}
    (hinv : BInv sol.csp)
    (hfresh : ∀ i ∈ sol.csp.ids, sol.csp.valueOf i = none)
    (h : sol.solve = .ok sol2) :
    ∀ c ∈ sol2.csp.constraints, c.check sol2.csp = true := by
  have hfresh2 : ∀ i, sol.csp.valueOf i = none := by
    intro i
    by_cases hm : i ∈ sol.csp.ids
    · exact hfresh i hm
    · cases hv : sol.csp.valueOf i with
      | none => rfl
      | some a => exact absurd (valueOf_some_mem_ids hv) hm
  obtain ⟨A1, A2, A3, A4, A5, A6, A7, A8, A9, A10, A11⟩ := applyAc3_skel sol.csp
  unfold BSolver.solve at h
  simp only at h
  set sol0 : BSolver := if sol.useAc3 = true then { sol with csp := sol.csp.applyAc3 }
    else sol with hsol0
  have hinv0 : BInv sol0.csp := by
    rw [hsol0]
    split
    · exact binv_ac3 hinv
    · exact hinv
  have hfresh0 : ∀ i, sol0.csp.valueOf i = none := by
    intro i
    rw [hsol0]
    split
    · rw [A11 i]
      exact hfresh2 i
    · exact hfresh2 i
  have hsat0 : ∀ c ∈ sol0.csp.constraints, c.check sol0.csp = true :=
    fun c _ => checkOv_resolve_none_fst (hfresh0 c.fst)
  have havd0 : ∀ u ∈ sol0.csp.vars, ∀ a, u.value = some a → a ∈ u.domain := by
    refine avd_var_of_id hinv0.1 ?_
    intro i a hv
    rw [hfresh0 i] at hv
    exact Option.noConfusion hv
  cases hg : sol0.csp.getUnassigned with
  | ok pr =>
    obtain ⟨ov, s1⟩ := pr
    cases ov with
    | none =>
      simp only [hg, Outcome.ok.injEq] at h
      rw [← h]
      exact sat_getU hg hsat0
    | some v =>
      simp only [hg] at h
      cases hbl : btLoop ((s1.totalDomain + 2) * (s1.vars.length + 2))
          { sol0 with csp := s1 } v 0 (s1.getValues v) with
      | ok pr2 =>
        obtain ⟨b2, solR⟩ := pr2
        have hinv1 : BInv ({ sol0 with csp := s1 } : BSolver).csp := binv_getU hinv0 hg
        have hsat1 := sat_getU hg hsat0
        have havd1 := avd_getU hg havd0
        obtain ⟨hinvR, hsatR, havdR⟩ := btLoop_inv _ { sol0 with csp := s1 } v 0
          (s1.getValues v) b2 solR hbl hinv1 hsat1 havd1
        cases b2 with
        | true =>
          simp only [hbl, Outcome.ok.injEq] at h
          rw [← h]
          exact hsatR
        | false =>
          simp only [hbl] at h
          exact Outcome.noConfusion h
      | invalid pr2 =>
        simp only [hbl] at h
        exact Outcome.noConfusion h
      | crash =>
        simp only [hbl] at h
        exact Outcome.noConfusion h
  | invalid pr =>
    simp only [hg] at h
    exact Outcome.noConfusion h
  | crash =>
    simp only [hg] at h
    exact Outcome.noConfusion h

theorem c4_solve_success_sound_witness :
    BinaryConstraint.check
      ((BSolver.mk0 neCsp0 true).solve.state (BSolver.mk0 neCsp0 true)).csp
      { fst := 0, snd := 1, func := fun a b => a ≠ b } = true :=
  @c4_solve_success_sound (BSolver.mk0 neCsp0 true)
    ((BSolver.mk0 neCsp0 true).solve.state (BSolver.mk0 neCsp0 true))
    ⟨by decide, by decide, by decide, fun _ q => Iff.rfl, by decide⟩
    (by decide) rfl { fst := 0, snd := 1, func := fun a b => a ≠ b }
    (List.mem_cons_self _ _)

end MapColor















